import Mathlib

set_option maxRecDepth 20000
set_option maxHeartbeats 1000000

/- Shallow embedding of the hipermap library (C/C++ sources under src/):
   the static IPv4 prefix map (static_map.cpp), the static 64-bit map and
   set (static_uint64_map.c, static_uint64_set.c), the static domain set
   (static_domain_set.cpp, static_domain_set_find.c) and the LRU cache
   (cache.c).  Machine integers are modelled as Nat with explicit
   reduction mod 2^32 / 2^64 at the operations where C unsigned
   arithmetic can wrap.  Loops whose termination depends on data are
   modelled with explicit fuel; a fuel-out result is distinguished from
   every result the C code can produce. -/

/- ===================== error codes (src/common.h) ===================== -/

def HM_SUCCESS : Nat := 0

def HM_ERROR_SMALL_PLACE : Nat := 2

def HM_ERROR_NO_MASKS : Nat := 3

def HM_ERROR_BAD_VALUE : Nat := 4

def HM_ERROR_BAD_RANGE : Nat := 5

def HM_ERROR_BAD_SIZE : Nat := 6

def HM_ERROR_TOO_MANY_POPULAR_DOMAINS : Nat := 7

def HM_ERROR_FAILED_TO_CALIBRATE : Nat := 8

def HM_ERROR_TOP_LEVEL_DOMAIN : Nat := 9

def U64MOD : Nat := 2 ^ 64

def U32MOD : Nat := 2 ^ 32

/- ============== static 64-bit map (src/static_uint64_map.c) ==============
   and static 64-bit set (src/static_uint64_set.c).  The two files define
   textually identical hash functions (hm_u64map_hash64 / hm_u64_hash64)
   and bucket calibration; the map stores (key, value) pairs, the set
   stores bare keys. -/

/- hm_u64_hash64 / hm_u64map_hash64: three-round xor-multiply-shift on a
   64-bit key with per-database factors. -/
def hm_u64_hash64 (factor1 factor2 key : Nat) : Nat :=
  let k1 := key ^^^ (key >>> 33)
  let k2 := (k1 * factor1) % U64MOD
  let k3 := k2 ^^^ (k2 >>> 33)
  let k4 := (k3 * factor2) % U64MOD
  k4 ^^^ (k4 >>> 33)

/- round_up_to_power_of_2: power = 1; while (power < n) power *= 2.
   The doubling reaches n within n iterations, so fuel n is enough. -/
def roundUpPow2Go : Nat → Nat → Nat → Nat
  | 0, _, power => power
  | fuel + 1, n, power => if power < n then roundUpPow2Go fuel n (power * 2) else power

def round_up_to_power_of_2 (n : Nat) : Nat := roundUpPow2Go n n 1

/- hash_table_buckets: round_up_to_power_of_2(elements) * items_in_bucket(4) * 2,
   at least 16.  Same in both files. -/
def hash_table_buckets (elements : Nat) : Nat :=
  let r := round_up_to_power_of_2 elements * 4 * 2
  if r < 16 then 16 else r

def slotKey (t : List (Nat × Nat)) (i : Nat) : Nat := (t.getD i (0, 0)).1

def slotVal (t : List (Nat × Nat)) (i : Nat) : Nat := (t.getD i (0, 0)).2

/- Result of trying to place one key into its 4-slot quartet, or of one
   whole insertion pass: duplicate key detected, quartet overflow
   (collision), or the updated table. -/
inductive U64PassResult (τ : Type) where
  | dup : U64PassResult τ
  | collision : U64PassResult τ
  | ok : τ → U64PassResult τ
deriving Repr, DecidableEq

/- One iteration of the insertion loop body of hm_u64map_compile
   (static_uint64_map.c lines 161-196): duplicate check over the quartet
   first, then first free slot, else collision. -/
def u64mapInsertOne (t : List (Nat × Nat)) (b key value : Nat) :
    U64PassResult (List (Nat × Nat)) :=
  if slotKey t b = key ∨ slotKey t (b + 1) = key ∨ slotKey t (b + 2) = key ∨
      slotKey t (b + 3) = key then .dup
  else if slotKey t b = 0 then .ok (t.set b (key, value))
  else if slotKey t (b + 1) = 0 then .ok (t.set (b + 1) (key, value))
  else if slotKey t (b + 2) = 0 then .ok (t.set (b + 2) (key, value))
  else if slotKey t (b + 3) = 0 then .ok (t.set (b + 3) (key, value))
  else .collision

/- One insertion pass of hm_u64map_compile over all (key, value) pairs. -/
def u64mapInsertPass (f1 f2 mask : Nat) (t : List (Nat × Nat)) :
    List (Nat × Nat) → U64PassResult (List (Nat × Nat))
  | [] => .ok t
  | (key, value) :: rest =>
    let b := hm_u64_hash64 f1 f2 key &&& mask
    match u64mapInsertOne t b key value with
    | .dup => .dup
    | .collision => .collision
    | .ok t2 => u64mapInsertPass f1 f2 mask t2 rest

/- Factor update executed on a quartet-overflow collision
   (static_uint64_map.c lines 205-208, static_uint64_set.c lines 169-172):
       db->factor1 = hash64(db, keys[0]);
       db->factor2 = hash64(db, keys[0]);
   The second call reads the factor1 field that the first assignment has
   already overwritten, so the two stores generally differ. -/
def u64NextFactors (f1 f2 key0 : Nat) : Nat × Nat :=
  let g1 := hm_u64_hash64 f1 f2 key0
  let g2 := hm_u64_hash64 g1 f2 key0
  (g1, g2)

inductive U64Calibrated (τ : Type) where
  | dup : U64Calibrated τ
  | exhausted : U64Calibrated τ
  | ok : Nat → Nat → τ → U64Calibrated τ
deriving Repr, DecidableEq

/- The while(true) calibration loop of hm_u64map_compile, with fuel for
   the unbounded retry. -/
def u64mapCalibrate (mask buckets key0 : Nat) (kvs : List (Nat × Nat)) :
    Nat → Nat → Nat → U64Calibrated (List (Nat × Nat))
  | 0, _, _ => .exhausted
  | fuel + 1, f1, f2 =>
    match u64mapInsertPass f1 f2 mask (List.replicate buckets (0, 0)) kvs with
    | .dup => .dup
    | .ok t => .ok f1 f2 t
    | .collision =>
      let g := u64NextFactors f1 f2 key0
      u64mapCalibrate mask buckets key0 kvs fuel g.1 g.2

/- Inner loop of the zero-quartet repair: increment the slot key until its
   natural quartet differs from the current one (the `while (true)` at
   static_uint64_map.c lines 218-225). -/
def u64FindFreeKey (f1 f2 mask target : Nat) : Nat → Nat → Option Nat
  | 0, _ => none
  | fuel + 1, key =>
    let key2 := (key + 1) % U64MOD
    if hm_u64_hash64 f1 f2 key2 &&& mask ≠ target then some key2
    else u64FindFreeKey f1 f2 mask target fuel key2

def u64mapZeroRepairSlot (f1 f2 mask fuel : Nat) (t : List (Nat × Nat)) (b0 : Nat) :
    Option (List (Nat × Nat)) :=
  if slotKey t b0 = 0 then
    match u64FindFreeKey f1 f2 mask (b0 &&& mask) fuel (slotKey t b0) with
    | none => none
    | some k => some (t.set b0 (k, slotVal t b0))
  else some t

/- Zero-quartet repair (static_uint64_map.c lines 210-227): every free
   slot of the quartet that key 0 hashes to is filled with a synthetic
   non-zero key whose own quartet is different. -/
def u64mapZeroRepair (f1 f2 mask fuel : Nat) (t : List (Nat × Nat)) :
    Option (List (Nat × Nat)) := do
  let b := hm_u64_hash64 f1 f2 0 &&& mask
  let t1 ← u64mapZeroRepairSlot f1 f2 mask fuel t b
  let t2 ← u64mapZeroRepairSlot f1 f2 mask fuel t1 (b + 1)
  let t3 ← u64mapZeroRepairSlot f1 f2 mask fuel t2 (b + 2)
  u64mapZeroRepairSlot f1 f2 mask fuel t3 (b + 3)

/- The final qsort of each quartet by key (static_uint64_map.c lines
   229-233).  qsort with comp_key_value sorts the 4 records of a quartet
   by key; ties can only be bit-identical records here, so any sorting
   algorithm produces the same list.  We use insertion sort. -/
def kvInsertByKey (p : Nat × Nat) : List (Nat × Nat) → List (Nat × Nat)
  | [] => [p]
  | q :: rest => if p.1 ≤ q.1 then p :: q :: rest else q :: kvInsertByKey p rest

def kvSortByKey (l : List (Nat × Nat)) : List (Nat × Nat) := l.foldr kvInsertByKey []

def sortQuartets : List (Nat × Nat) → List (Nat × Nat)
  | a :: b :: c :: d :: rest => kvSortByKey [a, b, c, d] ++ sortQuartets rest
  | l => l

structure U64MapDB where
  factor1 : Nat
  factor2 : Nat
  maskForHash : Nat
  hashTable : List (Nat × Nat)
deriving Repr, DecidableEq

/- hm_u64map_compile.  The db_place size / alignment bookkeeping of the C
   function manages caller memory only and is not part of the model.
   Outer Option is fuel exhaustion of the unbounded C loops (never the
   result of a terminating C run); the Except carries hm_error_t. -/
def hm_u64map_compile (fuelCal fuelRepair : Nat) (keys values : List Nat) :
    Option (Except Nat U64MapDB) :=
  if keys.length = 0 then some (.error HM_ERROR_NO_MASKS)
  else if keys.any (· == 0) || values.any (· == 0) then some (.error HM_ERROR_BAD_VALUE)
  else
    match u64mapCalibrate (hash_table_buckets keys.length - 1 - 3)
        (hash_table_buckets keys.length) (keys.headD 0) (keys.zip values) fuelCal
        0xA6C3096657A14E89 0x24F963569D05D92E with
    | .dup => some (.error HM_ERROR_BAD_VALUE)
    | .exhausted => none
    | .ok f1 f2 t =>
      match u64mapZeroRepair f1 f2 (hash_table_buckets keys.length - 1 - 3) fuelRepair t with
      | none => none
      | some t1 =>
        some (.ok ⟨f1, f2, hash_table_buckets keys.length - 1 - 3, sortQuartets t1⟩)

/- hm_u64map_find (static_uint64_map.c lines 242-263). -/
def hm_u64map_find (db : U64MapDB) (key : Nat) : Nat :=
  let h := hm_u64_hash64 db.factor1 db.factor2 key
  let b := h &&& db.maskForHash
  if slotKey db.hashTable b = key then slotVal db.hashTable b
  else if slotKey db.hashTable (b + 1) = key then slotVal db.hashTable (b + 1)
  else if slotKey db.hashTable (b + 2) = key then slotVal db.hashTable (b + 2)
  else if slotKey db.hashTable (b + 3) = key then slotVal db.hashTable (b + 3)
  else 0

/- ------------- the set sibling (src/static_uint64_set.c) ------------- -/

def setSlot (t : List Nat) (i : Nat) : Nat := t.getD i 0

def u64setInsertOne (t : List Nat) (b key : Nat) : U64PassResult (List Nat) :=
  if setSlot t b = key ∨ setSlot t (b + 1) = key ∨ setSlot t (b + 2) = key ∨
      setSlot t (b + 3) = key then .dup
  else if setSlot t b = 0 then .ok (t.set b key)
  else if setSlot t (b + 1) = 0 then .ok (t.set (b + 1) key)
  else if setSlot t (b + 2) = 0 then .ok (t.set (b + 2) key)
  else if setSlot t (b + 3) = 0 then .ok (t.set (b + 3) key)
  else .collision

def u64setInsertPass (f1 f2 mask : Nat) (t : List Nat) :
    List Nat → U64PassResult (List Nat)
  | [] => .ok t
  | key :: rest =>
    let b := hm_u64_hash64 f1 f2 key &&& mask
    match u64setInsertOne t b key with
    | .dup => .dup
    | .collision => .collision
    | .ok t2 => u64setInsertPass f1 f2 mask t2 rest

def u64setCalibrate (mask buckets key0 : Nat) (keys : List Nat) :
    Nat → Nat → Nat → U64Calibrated (List Nat)
  | 0, _, _ => .exhausted
  | fuel + 1, f1, f2 =>
    match u64setInsertPass f1 f2 mask (List.replicate buckets 0) keys with
    | .dup => .dup
    | .ok t => .ok f1 f2 t
    | .collision =>
      let g := u64NextFactors f1 f2 key0
      u64setCalibrate mask buckets key0 keys fuel g.1 g.2

def u64setZeroRepairSlot (f1 f2 mask fuel : Nat) (t : List Nat) (b0 : Nat) :
    Option (List Nat) :=
  if setSlot t b0 = 0 then
    match u64FindFreeKey f1 f2 mask (b0 &&& mask) fuel (setSlot t b0) with
    | none => none
    | some k => some (t.set b0 k)
  else some t

def u64setZeroRepair (f1 f2 mask fuel : Nat) (t : List Nat) : Option (List Nat) := do
  let b := hm_u64_hash64 f1 f2 0 &&& mask
  let t1 ← u64setZeroRepairSlot f1 f2 mask fuel t b
  let t2 ← u64setZeroRepairSlot f1 f2 mask fuel t1 (b + 1)
  let t3 ← u64setZeroRepairSlot f1 f2 mask fuel t2 (b + 2)
  u64setZeroRepairSlot f1 f2 mask fuel t3 (b + 3)

structure U64SetDB where
  factor1 : Nat
  factor2 : Nat
  maskForHash : Nat
  hashTable : List Nat
deriving Repr, DecidableEq

/- hm_u64_compile (static_uint64_set.c lines 86-197); no value array and
   no final quartet sort. -/
def hm_u64_compile (fuelCal fuelRepair : Nat) (keys : List Nat) :
    Option (Except Nat U64SetDB) :=
  if keys.length = 0 then some (.error HM_ERROR_NO_MASKS)
  else if keys.any (· == 0) then some (.error HM_ERROR_BAD_VALUE)
  else
    match u64setCalibrate (hash_table_buckets keys.length - 1 - 3)
        (hash_table_buckets keys.length) (keys.headD 0) keys fuelCal
        0xA6C3096657A14E89 0x24F963569D05D92E with
    | .dup => some (.error HM_ERROR_BAD_VALUE)
    | .exhausted => none
    | .ok f1 f2 t =>
      match u64setZeroRepair f1 f2 (hash_table_buckets keys.length - 1 - 3) fuelRepair t with
      | none => none
      | some t1 => some (.ok ⟨f1, f2, hash_table_buckets keys.length - 1 - 3, t1⟩)

/- hm_u64_find (static_uint64_set.c lines 199-205). -/
def hm_u64_find (db : U64SetDB) (key : Nat) : Bool :=
  let h := hm_u64_hash64 db.factor1 db.factor2 key
  let b := h &&& db.maskForHash
  setSlot db.hashTable b = key ∨ setSlot db.hashTable (b + 1) = key ∨
    setSlot db.hashTable (b + 2) = key ∨ setSlot db.hashTable (b + 3) = key

/- The four slots of the quartet that a lookup for a key scans. -/
def quartetSlots (t : List (Nat × Nat)) (b : Nat) : List (Nat × Nat) :=
  [t.getD b (0, 0), t.getD (b + 1) (0, 0), t.getD (b + 2) (0, 0), t.getD (b + 3) (0, 0)]

def quartetSlotsSet (t : List Nat) (b : Nat) : List Nat :=
  [t.getD b 0, t.getD (b + 1) 0, t.getD (b + 2) 0, t.getD (b + 3) 0]

/- Invariant of the insertion pass: every non-empty slot holds one of the
   already-processed pairs and sits inside the quartet its key hashes to. -/
def u64mapSlotsOK (f1 f2 mask : Nat) (done : List (Nat × Nat)) (t : List (Nat × Nat)) : Prop :=
  ∀ i, i < t.length → slotKey t i ≠ 0 →
    t.getD i (0, 0) ∈ done ∧ i &&& mask = hm_u64_hash64 f1 f2 (slotKey t i) &&& mask

/- Invariant of the insertion pass: every processed pair is stored in some
   slot of its key's quartet. -/
def u64mapStoredOK (f1 f2 mask : Nat) (done : List (Nat × Nat)) (t : List (Nat × Nat)) : Prop :=
  ∀ kv ∈ done, ∃ i, i < t.length ∧ t.getD i (0, 0) = kv ∧
    i &&& mask = hm_u64_hash64 f1 f2 kv.1 &&& mask

def u64setSlotsOK (f1 f2 mask : Nat) (done : List Nat) (t : List Nat) : Prop :=
  ∀ i, i < t.length → setSlot t i ≠ 0 →
    setSlot t i ∈ done ∧ i &&& mask = hm_u64_hash64 f1 f2 (setSlot t i) &&& mask

def u64setStoredOK (f1 f2 mask : Nat) (done : List Nat) (t : List Nat) : Prop :=
  ∀ k ∈ done, ∃ i, i < t.length ∧ setSlot t i = k ∧
    i &&& mask = hm_u64_hash64 f1 f2 k &&& mask

/- ================= static prefix map (static_map.cpp) ================= -/

/- HM_NO_VALUE ((uint64_t)(0xFFFFFFFFFFFFFFFF)), static_map.h. -/
def HM_NO_VALUE : Nat := 0xFFFFFFFFFFFFFFFF

/- const uint32_t ip_xor = 1 << 31: the bias that turns unsigned 32-bit
   comparison into signed comparison of the XORed values. -/
def ip_xor : Nat := 2 ^ 31

/- The value of a 32-bit pattern read as int32_t (two's complement). -/
def toSigned32 (x : Nat) : Int :=
  if x < 2 ^ 31 then (x : Int) else (x : Int) - 2 ^ 32

/- hm_end_ip_of_zone: uint32 arithmetic, wraps modulo 2^32 (the +1 carry out
   of bit 31 is lost when the zone ends at address 2^32). -/
def hm_end_ip_of_zone (ip cidr : Nat) : Nat :=
  (((ip >>> (32 - cidr)) + 1) <<< (32 - cidr)) % U32MOD

/- The validation loop of hm_sm_compile, in source order per element:
   value != HM_NO_VALUE, no host bits below the prefix, cidr in [1, 32].
   (For cidr = 0 or cidr > 32 the C shift `1 << (32 - cidr)` is undefined
   behaviour; the model uses Nat shifts, under which the third check still
   reports HM_ERROR_BAD_RANGE for those inputs.) -/
def smValidate : List (Nat × Nat × Nat) → Option Nat
  | [] => none
  | (ip, cidr, v) :: rest =>
    if v = HM_NO_VALUE then some HM_ERROR_BAD_VALUE
    else if ip &&& ((1 <<< (32 - cidr)) - 1) ≠ 0 then some HM_ERROR_BAD_RANGE
    else if cidr = 0 ∨ 32 < cidr then some HM_ERROR_BAD_RANGE
    else smValidate rest

/- The std::sort comparator of hm_sm_compile: by ip, ties by smaller cidr
   first (larger zones open first).  Modelled as a stable insertion sort;
   std::sort is unstable, but the comparator is only partial on inputs that
   repeat the same (ip, cidr) pair. -/
def smLtInput (a b : Nat × Nat × Nat) : Bool :=
  if a.1 = b.1 then a.2.1 < b.2.1 else a.1 < b.1

def smInsertSorted (x : Nat × Nat × Nat) :
    List (Nat × Nat × Nat) → List (Nat × Nat × Nat)
  | [] => [x]
  | y :: ys => if smLtInput y x then y :: smInsertSorted x ys else x :: y :: ys

def smSort : List (Nat × Nat × Nat) → List (Nat × Nat × Nat)
  | [] => []
  | x :: xs => smInsertSorted x (smSort xs)

/- pushToSorted on the reversed accumulator (head = sorted.back()). -/
def pushToSorted (acc : List (Nat × Nat)) (ip value : Nat) : List (Nat × Nat) :=
  match acc with
  | [] => [(ip, value)]
  | (ip0, v0) :: rest =>
    if ip0 = ip then (ip0, value) :: rest else (ip, value) :: (ip0, v0) :: rest

/- The value reopened when a zone closes: the value of the enclosing zone on
   the ends stack, or HM_NO_VALUE at top level. -/
def smReopened (stack : List (Nat × Nat)) : Nat :=
  match stack with
  | [] => HM_NO_VALUE
  | (_, rv) :: _ => rv

/- The `while (!ends_stack.empty() && ends_stack.back().ip < input.ip)` loop:
   close every zone that ends before the next input starts. -/
def closeBefore (inIp : Nat) :
    List (Nat × Nat) → List (Nat × Nat) → List (Nat × Nat) × List (Nat × Nat)
  | acc, [] => (acc, [])
  | acc, (eip, ev) :: rest =>
    if eip < inIp then closeBefore inIp (pushToSorted acc eip (smReopened rest)) rest
    else (acc, (eip, ev) :: rest)

/- The `if (!ends_stack.empty() && ends_stack.back().ip == input.ip)` pop. -/
def smPopEqual (inIp : Nat) (stack : List (Nat × Nat)) : List (Nat × Nat) :=
  match stack with
  | (eip, _) :: rest => if eip = inIp then rest else stack
  | [] => stack

/- Record the zone end on the stack: redefine the value if a zone already
   ends at the same ip, else push a new entry. -/
def smPushEnd (endIp val : Nat) (stack : List (Nat × Nat)) : List (Nat × Nat) :=
  match stack with
  | (eip, ev) :: rest =>
    if eip = endIp then (eip, val) :: rest
    else (endIp, val) :: (eip, ev) :: rest
  | [] => [(endIp, val)]

/- The body of the main sweep loop of hm_sm_compile for one input element. -/
def smStep (st : List (Nat × Nat) × List (Nat × Nat)) (input : Nat × Nat × Nat) :
    List (Nat × Nat) × List (Nat × Nat) :=
  let closed := closeBefore input.1 st.1 st.2
  (pushToSorted closed.1 input.1 input.2.2,
   smPushEnd (hm_end_ip_of_zone input.1 input.2.1) input.2.2
     (smPopEqual input.1 closed.2))

/- The final `while (!ends_stack.empty())` loop closing all open zones. -/
def smDrain : List (Nat × Nat) → List (Nat × Nat) → List (Nat × Nat)
  | acc, [] => acc
  | acc, (eip, _) :: rest => smDrain (pushToSorted acc eip (smReopened rest)) rest

/- std::lower_bound on max_ips (int32 values, signed comparison): the
   libstdc++ halving walk, verbatim. -/
def lowerBoundGo (a : List Nat) (t : Int) : Nat → Nat → Nat → Nat
  | first, _, 0 => first
  | first, count, Nat.succ fuel =>
    if count = 0 then first
    else
      if toSigned32 (a.getD (first + count / 2) 0) < t then
        lowerBoundGo a t (first + count / 2 + 1) (count - count / 2 - 1) fuel
      else
        lowerBoundGo a t first (count / 2) fuel

/- One entry of fill_hashtable: index returned by std::lower_bound over the
   whole max_ips array for the target int32((hash << 16) ^ ip_xor).  The
   count strictly decreases on every iteration of the halving loop, so fuel
   equal to the initial count is never exhausted. -/
def fillHashtableEntry (mips : List Nat) (h : Nat) : Nat :=
  lowerBoundGo mips (toSigned32 ((h <<< 16) ^^^ ip_xor)) 0 mips.length mips.length

/- The 65536-entry hashtable array is represented by its index function:
   fill_hashtable stores fillHashtableEntry mips h at index h for every
   h <= hm_max_hash, and hm_sm_find only reads indices ip >> 16 <= 65535. -/
structure SMDB where
  listSize : Nat
  hashtable : Nat → Nat
  max_ips : List Nat
  values : List Nat

/- hm_sm_compile.  The db_place alignment and size bookkeeping (which only
   concern the caller's buffer) are abstracted away; everything else follows
   the source: validate, sort, sweep with the ends stack, append the
   (0, HM_NO_VALUE) terminator, XOR the ips with ip_xor, store
   max_ips[i] = sorted[i+1].ip - 1 (uint32 wrap) and values[i] =
   sorted[i].value, and fill the 65536-entry jump table. -/
def hm_sm_compile (inputs : List (Nat × Nat × Nat)) : Except Nat SMDB :=
  if inputs.length = 0 then .error HM_ERROR_NO_MASKS
  else match smValidate inputs with
  | some err => .error err
  | none =>
    let st := (smSort inputs).foldl smStep ([(0, HM_NO_VALUE)], [])
    let accFinal := pushToSorted (smDrain st.1 st.2) 0 HM_NO_VALUE
    let sortedBiased := accFinal.reverse.map (fun p => (p.1 ^^^ ip_xor, p.2))
    let mips := sortedBiased.tail.map (fun p => (p.1 + (U32MOD - 1)) % U32MOD)
    Except.ok
      { listSize := sortedBiased.length - 1,
        hashtable := fillHashtableEntry mips,
        max_ips := mips,
        values := sortedBiased.dropLast.map (fun p => p.2) }

/- The `while (*it < ip) it++;` scan of hm_sm_find.  Reading past the end of
   max_ips is undefined behaviour in C; the model returns none there.  The
   fuel is exactly the number of in-bounds steps plus one. -/
def scanFrom (mips : List Nat) (ip : Int) : Nat → Nat → Option Nat
  | _, 0 => none
  | i, Nat.succ fuel =>
    if i < mips.length then
      if toSigned32 (mips.getD i 0) < ip then scanFrom mips ip (i + 1) fuel
      else some i
    else none

def hm_sm_find (db : SMDB) (ip0 : Nat) : Option Nat :=
  let b := db.hashtable (ip0 >>> 16)
  match scanFrom db.max_ips (toSigned32 (ip0 ^^^ ip_xor)) b
      (db.max_ips.length + 1 - b) with
  | some idx => some (db.values.getD idx 0)
  | none => none

/- Spec-side definition (from the claim's words): input prefix (ip, cidr)
   covers the 32-bit address x. -/
def smCovers (ip cidr x : Nat) : Prop := x >>> (32 - cidr) = ip >>> (32 - cidr)

instance (ip cidr x : Nat) : Decidable (smCovers ip cidr x) := by
  unfold smCovers; infer_instance

/- Spec-side definition (from the claim's words for C8): the smallest index i
   such that max_ips[i], read back as unsigned by undoing the XOR bias, is at
   least (h << 16) - 1; mips.length if there is none. -/
def claimC8SpecIndex (mips : List Nat) (h : Nat) : Nat :=
  mips.findIdx (fun v => decide ((h <<< 16) - 1 ≤ v ^^^ ip_xor))


/- ============ static domain set (static_domain_set.cpp, _find.c) ============ -/

/- Domains are byte strings: lists of byte values.  D = 16 domains per record;
   MAX_DOMAIN_LEN = 253 (static_domain_set_internal.h). -/
def D : Nat := 16

def MAX_DOMAIN_LEN : Nat := 253

/- The 64-bit span hash hash64_span_ci is XXH3_64bits_withSeed from the
   vendored cvendor/xxhash.h, which is not part of src/.  All definitions
   below take the hash as a parameter H : span bytes -> seed -> 64-bit value,
   and theorems instantiate it.  asciiBytes encodes string literals. -/
def asciiBytes (s : String) : List Nat := s.toList.map Char.toNat

/- The scalar fallback of domain_to_lower (domain_to_lower.h): lowercase
   ASCII letters via OR 0x20 and validate every byte to be in
   [A-Za-z0-9._-]; none on an invalid byte. -/
def domain_to_lower : List Nat → Option (List Nat)
  | [] => some []
  | c :: rest =>
    let cl := c ||| 0x20
    let isAlpha := 97 ≤ cl ∧ cl ≤ 122
    if isAlpha ∨ (48 ≤ c ∧ c ≤ 57) ∨ c = 45 ∨ c = 46 ∨ c = 95 then
      (domain_to_lower rest).map (fun r => (if isAlpha then cl else c) :: r)
    else none

/- cut_last_domain_label_naive on positions: scan backwards from e for a dot
   (byte 46) and return the index after it, or s if none in [s, e). -/
def cutLastLabelGo (d : List Nat) (s : Nat) : Nat → Nat
  | 0 => s
  | Nat.succ q =>
    if Nat.succ q ≤ s then s
    else if d.getD q 0 = 46 then q + 1
    else cutLastLabelGo d s q

def cut_last_domain_label (d : List Nat) (s e : Nat) : Nat :=
  if e ≤ s then s else cutLastLabelGo d s e

/- suffix_last_k_labels: position of the start of the last k labels of d, or
   0 (the whole string) if d has fewer than k labels. -/
def suffixLastKGo (d : List Nat) : Nat → Nat → Option Nat
  | pe, 0 => some pe
  | pe, Nat.succ k =>
    let label := cut_last_domain_label d 0 pe
    if label = 0 then none
    else suffixLastKGo d (label - 1) k

def suffix_last_k_labels (d : List Nat) (k : Nat) : Nat :=
  match suffixLastKGo d d.length k with
  | none => 0
  | some pe => pe + 1

/- is_subdomain: s equals suf or ends with "." ++ suf. -/
def is_subdomain (s suf : List Nat) : Bool :=
  if s.length < suf.length then false
  else if s.drop (s.length - suf.length) ≠ suf then false
  else if s.length = suf.length then true
  else s.getD (s.length - suf.length - 1) 0 = 46

/- Lexicographic byte-list comparison (std::lexicographical_compare /
   std::string_view operator<). -/
def bytesLt : List Nat → List Nat → Bool
  | [], [] => false
  | [], _ :: _ => true
  | _ :: _, [] => false
  | a :: as, b :: bs => if a < b then true else if b < a then false else bytesLt as bs

/- less_rev_char: compare from the last character backwards. -/
def less_rev_char (a b : List Nat) : Bool := bytesLt a.reverse b.reverse

/- std::sort by less_rev_char, modelled as a stable insertion sort (the
   comparator is total on distinct reversed strings; exact duplicates are
   merged by the prune scan right after). -/
def pruneInsert (x : List Nat) : List (List Nat) → List (List Nat)
  | [] => [x]
  | y :: ys => if less_rev_char y x then y :: pruneInsert x ys else x :: y :: ys

def pruneSort : List (List Nat) → List (List Nat)
  | [] => []
  | x :: xs => pruneInsert x (pruneSort xs)

/- The prune scan: keep an entry unless it is a subdomain (or duplicate) of
   the previously kept entry (out.back(), the accumulator head). -/
def pruneKeepGo (out : List (List Nat)) : List (List Nat) → List (List Nat)
  | [] => out.reverse
  | s :: rest =>
    match out with
    | [] => pruneKeepGo [s] rest
    | base :: _ => if is_subdomain s base then pruneKeepGo out rest
                   else pruneKeepGo (s :: out) rest

def prune_subdomains_revchar (ds : List (List Nat)) : List (List Nat) :=
  if ds.isEmpty then ds else pruneKeepGo [] (pruneSort ds)

def stripTrailingDots (d : List Nat) : List Nat :=
  (d.reverse.dropWhile (fun c => c == 46)).reverse

/- preprocess_domains_views: per input, strip trailing dots, check the
   length is in [1, MAX_DOMAIN_LEN], lowercase and validate; then prune. -/
def preprocessGo : List (List Nat) → Option (List (List Nat))
  | [] => some []
  | d :: rest =>
    let stripped := stripTrailingDots d
    if stripped.length = 0 ∨ MAX_DOMAIN_LEN < stripped.length then none
    else match domain_to_lower stripped with
      | none => none
      | some low => (preprocessGo rest).map (fun r => low :: r)

def preprocess_domains_views (ds : List (List Nat)) : Option (List (List Nat)) :=
  (preprocessGo ds).map prune_subdomains_revchar

/- find_popular_suffixes.  Grouping via std::map is modelled by filtering on
   first-occurrence-ordered keys: the grouping is a partition, so the map's
   iteration order only permutes `popular` and the next frontier, and the
   final result is sorted and deduplicated anyway. -/
def dedupGo (seen : List (List Nat)) : List (List Nat) → List (List Nat)
  | [] => []
  | x :: xs => if x ∈ seen then dedupGo seen xs else x :: dedupGo (x :: seen) xs

def suffixKeyOf (depth : Nat) (s : List Nat) : List Nat :=
  s.drop (suffix_last_k_labels s depth)

def popularLoop : Nat → List (List Nat) → Nat → List (List Nat) →
    Option (List (List Nat))
  | 0, _, _, _ => none
  | Nat.succ fuel, frontier, depth, popular =>
    let keys := dedupGo [] (frontier.map (suffixKeyOf depth))
    let bigKeys := keys.filter
      (fun k => D < (frontier.filter (fun s => suffixKeyOf depth s == k)).length)
    let nextFrontier := (bigKeys.map
      (fun k => frontier.filter (fun s => suffixKeyOf depth s == k))).flatten
    let popular2 := popular ++ bigKeys
    if nextFrontier.isEmpty then some popular2
    else popularLoop fuel nextFrontier (depth + 1) popular2

def popInsertLex (x : List Nat) : List (List Nat) → List (List Nat)
  | [] => [x]
  | y :: ys => if bytesLt y x then y :: popInsertLex x ys else x :: y :: ys

def popSortLex : List (List Nat) → List (List Nat)
  | [] => []
  | x :: xs => popInsertLex x (popSortLex xs)

def dedupAdj : List (List Nat) → List (List Nat)
  | [] => []
  | [x] => [x]
  | x :: y :: r => if x = y then dedupAdj (y :: r) else x :: dedupAdj (y :: r)

/- The depth loop of find_popular_suffixes runs at most as many rounds as the
   deepest domain has labels; 256 rounds of fuel cover MAX_DOMAIN_LEN. -/
def find_popular_suffixes (domains : List (List Nat)) : Option (List (List Nat)) :=
  if domains.isEmpty then some []
  else (popularLoop 256 domains 2 []).map (fun pop => dedupAdj (popSortLex pop))

/- fastmod (cvendor/fastmod.h, vendored outside src/).  Modelled from the
   spec: fastmod_u32(h, M, n) is h mod n; computeM_u32 is the published
   precomputation 2^64/d + 1 (truncated), kept only as a stored field. -/
def computeM_u32 (d : Nat) : Nat := (0xFFFFFFFFFFFFFFFF / d + 1) % U64MOD

def fastmod_u32 (h _M n : Nat) : Nat := h % n

/- build_chained_bucket_and_tag: hash the last two labels with the seed,
   strip popular suffixes from the right (chaining each stripped label into
   the hash), take the 32-bit bucket hash, then keep chaining the remaining
   labels to the left for the 16-bit tag and the scan count. -/
def popStrip (H : List Nat → Nat → Nat) (d : List Nat) (popular : List (List Nat)) :
    Nat → Nat → Nat → Nat × Nat
  | sap, h, 0 => (sap, h)
  | sap, h, Nat.succ fuel =>
    if sap = 0 then (sap, h)
    else if popular.contains (d.drop sap) then
      let labelEnd := sap - 1
      let labelStart := cut_last_domain_label d 0 labelEnd
      popStrip H d popular labelStart
        (H ((d.drop labelStart).take (labelEnd - labelStart)) h) fuel
    else (sap, h)

def tagClimb (H : List Nat → Nat → Nat) (d : List Nat) :
    Nat → Nat → Nat → Nat → Nat × Nat
  | _, hf, scans, 0 => (hf, scans)
  | cur, hf, scans, Nat.succ fuel =>
    if cur = 0 then (hf, scans)
    else
      let labelEnd := cur - 1
      let labelStart := cut_last_domain_label d 0 labelEnd
      tagClimb H d labelStart
        (H ((d.drop labelStart).take (labelEnd - labelStart)) hf) (scans + 1) fuel

def build_chained_bucket_and_tag (H : List Nat → Nat → Nat) (d : List Nat)
    (seed : Nat) (popular : List (List Nat)) : Nat × Nat × Nat :=
  let s1 := cut_last_domain_label d 0 d.length
  let suffix := if 0 < s1 then cut_last_domain_label d 0 (s1 - 1) else s1
  let h := H (d.drop suffix) seed
  let sh := popStrip H d popular suffix h (suffix + 1)
  let tg := tagClimb H d sh.1 sh.2 1 (sh.1 + 1)
  ((tg.1 >>> 32) &&& 0xFFFF, sh.2 % U32MOD, tg.2)

/- One bucket record: tags, stored domains and max_scans are kept in sync
   (used_slots is the common length); the blob layout (NUL-terminated,
   16-byte-aligned copies) is represented by the strings themselves. -/
structure DRec where
  tags : List Nat
  items : List (List Nat)
  max_scans : Nat
deriving Repr, DecidableEq

def emptyDRec : DRec := { tags := [], items := [], max_scans := 0 }

def tryBuildGo (H : List Nat → Nat → Nat) (seed buckets : Nat)
    (popular : List (List Nat)) : List (List Nat) → List DRec → Option (List DRec)
  | [], out => some out
  | sv :: rest, out =>
    if sv.length = 0 then tryBuildGo H seed buckets popular rest out
    else
      let tbm := build_chained_bucket_and_tag H sv seed popular
      let b := fastmod_u32 tbm.2.1 (computeM_u32 buckets) buckets
      let r := out.getD b emptyDRec
      if D ≤ r.items.length then none
      else tryBuildGo H seed buckets popular rest
        (out.set b { tags := r.tags ++ [tbm.1], items := r.items ++ [sv],
                     max_scans := max r.max_scans tbm.2.2 })

def try_build_records (H : List Nat → Nat → Nat) (domains : List (List Nat))
    (seed buckets : Nat) (popular : List (List Nat)) : Option (List DRec) :=
  tryBuildGo H seed buckets popular domains (List.replicate buckets emptyDRec)

/- calibrate_and_build_preview: CALIB_SEED_TRIES = 100 pre-incremented seeds
   per size, CALIB_GROW_STEPS = 60 sizes growing by max(+5%, +1); the seed
   counter runs on across growth steps. -/
def calibInner (H : List Nat → Nat → Nat) (domains popular : List (List Nat))
    (buckets : Nat) : Nat → Nat → Option (Nat × List DRec) × Nat
  | seed, 0 => (none, seed)
  | seed, Nat.succ t =>
    let s1 := (seed + 1) % U32MOD
    match try_build_records H domains s1 buckets popular with
    | some out => (some (s1, out), s1)
    | none => calibInner H domains popular buckets s1 t

def calibOuter (H : List Nat → Nat → Nat) (domains popular : List (List Nat)) :
    Nat → Nat → Nat → Option (Nat × Nat × List DRec)
  | _, _, 0 => none
  | buckets, seed, Nat.succ g =>
    match calibInner H domains popular buckets seed 100 with
    | (some so, _) => some (so.1, buckets, so.2)
    | (none, s2) =>
      calibOuter H domains popular (max (buckets * 21 / 20) (buckets + 1)) s2 g

def calibrate_and_build_preview (H : List Nat → Nat → Nat)
    (domains popular : List (List Nat)) : Option (Nat × Nat × List DRec) :=
  calibOuter H domains popular (domains.length / D + 1) 0xA17F2344 60

/- The tag stored for a popular suffix in the popular table: same chained
   order as hm_domain_find, with no popular stripping. -/
def popularTagOf (H : List Nat → Nat → Nat) (d : List Nat) (seed : Nat) : Nat :=
  let s1 := cut_last_domain_label d 0 d.length
  let suffix2 := if 0 < s1 then cut_last_domain_label d 0 (s1 - 1) else s1
  let h := H (d.drop suffix2) seed
  let tg := tagClimb H d suffix2 h 1 (suffix2 + 1)
  (tg.1 >>> 32) &&& 0xFFFF

/- Popular suffixes are laid out D per record; max_scans of popular records
   stays 0 (the table memory is zeroed).  The fuel is the list length: each
   step consumes at least one suffix. -/
def popularRecordsGo (H : List Nat → Nat → Nat) (seed : Nat) :
    List (List Nat) → Nat → List DRec
  | _, 0 => []
  | [], _ => []
  | l, Nat.succ fuel =>
    { tags := (l.take D).map (fun d => popularTagOf H d seed),
      items := l.take D, max_scans := 0 } :: popularRecordsGo H seed (l.drop D) fuel

def round_up16 (x : Nat) : Nat := (x + 15) &&& (U64MOD - 16)

/- hm_domain_database fields that the query functions read.  Blob pointers
   are represented by the stored strings; domains_blob_size is the computed
   blob length (checked by deserialization). -/
structure DomainDB where
  fastmod_M : Nat
  buckets : Nat
  hash_seed : Nat
  domains_table : List DRec
  popular_table : List DRec
  popular_records : Nat
  popular_count : Nat
  domains_blob_size : Nat
deriving Repr, DecidableEq

def blobSizeOf (popular : List (List Nat)) (preview : List DRec) : Nat :=
  (popular.map (fun sv => round_up16 (sv.length + 1))).sum +
  ((preview.map (fun r => (r.items.map (fun dm => round_up16 (dm.length + 1))).sum)).sum
    + 256)

/- hm_domain_compile.  db_place sizing and alignment are abstracted away; the
   outer Option is fuel for the popular-suffix depth loop.  A calibration
   failure returns HM_ERROR_BAD_VALUE — faithful to static_domain_set.cpp:616,
   where the documented HM_ERROR_FAILED_TO_CALIBRATE is not used. -/
def hm_domain_compile (H : List Nat → Nat → Nat) (domainsIn : List (List Nat)) :
    Option (Except Nat DomainDB) :=
  if domainsIn.length = 0 then some (.error HM_ERROR_NO_MASKS)
  else match preprocess_domains_views domainsIn with
  | none => some (.error HM_ERROR_BAD_VALUE)
  | some views =>
    if views.any (fun sv => ! sv.contains 46) then
      some (.error HM_ERROR_TOP_LEVEL_DOMAIN)
    else match find_popular_suffixes views with
    | none => none
    | some popular =>
      if 256 < popular.length then some (.error HM_ERROR_TOO_MANY_POPULAR_DOMAINS)
      else match calibrate_and_build_preview H views popular with
      | none => some (.error HM_ERROR_BAD_VALUE)
      | some sbp =>
        some (.ok
          { fastmod_M := computeM_u32 sbp.2.1,
            buckets := sbp.2.1,
            hash_seed := sbp.1,
            domains_table := sbp.2.2,
            popular_table := popularRecordsGo H sbp.1 popular popular.length,
            popular_records := (popular.length + D - 1) / D,
            popular_count := popular.length,
            domains_blob_size := blobSizeOf popular sbp.2.2 })

/- scan_tags, scalar fallback: a slot matches when its 16-bit tag equals and
   the blob string equals the suffix.  The C memcmp covers suffix_len + 1
   bytes including the NUL terminator, so a match is exactly string equality
   (validated suffix bytes are nonzero, stored strings are NUL-terminated). -/
def scan_tags (r : DRec) (tag : Nat) (suffix : List Nat) : Bool :=
  (r.tags.zip r.items).any (fun ti => ti.1 == tag && ti.2 == suffix)

def popular_suffix_exists (db : DomainDB) (tag : Nat) (suffix : List Nat) : Bool :=
  db.popular_table.any (fun r => scan_tags r tag suffix)

/- The popular-suffix extension loop of hm_domain_find.  The position strictly
   decreases, so fuel = starting position + 1 is never exhausted. -/
def popExtend (H : List Nat → Nat → Nat) (db : DomainDB) (d : List Nat) :
    Nat → Nat → Nat → Nat × Nat
  | suffix, h, 0 => (suffix, h)
  | suffix, h, Nat.succ fuel =>
    if suffix = 0 then (suffix, h)
    else if ! popular_suffix_exists db ((h >>> 32) &&& 0xFFFF) (d.drop suffix) then
      (suffix, h)
    else
      let labelEnd := suffix - 1
      let label := cut_last_domain_label d 0 labelEnd
      popExtend H db d label (H ((d.drop label).take (labelEnd - label)) h) fuel

/- The in-bucket scan loop of hm_domain_find.  The position strictly
   decreases before each recursive call, so fuel = position + 1 suffices. -/
def scanLoop (H : List Nat → Nat → Nat) (d : List Nat) (r : DRec)
    (maxScans : Nat) : Nat → Nat → Nat → Nat → Int
  | _, _, _, 0 => 0
  | suffix, h, scan, Nat.succ fuel =>
    if scan_tags r ((h >>> 32) &&& 0xFFFF) (d.drop suffix) then 1
    else if maxScans ≤ scan then 0
    else if suffix = 0 then 0
    else
      let labelEnd := suffix - 1
      let label := cut_last_domain_label d 0 labelEnd
      scanLoop H d r maxScans label (H ((d.drop label).take (labelEnd - label)) h)
        (scan + 1) fuel

def hm_domain_find (H : List Nat → Nat → Nat) (db : DomainDB)
    (query : List Nat) : Int :=
  let q1 := stripTrailingDots query
  if MAX_DOMAIN_LEN < q1.length ∨ q1.length = 0 then -1
  else match domain_to_lower q1 with
  | none => -1
  | some d =>
    let s1 := cut_last_domain_label d 0 d.length
    let suffix0 := if 0 < s1 then cut_last_domain_label d 0 (s1 - 1) else s1
    let h0 := H (d.drop suffix0) db.hash_seed
    let sh := popExtend H db d suffix0 h0 (suffix0 + 1)
    let bucket := fastmod_u32 (sh.2 % U32MOD) db.fastmod_M db.buckets
    let r := db.domains_table.getD bucket emptyDRec
    scanLoop H d r r.max_scans sh.1 sh.2 1 (sh.1 + 2)

/- Concrete hash instantiations for the theorems.  Modelled from the spec:
   the real hash64_span_ci is XXH3 from the vendored cvendor/xxhash.h (not in
   src/); the spec only requires a seeded 64-bit span hash, so theorems use
   hashZero (a degenerate instance showing calibration failure is reachable)
   and hashFold (an FNV-style byte fold standing in for XXH3; the C2
   counterexample is independent of the hash except for calibration
   succeeding). -/
def hashZero : List Nat → Nat → Nat := fun _ _ => 0

def hashFoldGo : List Nat → Nat → Nat
  | [], a => a
  | c :: rest, a => hashFoldGo rest (((a ^^^ c) * 131) % U64MOD)

def hashFold (span : List Nat) (seed : Nat) : Nat :=
  hashFoldGo span ((seed * 1099511628211 + 1469598103934665603) % U64MOD)


/- Concrete inputs for the domain-set theorems. -/
def c2doms : List (List Nat) :=
  [asciiBytes "b.com", asciiBytes "z-b.com",
   asciiBytes "x01.b.com", asciiBytes "x02.b.com", asciiBytes "x03.b.com",
   asciiBytes "x04.b.com", asciiBytes "x05.b.com", asciiBytes "x06.b.com",
   asciiBytes "x07.b.com", asciiBytes "x08.b.com", asciiBytes "x09.b.com",
   asciiBytes "x10.b.com", asciiBytes "x11.b.com", asciiBytes "x12.b.com",
   asciiBytes "x13.b.com", asciiBytes "x14.b.com", asciiBytes "x15.b.com",
   asciiBytes "x16.b.com"]

def c9doms : List (List Nat) :=
  [asciiBytes "a1.b.c", asciiBytes "a2.b.c", asciiBytes "a3.b.c",
   asciiBytes "a4.b.c", asciiBytes "a5.b.c", asciiBytes "a6.b.c",
   asciiBytes "a7.b.c", asciiBytes "a8.b.c", asciiBytes "a9.b.c",
   asciiBytes "a10.b.c", asciiBytes "a11.b.c", asciiBytes "a12.b.c",
   asciiBytes "a13.b.c", asciiBytes "a14.b.c", asciiBytes "a15.b.c",
   asciiBytes "a16.b.c", asciiBytes "a17.b.c"]

/- The preprocessed (pruned, rev-char-sorted) view list of c9doms. -/
def c9views : List (List Nat) :=
  [asciiBytes "a10.b.c", asciiBytes "a11.b.c", asciiBytes "a1.b.c",
   asciiBytes "a12.b.c", asciiBytes "a2.b.c", asciiBytes "a13.b.c",
   asciiBytes "a3.b.c", asciiBytes "a14.b.c", asciiBytes "a4.b.c",
   asciiBytes "a15.b.c", asciiBytes "a5.b.c", asciiBytes "a16.b.c",
   asciiBytes "a6.b.c", asciiBytes "a17.b.c", asciiBytes "a7.b.c",
   asciiBytes "a8.b.c", asciiBytes "a9.b.c"]


/- ==================== serialization (C6) ==================== -/

/- Serialized buffers are modelled as the lists of machine words that the C
   functions write and read: the serializers and deserializers access their
   buffers only through typed pointers (uint64_t*, uint32_t*, key_value_t*),
   so the word lists capture the exact reads and writes; byte-granularity
   buffer sizing, alignment and db_place bookkeeping are abstracted away, as
   in the compile models. -/

/- hm_u64_serialize (static_uint64_set.c): factor1, factor2, buckets, then
   buckets hash-table words, where buckets = mask_for_hash + 1 + 3. -/
def hm_u64_serialize (db : U64SetDB) : List Nat :=
  [db.factor1, db.factor2, db.maskForHash + 1 + 3] ++
    db.hashTable.take (db.maskForHash + 1 + 3)

/- hm_u64_deserialize, including the checks of
   hm_u64_db_place_size_from_serialized.  buckets - 1 - 3 is Nat subtraction;
   it matches the C uint64 arithmetic whenever buckets >= 4, which holds for
   every buffer produced by hm_u64_serialize on a compiled set. -/
def hm_u64_deserialize (buf : List Nat) : Except Nat U64SetDB :=
  if buf.length ≤ 3 then .error HM_ERROR_SMALL_PLACE
  else match buf with
  | f1 :: f2 :: buckets :: rest =>
    if buckets = 0 then .error HM_ERROR_NO_MASKS
    else if rest.length < buckets then .error HM_ERROR_SMALL_PLACE
    else .ok { factor1 := f1, factor2 := f2,
               maskForHash := buckets - 1 - 3,
               hashTable := rest.take buckets }
  | _ => .error HM_ERROR_SMALL_PLACE

/- key_value_t pairs laid out in the buffer (key word, then value word). -/
def kvFlatten : List (Nat × Nat) → List Nat
  | [] => []
  | kv :: rest => kv.1 :: kv.2 :: kvFlatten rest

def kvUnflatten : Nat → List Nat → List (Nat × Nat)
  | 0, _ => []
  | Nat.succ n, l => (l.getD 0 0, l.getD 1 0) :: kvUnflatten n (l.drop 2)

/- hm_u64map_serialize (static_uint64_map.c): factor1, factor2, buckets, one
   dummy word (never written nor read; 0 here), then the key_value_t table. -/
def hm_u64map_serialize (db : U64MapDB) : List Nat :=
  [db.factor1, db.factor2, db.maskForHash + 1 + 3, 0] ++
    kvFlatten (db.hashTable.take (db.maskForHash + 1 + 3))

def hm_u64map_deserialize (buf : List Nat) : Except Nat U64MapDB :=
  if buf.length ≤ 4 then .error HM_ERROR_SMALL_PLACE
  else match buf with
  | f1 :: f2 :: buckets :: _dummy :: rest =>
    if buckets = 0 then .error HM_ERROR_NO_MASKS
    else if rest.length < 2 * buckets then .error HM_ERROR_SMALL_PLACE
    else .ok { factor1 := f1, factor2 := f2,
               maskForHash := buckets - 1 - 3,
               hashTable := kvUnflatten buckets rest }
  | _ => .error HM_ERROR_SMALL_PLACE

/- hm_sm_serialize (static_map.cpp): uint64 list_size, then list_size
   max_ips words, then list_size value words. -/
def hm_sm_serialize (db : SMDB) : List Nat :=
  [db.listSize] ++ db.max_ips.take db.listSize ++ db.values.take db.listSize

/- hm_sm_deserialize: size checks, the list_size = 0 check, field copies and
   fill_hashtable on the copied max_ips. -/
def hm_sm_deserialize (buf : List Nat) : Except Nat SMDB :=
  match buf with
  | [] => .error HM_ERROR_SMALL_PLACE
  | ls :: rest =>
    if rest.length < 2 * ls then .error HM_ERROR_SMALL_PLACE
    else if ls = 0 then .error HM_ERROR_NO_MASKS
    else
      .ok { listSize := ls,
            hashtable := fillHashtableEntry (rest.take ls),
            max_ips := rest.take ls,
            values := (rest.drop ls).take ls }

def STATIC_DOMAIN_SET_MAGIC : Nat := 0x53444D48

/- The domain-set serialized form is the 4-byte magic followed by a verbatim
   memcpy of the in-memory region from the database header to the end of the
   domains blob.  In this model the header fields, record tables and blob
   content are exactly the DomainDB value (DRec stores the strings that the
   offset arrays and blob bytes lay out), so the memcpy payload is the
   DomainDB itself. -/
structure DomainSer where
  magic : Nat
  payload : DomainDB
deriving Repr, DecidableEq

def hm_domain_serialize (db : DomainDB) : DomainSer :=
  { magic := STATIC_DOMAIN_SET_MAGIC, payload := db }

/- hm_domain_deserialize, with the checks of
   hm_domain_db_place_size_from_serialized: magic, blob size divisible by 16
   and at least 256.  The per-record offset and NUL validation concerns the
   physical blob layout, which is represented by the stored strings. -/
def hm_domain_deserialize (s : DomainSer) : Except Nat DomainDB :=
  if s.magic ≠ STATIC_DOMAIN_SET_MAGIC then .error HM_ERROR_BAD_VALUE
  else if s.payload.domains_blob_size % 16 ≠ 0 then .error HM_ERROR_BAD_VALUE
  else if s.payload.domains_blob_size < 256 then .error HM_ERROR_BAD_VALUE
  else .ok s.payload


/- Concrete compiled databases used by witnesses. -/
def c6smDB : SMDB :=
  { listSize := 2, hashtable := fillHashtableEntry [2147549183, 2147483647],
    max_ips := [2147549183, 2147483647], values := [5, 18446744073709551615] }

def c6mapDB : U64MapDB :=
  { factor1 := 12016458565916118665, factor2 := 2664269878219102510,
    maskForHash := 12,
    hashTable := [(1, 0), (1, 0), (1, 0), (1, 0), (0, 0), (0, 0), (0, 0),
      (2, 20), (0, 0), (0, 0), (0, 0), (0, 0), (0, 0), (0, 0), (0, 0),
      (1, 10)] }

def c6setDB : U64SetDB :=
  { factor1 := 12016458565916118665, factor2 := 2664269878219102510,
    maskForHash := 12,
    hashTable := [1, 1, 1, 1, 2, 0, 0, 0, 0, 0, 0, 0, 1, 0, 0, 0] }

def c6domDB : DomainDB :=
  { fastmod_M := 0, buckets := 1, hash_seed := 2709463877,
    domains_table := [{ tags := [7166], items := [[97, 46, 98]], max_scans := 1 }],
    popular_table := [], popular_records := 0, popular_count := 0,
    domains_blob_size := 272 }


/- ==================== LRU cache (src/cache.c) ==================== -/

def NO_INDEX : Nat := 0xFFFFFFFF

structure CElem where
  ip : Nat
  prev_index : Nat
  next_index : Nat
  value : Nat
deriving Repr, DecidableEq

def cDefault : CElem := { ip := 0, prev_index := 0, next_index := 0, value := 0 }

def cGet (s : List CElem) (i : Nat) : CElem := s.getD i cDefault

structure HmList where
  head_index : Nat
  tail_index : Nat
deriving Repr, DecidableEq

structure HmCache where
  mask_for_hash : Nat
  capacity : Nat
  list_storage : List CElem
  nodes : HmList
  free_nodes : HmList
  hash_table : List Nat
deriving Repr, DecidableEq

/- cut (cache.c lines 53-80): unlink element `index` from its doubly-linked
   list, clearing its own links first, exactly in source order. -/
def cut (s : List CElem) (l : HmList) (index : Nat) : List CElem × HmList :=
  let p := (cGet s index).prev_index
  let n := (cGet s index).next_index
  let s1 := s.set index { cGet s index with prev_index := NO_INDEX, next_index := NO_INDEX }
  if p ≠ NO_INDEX ∧ n ≠ NO_INDEX then
    let s2 := s1.set p { cGet s1 p with next_index := n }
    (s2.set n { cGet s2 n with prev_index := p }, l)
  else if p ≠ NO_INDEX then
    (s1.set p { cGet s1 p with next_index := NO_INDEX }, { l with tail_index := p })
  else if n ≠ NO_INDEX then
    (s1.set n { cGet s1 n with prev_index := NO_INDEX }, { l with head_index := n })
  else
    (s1, { head_index := NO_INDEX, tail_index := NO_INDEX })

/- set_head (cache.c lines 82-94): push element `index` at the head; the
   element's prev_index is assumed to be NO_INDEX already (from cut or init)
   and is not written. -/
def set_head (s : List CElem) (l : HmList) (index : Nat) : List CElem × HmList :=
  if l.head_index = NO_INDEX then
    (s, { head_index := index, tail_index := index })
  else
    let s1 := s.set index { cGet s index with next_index := l.head_index }
    (s1.set l.head_index { cGet s1 l.head_index with prev_index := index },
     { l with head_index := index })

/- hash32 (cache.c lines 100-107), uint32 arithmetic. -/
def hash32 (x : Nat) : Nat :=
  let x1 := x ^^^ (x >>> 16)
  let x2 := (x1 * 0x21f0aaad) % U32MOD
  let x3 := x2 ^^^ (x2 >>> 15)
  let x4 := (x3 * 0xd35a2d97) % U32MOD
  x4 ^^^ (x4 >>> 15)

/- table_lookup (cache.c lines 110-134).  The C loop relies on the table
   being at most half full to terminate; the fuel (table length + 1) covers
   every terminating run, and none models a full table of mismatches, where
   the C code would loop forever. -/
def tableLookupGo (ht : List Nat) (s : List CElem) (ip mask : Nat) :
    Nat → Nat → Option Nat
  | _, 0 => none
  | bucket, Nat.succ fuel =>
    if ht.getD bucket NO_INDEX = NO_INDEX then some NO_INDEX
    else if (cGet s (ht.getD bucket NO_INDEX)).ip = ip then
      some (ht.getD bucket NO_INDEX)
    else tableLookupGo ht s ip mask ((bucket + 1) &&& mask) fuel

def table_lookup (c : HmCache) (ip : Nat) : Option Nat :=
  tableLookupGo c.hash_table c.list_storage ip c.mask_for_hash
    (hash32 ip &&& c.mask_for_hash) (c.hash_table.length + 1)

/- table_add (cache.c lines 138-170). -/
def tableAddGo (ht : List Nat) (index mask : Nat) : Nat → Nat → Option (List Nat)
  | _, 0 => none
  | bucket, Nat.succ fuel =>
    if ht.getD bucket NO_INDEX = NO_INDEX then some (ht.set bucket index)
    else tableAddGo ht index mask ((bucket + 1) &&& mask) fuel

def table_add (c : HmCache) (ip index : Nat) : Option HmCache :=
  (tableAddGo c.hash_table index c.mask_for_hash (hash32 ip &&& c.mask_for_hash)
    (c.hash_table.length + 1)).map (fun ht => { c with hash_table := ht })

/- The find phase of table_delete (cache.c lines 186-203): the position of
   the cell holding ip.  Hitting an empty cell is an assertion failure
   followed by an out-of-bounds read in C: none. -/
def tableDelFindGo (ht : List Nat) (s : List CElem) (ip mask : Nat) :
    Nat → Nat → Option Nat
  | _, 0 => none
  | i, Nat.succ fuel =>
    if ht.getD i NO_INDEX = NO_INDEX then none
    else if (cGet s (ht.getD i NO_INDEX)).ip = ip then some i
    else tableDelFindGo ht s ip mask ((i + 1) &&& mask) fuel

/- The backward-shift repair phase of table_delete (cache.c lines 215-243),
   with the cyclic (i, j] membership test written as in the source. -/
def tableDelRepairGo (s : List CElem) (mask : Nat) :
    List Nat → Nat → Nat → Nat → Option (List Nat)
  | _, _, _, 0 => none
  | ht, i, j0, Nat.succ fuel =>
    let j := (j0 + 1) &&& mask
    let jIndex := ht.getD j NO_INDEX
    if jIndex = NO_INDEX then some ht
    else
      let k := hash32 (cGet s jIndex).ip &&& mask
      if (if i ≤ j then i < k ∧ k ≤ j else k ≤ j ∨ i < k) then
        tableDelRepairGo s mask ht i j fuel
      else
        tableDelRepairGo s mask ((ht.set i jIndex).set j NO_INDEX) j j fuel

def table_delete (c : HmCache) (ip : Nat) : Option HmCache := do
  let i ← tableDelFindGo c.hash_table c.list_storage ip c.mask_for_hash
    (hash32 ip &&& c.mask_for_hash) (c.hash_table.length + 1)
  let ht1 := c.hash_table.set i NO_INDEX
  let ht2 ← tableDelRepairGo c.list_storage c.mask_for_hash ht1 i i
    (c.hash_table.length + 1)
  some { c with hash_table := ht2 }

def get_hash_table_capacity (capacity speed : Nat) : Nat := capacity <<< speed

def hm_valid_capacity (capacity speed : Nat) : Bool :=
  if capacity < 2 then false
  else if capacity &&& (capacity - 1) ≠ 0 then false
  else if NO_INDEX ≤ capacity - 1 then false
  else if get_hash_table_capacity capacity speed ≤ capacity then false
  else true

/- hm_cache_init (cache.c lines 309-364).  cache_place sizing and alignment
   are abstracted; `i - 1` for i = 0 is the uint32 wrap to NO_INDEX, as in
   the source (it is overwritten right after, like in the source).  The
   elements' ip and value fields are uninitialized in C and never read
   before being written; they are 0 here. -/
def hm_cache_init (capacity speed : Nat) : Except Nat HmCache :=
  if speed < 1 ∨ 5 < speed then .error HM_ERROR_BAD_SIZE
  else if ¬ hm_valid_capacity capacity speed then .error HM_ERROR_BAD_SIZE
  else
    let htc := get_hash_table_capacity capacity speed
    let storage := (List.range capacity).map (fun i =>
      { ip := 0, prev_index := (i + (U32MOD - 1)) % U32MOD,
        next_index := i + 1, value := 0 : CElem })
    let storage1 := storage.set 0 { cGet storage 0 with prev_index := NO_INDEX }
    let storage2 := storage1.set (capacity - 1)
      { cGet storage1 (capacity - 1) with next_index := NO_INDEX }
    .ok { mask_for_hash := htc - 1, capacity := capacity,
          list_storage := storage2,
          nodes := { head_index := NO_INDEX, tail_index := NO_INDEX },
          free_nodes := { head_index := 0, tail_index := capacity - 1 },
          hash_table := List.replicate htc NO_INDEX }

/- hm_cache_add (cache.c lines 366-435).  Result: cache, existed, evicted,
   and the evicted (ip, value) when evicted (the C out-parameters are only
   written in that case). -/
def hm_cache_add (c : HmCache) (ip value : Nat) :
    Option (HmCache × Bool × Bool × Option (Nat × Nat)) := do
  let idx ← table_lookup c ip
  if idx ≠ NO_INDEX then
    let s1 := c.list_storage.set idx { cGet c.list_storage idx with value := value }
    let cn := cut s1 c.nodes idx
    let sh := set_head cn.1 cn.2 idx
    some ({ c with list_storage := sh.1, nodes := sh.2 }, true, false, none)
  else if c.free_nodes.head_index = NO_INDEX then
    let index := c.nodes.tail_index
    let ipEv := (cGet c.list_storage index).ip
    let valEv := (cGet c.list_storage index).value
    let c1 ← table_delete c ipEv
    let cn := cut c1.list_storage c1.nodes index
    let sh := set_head cn.1 cn.2 index
    let s4 := sh.1.set index { cGet sh.1 index with ip := ip, value := value }
    let c2 ← table_add { c1 with list_storage := s4, nodes := sh.2 } ip index
    some (c2, false, true, some (ipEv, valEv))
  else
    let index := c.free_nodes.head_index
    let cn := cut c.list_storage c.free_nodes index
    let sh := set_head cn.1 c.nodes index
    let s4 := sh.1.set index { cGet sh.1 index with ip := ip, value := value }
    let cm := { c with list_storage := s4, free_nodes := cn.2, nodes := sh.2 }
    let c2 ← table_add cm ip index
    some (c2, false, false, none)

/- hm_cache_remove (cache.c lines 437-460). -/
def hm_cache_remove (c : HmCache) (ip : Nat) :
    Option (HmCache × Bool × Option Nat) := do
  let idx ← table_lookup c ip
  if idx = NO_INDEX then some (c, false, none)
  else
    let v := (cGet c.list_storage idx).value
    let cn := cut c.list_storage c.nodes idx
    let sh := set_head cn.1 c.free_nodes idx
    let cm := { c with list_storage := sh.1, nodes := cn.2, free_nodes := sh.2 }
    let c1 ← table_delete cm ip
    some (c1, true, some v)

/- hm_cache_has (cache.c lines 462-481): a hit also promotes to newest. -/
def hm_cache_has (c : HmCache) (ip : Nat) :
    Option (HmCache × Bool × Option Nat) := do
  let idx ← table_lookup c ip
  if idx = NO_INDEX then some (c, false, none)
  else
    let cn := cut c.list_storage c.nodes idx
    let sh := set_head cn.1 cn.2 idx
    some ({ c with list_storage := sh.1, nodes := sh.2 }, true,
      some (cGet sh.1 idx).value)

/- hm_cache_dump (cache.c lines 483-551), the list walk that fills the
   output array (the function's assert-based self-checks are no-ops under
   NDEBUG).  The fuel capacity + 1 covers every well-formed cache. -/
def dumpGo (s : List CElem) : Nat → Nat → List Nat
  | _, 0 => []
  | i, Nat.succ fuel =>
    if i = NO_INDEX then []
    else (cGet s i).ip :: dumpGo s (cGet s i).next_index fuel

def hm_cache_dump (c : HmCache) : List Nat :=
  dumpGo c.list_storage c.nodes.head_index (c.capacity + 1)

/- ---- well-formedness of the two intrusive lists and the hash table ---- -/

/- chainSeg s p L n: L is a doubly-linked chain in s whose first element has
   prev_index p and whose last element has next_index n. -/
def chainSeg (s : List CElem) : Nat → List Nat → Nat → Prop
  | _, [], _ => True
  | p, a :: rest, n =>
    (cGet s a).prev_index = p ∧
    (cGet s a).next_index = (match rest with | [] => n | b :: _ => b) ∧
    chainSeg s a rest n

/- listWF s l L: l's head/tail delimit the chain L in storage s. -/
def listWF (s : List CElem) (l : HmList) (L : List Nat) : Prop :=
  chainSeg s NO_INDEX L NO_INDEX ∧
  l.head_index = L.headD NO_INDEX ∧
  l.tail_index = L.getLastD NO_INDEX

/- The natural bucket of element i. -/
def homeOf (s : List CElem) (mask i : Nat) : Nat := hash32 (cGet s i).ip &&& mask

/- Cyclic distance from a to b in a table of 2^k buckets. -/
def cycDist (len a b : Nat) : Nat := (b + len - a) % len

/- htWF: the hash table stores exactly the elements of L, injectively, with
   distinct keys, and satisfies the Robin Hood cluster property: no empty
   cell lies on the cyclic probe path from an entry's natural bucket to its
   cell.  The table is a power of two and at most half full. -/
def htWF (ht : List Nat) (s : List CElem) (mask : Nat) (L : List Nat) : Prop :=
  (∀ b, b < ht.length → ht.getD b NO_INDEX ≠ NO_INDEX → ht.getD b NO_INDEX ∈ L) ∧
  (∀ i ∈ L, ∃ b, b < ht.length ∧ ht.getD b NO_INDEX = i) ∧
  (∀ b1 b2, b1 < ht.length → b2 < ht.length →
    ht.getD b1 NO_INDEX = ht.getD b2 NO_INDEX → ht.getD b1 NO_INDEX ≠ NO_INDEX →
    b1 = b2) ∧
  (∀ i1 i2, i1 ∈ L → i2 ∈ L → i1 ≠ i2 →
    (cGet s i1).ip ≠ (cGet s i2).ip) ∧
  (∀ b, b < ht.length → ht.getD b NO_INDEX ≠ NO_INDEX →
    ∀ d, d ≤ cycDist ht.length (homeOf s mask (ht.getD b NO_INDEX)) b →
      ht.getD ((homeOf s mask (ht.getD b NO_INDEX) + d) % ht.length) NO_INDEX ≠ NO_INDEX)

/- CacheWF c L F: the full invariant of C5.  L is the LRU list (newest
   first), F the free list; together they partition the capacity elements;
   the hash table is well-formed for exactly the live elements L. -/
def CacheWF (c : HmCache) (L F : List Nat) : Prop :=
  listWF c.list_storage c.nodes L ∧
  listWF c.list_storage c.free_nodes F ∧
  (L ++ F).Nodup ∧
  (∀ j ∈ L ++ F, j < c.capacity) ∧
  (∀ j, j < c.capacity → j ∈ L ++ F) ∧
  c.list_storage.length = c.capacity ∧
  c.capacity < NO_INDEX ∧
  L.length + F.length = c.capacity ∧
  (∃ k, c.hash_table.length = 2 ^ k) ∧
  c.mask_for_hash = c.hash_table.length - 1 ∧
  2 * c.capacity ≤ c.hash_table.length ∧
  htWF c.hash_table c.list_storage c.mask_for_hash L



/- storagePost s s' touch: s' has the same length, the same ip/value fields
   everywhere, and agrees with s outside touch. -/
def storagePost (s s' : List CElem) (touch : List Nat) : Prop :=
  s'.length = s.length ∧
  (∀ j, (cGet s' j).ip = (cGet s j).ip ∧ (cGet s' j).value = (cGet s j).value) ∧
  (∀ j, j ∉ touch → cGet s' j = cGet s j)


/- RINV: the invariant of the backward-shift repair loop of table_delete,
   at a loop head with hole i and scan position j.  e0 is a cell that was
   empty before the deletion and stays empty through the loop. -/
def RINV (s : List CElem) (kk : Nat) (L : List Nat) (idx e0 : Nat)
    (ht : List Nat) (i j : Nat) : Prop :=
  ht.length = 2 ^ kk ∧ i < 2 ^ kk ∧ j < 2 ^ kk ∧
  ht.getD i NO_INDEX = NO_INDEX ∧
  e0 < 2 ^ kk ∧ e0 ≠ i ∧ j ≠ e0 ∧ ht.getD e0 NO_INDEX = NO_INDEX ∧
  (∀ b, b < 2 ^ kk → ht.getD b NO_INDEX ≠ NO_INDEX →
    ht.getD b NO_INDEX ∈ L ∧ ht.getD b NO_INDEX ≠ idx) ∧
  (∀ m ∈ L, m ≠ idx → ∃ b, b < 2 ^ kk ∧ ht.getD b NO_INDEX = m) ∧
  (∀ b1 b2, b1 < 2 ^ kk → b2 < 2 ^ kk →
    ht.getD b1 NO_INDEX = ht.getD b2 NO_INDEX →
    ht.getD b1 NO_INDEX ≠ NO_INDEX → b1 = b2) ∧
  (∀ b, b < 2 ^ kk → ht.getD b NO_INDEX ≠ NO_INDEX →
    ∀ d, d ≤ cycDist (2 ^ kk) (homeOf s (2 ^ kk - 1) (ht.getD b NO_INDEX)) b →
      (homeOf s (2 ^ kk - 1) (ht.getD b NO_INDEX) + d) % 2 ^ kk = i ∨
      ht.getD ((homeOf s (2 ^ kk - 1) (ht.getD b NO_INDEX) + d) % 2 ^ kk)
        NO_INDEX ≠ NO_INDEX) ∧
  (∀ b, b < 2 ^ kk → ht.getD b NO_INDEX ≠ NO_INDEX →
    ∀ d, d < cycDist (2 ^ kk) (homeOf s (2 ^ kk - 1) (ht.getD b NO_INDEX)) b →
      (homeOf s (2 ^ kk - 1) (ht.getD b NO_INDEX) + d) % 2 ^ kk = i →
      cycDist (2 ^ kk) i j < cycDist (2 ^ kk) i b)


/- RPOST: what the repair loop of table_delete guarantees on exit: the
   surviving table stores exactly the elements of L other than idx,
   injectively, and the full Robin Hood cluster property holds again. -/
def RPOST (s : List CElem) (kk : Nat) (L : List Nat) (idx : Nat)
    (ht2 : List Nat) : Prop :=
  ht2.length = 2 ^ kk ∧
  (∀ b, b < 2 ^ kk → ht2.getD b NO_INDEX ≠ NO_INDEX →
    ht2.getD b NO_INDEX ∈ L ∧ ht2.getD b NO_INDEX ≠ idx) ∧
  (∀ m ∈ L, m ≠ idx → ∃ b, b < 2 ^ kk ∧ ht2.getD b NO_INDEX = m) ∧
  (∀ b1 b2, b1 < 2 ^ kk → b2 < 2 ^ kk →
    ht2.getD b1 NO_INDEX = ht2.getD b2 NO_INDEX →
    ht2.getD b1 NO_INDEX ≠ NO_INDEX → b1 = b2) ∧
  (∀ b, b < 2 ^ kk → ht2.getD b NO_INDEX ≠ NO_INDEX →
    ∀ d, d ≤ cycDist (2 ^ kk) (homeOf s (2 ^ kk - 1) (ht2.getD b NO_INDEX)) b →
      ht2.getD ((homeOf s (2 ^ kk - 1) (ht2.getD b NO_INDEX) + d) % 2 ^ kk)
        NO_INDEX ≠ NO_INDEX)


def cacheC0 : HmCache :=
  { mask_for_hash := 3, capacity := 2,
    list_storage := [⟨0, NO_INDEX, 1, 0⟩, ⟨0, 0, NO_INDEX, 0⟩],
    nodes := ⟨NO_INDEX, NO_INDEX⟩,
    free_nodes := ⟨0, 1⟩,
    hash_table := [NO_INDEX, NO_INDEX, NO_INDEX, NO_INDEX] }


def cacheC1 : HmCache :=
  { mask_for_hash := 3, capacity := 2,
    list_storage := [⟨5, NO_INDEX, NO_INDEX, 7⟩, ⟨0, NO_INDEX, NO_INDEX, 0⟩],
    nodes := ⟨0, 0⟩,
    free_nodes := ⟨1, 1⟩,
    hash_table := [0, NO_INDEX, NO_INDEX, NO_INDEX] }


/- ---- C4: operation sequences and the abstract LRU model ---- -/

inductive CacheOp where
  | add (ip value : Nat)
  | remove (ip : Nat)
  | has (ip : Nat)
deriving Repr, DecidableEq


structure OpOut where
  existed : Bool
  evicted : Bool
  evicted_pair : Option (Nat × Nat)
  value_out : Option Nat
deriving Repr, DecidableEq


def applyOp (c : HmCache) : CacheOp → Option (HmCache × OpOut)
  | CacheOp.add ip v =>
    match hm_cache_add c ip v with
    | none => none
    | some r => some (r.1, ⟨r.2.1, r.2.2.1, r.2.2.2, none⟩)
  | CacheOp.remove ip =>
    match hm_cache_remove c ip with
    | none => none
    | some r => some (r.1, ⟨r.2.1, false, none, r.2.2⟩)
  | CacheOp.has ip =>
    match hm_cache_has c ip with
    | none => none
    | some r => some (r.1, ⟨r.2.1, false, none, r.2.2⟩)


def runCache (c : HmCache) : List CacheOp → Option (HmCache × List OpOut)
  | [] => some (c, [])
  | op :: ops =>
    Option.bind (applyOp c op) (fun r =>
      Option.bind (runCache r.1 ops) (fun rest =>
        some (rest.1, r.2 :: rest.2)))


def absLookup (m : List (Nat × Nat)) (ip : Nat) : Option Nat :=
  (m.find? (fun p => p.1 == ip)).map Prod.snd


def absApply (cap : Nat) (m : List (Nat × Nat)) :
    CacheOp → (List (Nat × Nat) × OpOut)
  | CacheOp.add ip v =>
    match absLookup m ip with
    | some _ => ((ip, v) :: m.eraseP (fun p => p.1 == ip),
        ⟨true, false, none, none⟩)
    | none =>
      if m.length = cap then
        ((ip, v) :: m.dropLast,
          ⟨false, true, some (m.getLastD (0, 0)), none⟩)
      else ((ip, v) :: m, ⟨false, false, none, none⟩)
  | CacheOp.remove ip =>
    match absLookup m ip with
    | some v => (m.eraseP (fun p => p.1 == ip), ⟨true, false, none, some v⟩)
    | none => (m, ⟨false, false, none, none⟩)
  | CacheOp.has ip =>
    match absLookup m ip with
    | some v => ((ip, v) :: m.eraseP (fun p => p.1 == ip),
        ⟨true, false, none, some v⟩)
    | none => (m, ⟨false, false, none, none⟩)


def runAbs (cap : Nat) (m : List (Nat × Nat)) :
    List CacheOp → (List (Nat × Nat) × List OpOut)
  | [] => (m, [])
  | op :: ops =>
    ((runAbs cap (absApply cap m op).1 ops).1,
     (absApply cap m op).2 :: (runAbs cap (absApply cap m op).1 ops).2)


def modelOf (c : HmCache) (L : List Nat) : List (Nat × Nat) :=
  L.map (fun i => ((cGet c.list_storage i).ip, (cGet c.list_storage i).value))

/- ========================== theorems ========================== -/

/- ---- arithmetic of the quartet mask: mask = 2^m - 4, buckets = 2^m ---- -/

theorem land_mask_eq (h m : Nat) (hm : 2 ≤ m) :
    h &&& (2 ^ m - 4) = 4 * ((h / 4) % 2 ^ (m - 2)) := by
  have hpow : (2 : Nat) ^ m = 2 ^ (m - 2) * 4 := by
    have hm2 : m = (m - 2) + 2 := by omega
    rw [hm2, pow_add]; norm_num
  have h1 : (1 : Nat) ≤ 2 ^ (m - 2) := Nat.one_le_two_pow
  have hmask : (2 : Nat) ^ m - 4 = (2 ^ (m - 2) - 1) <<< 2 := by
    rw [Nat.shiftLeft_eq]
    omega
  have hrhs : 4 * ((h / 4) % 2 ^ (m - 2)) = ((h / 4) % 2 ^ (m - 2)) <<< 2 := by
    rw [Nat.shiftLeft_eq]; ring
  rw [hmask, hrhs]
  apply Nat.eq_of_testBit_eq
  intro i
  rw [Nat.testBit_land, Nat.testBit_shiftLeft, Nat.testBit_shiftLeft,
    Nat.testBit_mod_two_pow, Nat.testBit_two_pow_sub_one]
  have hdiv : h / 4 = h >>> 2 := by
    rw [Nat.shiftRight_eq_div_pow]
  rcases Nat.lt_or_ge i 2 with hi | hi
  · have hni : ¬ (i ≥ 2) := by omega
    simp [hni]
  · have h2 : 2 + (i - 2) = i := by omega
    rw [hdiv, Nat.testBit_shiftRight, h2]
    have hd : decide (i ≥ 2) = true := by simpa using hi
    rw [hd]
    cases hb : h.testBit i <;> simp

theorem land_mask_le (h m : Nat) : h &&& (2 ^ m - 4) ≤ 2 ^ m - 4 :=
  Nat.and_le_right

theorem quartet_shift (x r m : Nat) (hm : 2 ≤ m) (hr : r < 4) :
    ((x &&& (2 ^ m - 4)) + r) &&& (2 ^ m - 4) = x &&& (2 ^ m - 4) := by
  rw [land_mask_eq x m hm, land_mask_eq _ m hm]
  have hc : (x / 4) % 2 ^ (m - 2) < 2 ^ (m - 2) :=
    Nat.mod_lt _ (Nat.pos_pow_of_pos _ (by norm_num))
  have hdiv : (4 * ((x / 4) % 2 ^ (m - 2)) + r) / 4 = (x / 4) % 2 ^ (m - 2) := by
    omega
  rw [hdiv]
  simp [Nat.mod_mod_of_dvd]

theorem quartet_mem_iff (i x m : Nat) (hm : 2 ≤ m) (hi : i < 2 ^ m) :
    i &&& (2 ^ m - 4) = x &&& (2 ^ m - 4) ↔
      x &&& (2 ^ m - 4) ≤ i ∧ i < (x &&& (2 ^ m - 4)) + 4 := by
  have hpow : (2 : Nat) ^ m = 2 ^ (m - 2) * 4 := by
    have hm2 : m = (m - 2) + 2 := by omega
    rw [hm2, pow_add]; norm_num
  have hidiv : i / 4 < 2 ^ (m - 2) := by
    apply Nat.div_lt_of_lt_mul
    omega
  have hieq : i &&& (2 ^ m - 4) = 4 * (i / 4) := by
    rw [land_mask_eq i m hm, Nat.mod_eq_of_lt hidiv]
  constructor
  · intro hEq
    rw [← hEq, hieq]
    omega
  · intro hb
    rw [hieq]
    rw [land_mask_eq x m hm] at hb ⊢
    omega

/- ---------------- list access helpers ---------------- -/

theorem getD_set_self {α : Type} (l : List α) (i : Nat) (v d : α) (h : i < l.length) :
    (l.set i v).getD i d = v := by
  simp [List.getD_eq_getElem?_getD, List.getElem?_set, h]

theorem getD_set_ne {α : Type} (l : List α) (i j : Nat) (v d : α) (h : i ≠ j) :
    (l.set i v).getD j d = l.getD j d := by
  simp [List.getD_eq_getElem?_getD, List.getElem?_set, h]

theorem zip_nodup_functional {k v1 v2 : Nat} :
    ∀ (keys values : List Nat), keys.Nodup →
      (k, v1) ∈ keys.zip values → (k, v2) ∈ keys.zip values → v1 = v2 := by
  intro keys
  induction keys with
  | nil => intro values _ h1; simp at h1
  | cons a rest ih =>
    intro values hnd h1 h2
    cases values with
    | nil => simp at h1
    | cons b vrest =>
      simp only [List.zip_cons_cons, List.mem_cons] at h1 h2
      rcases h1 with h1 | h1
      · rcases h2 with h2 | h2
        · rw [Prod.mk.injEq] at h1 h2; omega
        · exfalso
          have hk : k = a := by rw [Prod.mk.injEq] at h1; exact h1.1
          have : k ∈ rest := (List.of_mem_zip h2).1
          rw [hk] at this
          exact (List.nodup_cons.mp hnd).1 this
      · rcases h2 with h2 | h2
        · exfalso
          have hk : k = a := by rw [Prod.mk.injEq] at h2; exact h2.1
          have : k ∈ rest := (List.of_mem_zip h1).1
          rw [hk] at this
          exact (List.nodup_cons.mp hnd).1 this
        · exact ih vrest (List.nodup_cons.mp hnd).2 h1 h2

/- ---------------- shape of hash_table_buckets ---------------- -/

theorem roundUpPow2Go_pow2 :
    ∀ (fuel n j : Nat), ∃ j2, roundUpPow2Go fuel n (2 ^ j) = 2 ^ j2 := by
  intro fuel
  induction fuel with
  | zero => intro n j; exact ⟨j, rfl⟩
  | succ f ih =>
    intro n j
    rw [roundUpPow2Go]
    split
    · have h2 : (2 : Nat) ^ j * 2 = 2 ^ (j + 1) := by rw [pow_succ]
      rw [h2]
      exact ih n (j + 1)
    · exact ⟨j, rfl⟩

theorem hash_table_buckets_pow2 (n : Nat) :
    ∃ m, 4 ≤ m ∧ hash_table_buckets n = 2 ^ m := by
  unfold hash_table_buckets round_up_to_power_of_2
  have h1 : (1 : Nat) = 2 ^ 0 := rfl
  rw [h1]
  obtain ⟨j2, hj⟩ := roundUpPow2Go_pow2 n n 0
  rw [hj]
  have h8 : (2 : Nat) ^ j2 * 4 * 2 = 2 ^ (j2 + 3) := by ring
  rw [h8]
  rcases Nat.lt_or_ge (2 ^ (j2 + 3)) 16 with hlt | hge
  · exact ⟨4, le_refl 4, by simp [hlt]⟩
  · refine ⟨j2 + 3, ?_, by simp [Nat.not_lt.mpr hge]⟩
    by_contra hlt2
    have hj2 : j2 = 0 := by omega
    subst hj2
    norm_num at hge

/- ---------------- insertion pass invariants (map) ---------------- -/

theorem u64mapInsertOne_ok (t : List (Nat × Nat)) (b key value : Nat)
    (t2 : List (Nat × Nat)) (h : u64mapInsertOne t b key value = .ok t2) :
    ∃ r, r < 4 ∧ slotKey t (b + r) = 0 ∧ t2 = t.set (b + r) (key, value) := by
  unfold u64mapInsertOne at h
  split_ifs at h with h1 h2 h3 h4 h5
  · exact ⟨0, by norm_num, by simpa using h2, by simpa using (U64PassResult.ok.injEq _ _ |>.mp h).symm⟩
  · exact ⟨1, by norm_num, h3, by simpa using (U64PassResult.ok.injEq _ _ |>.mp h).symm⟩
  · exact ⟨2, by norm_num, h4, by simpa using (U64PassResult.ok.injEq _ _ |>.mp h).symm⟩
  · exact ⟨3, by norm_num, h5, by simpa using (U64PassResult.ok.injEq _ _ |>.mp h).symm⟩

theorem u64mapInsertPass_inv (f1 f2 mask : Nat) :
    ∀ (kvs : List (Nat × Nat)) (t t2 done : List (Nat × Nat)),
      (∀ k, (hm_u64_hash64 f1 f2 k &&& mask) + 3 < t.length) →
      (∀ k r, r < 4 → ((hm_u64_hash64 f1 f2 k &&& mask) + r) &&& mask =
        hm_u64_hash64 f1 f2 k &&& mask) →
      (∀ kv ∈ kvs, (kv : Nat × Nat).1 ≠ 0) →
      (∀ kv ∈ done, (kv : Nat × Nat).1 ≠ 0) →
      u64mapSlotsOK f1 f2 mask done t →
      u64mapStoredOK f1 f2 mask done t →
      u64mapInsertPass f1 f2 mask t kvs = .ok t2 →
      u64mapSlotsOK f1 f2 mask (done ++ kvs) t2 ∧
        u64mapStoredOK f1 f2 mask (done ++ kvs) t2 ∧ t2.length = t.length := by
  intro kvs
  induction kvs with
  | nil =>
    intro t t2 done _ _ _ _ hS hT hp
    rw [u64mapInsertPass] at hp
    have ht : t = t2 := by simpa using hp
    subst ht
    simpa using ⟨hS, hT⟩
  | cons kv rest ih =>
    intro t t2 done hlen hquart hz hdz hS hT hp
    obtain ⟨key, value⟩ := kv
    rw [u64mapInsertPass] at hp
    rcases hone : u64mapInsertOne t (hm_u64_hash64 f1 f2 key &&& mask) key value with
      _ | _ | tmid
    · rw [hone] at hp; simp at hp
    · rw [hone] at hp; simp at hp
    · rw [hone] at hp
      simp only at hp
      obtain ⟨r, hr4, hzero, htmid⟩ := u64mapInsertOne_ok _ _ _ _ _ hone
      have hjlen : (hm_u64_hash64 f1 f2 key &&& mask) + r < t.length := by
        have := hlen key
        omega
      have hkey0 : key ≠ 0 := hz (key, value) (by simp)
      have hrest0 : ∀ kv ∈ rest, (kv : Nat × Nat).1 ≠ 0 := fun kv hkv => hz kv (by simp [hkv])
      have hmidlen : tmid.length = t.length := by rw [htmid]; simp
      have hdz2 : ∀ kv ∈ done ++ [(key, value)], (kv : Nat × Nat).1 ≠ 0 := by
        intro kv hkv
        rcases List.mem_append.mp hkv with hkv | hkv
        · exact hdz kv hkv
        · have : kv = (key, value) := by simpa using hkv
          rw [this]; exact hkey0
      have hSmid : u64mapSlotsOK f1 f2 mask (done ++ [(key, value)]) tmid := by
        intro i hilen hiz
        rw [hmidlen] at hilen
        by_cases hij : i = (hm_u64_hash64 f1 f2 key &&& mask) + r
        · subst hij
          rw [htmid]
          rw [slotKey, getD_set_self _ _ _ _ hjlen]
          exact ⟨by simp, hquart key r hr4⟩
        · rw [htmid] at hiz
          rw [slotKey, getD_set_ne _ _ _ _ _ (fun he => hij he.symm)] at hiz
          have hSi := hS i hilen hiz
          rw [htmid, slotKey, getD_set_ne _ _ _ _ _ (fun he => hij he.symm)]
          exact ⟨List.mem_append.mpr (Or.inl hSi.1), hSi.2⟩
      have hTmid : u64mapStoredOK f1 f2 mask (done ++ [(key, value)]) tmid := by
        intro kv hkv
        rcases List.mem_append.mp hkv with hkv | hkv
        · obtain ⟨i, hilen, hgd, hq⟩ := hT kv hkv
          have hiz : slotKey t i ≠ 0 := by
            rw [slotKey, hgd]
            exact hdz kv hkv
          have hij : i ≠ (hm_u64_hash64 f1 f2 key &&& mask) + r := by
            intro he
            rw [he] at hiz
            exact hiz hzero
          refine ⟨i, by omega, ?_, hq⟩
          rw [htmid, getD_set_ne _ _ _ _ _ (fun he => hij he.symm), hgd]
        · have hkvkey : kv = (key, value) := by simpa using hkv
          subst hkvkey
          refine ⟨(hm_u64_hash64 f1 f2 key &&& mask) + r, by omega, ?_, ?_⟩
          · rw [htmid, getD_set_self _ _ _ _ hjlen]
          · exact hquart key r hr4
      have hfin := ih tmid t2 (done ++ [(key, value)])
        (by rw [hmidlen]; exact hlen) hquart hrest0 hdz2 hSmid hTmid hp
      rw [List.append_assoc] at hfin
      rw [← hmidlen]
      simpa using hfin

theorem u64mapCalibrate_ok (mask buckets key0 : Nat) (kvs : List (Nat × Nat)) :
    ∀ (fuel f1 f2 g1 g2 : Nat) (t : List (Nat × Nat)),
      u64mapCalibrate mask buckets key0 kvs fuel f1 f2 = .ok g1 g2 t →
      u64mapInsertPass g1 g2 mask (List.replicate buckets (0, 0)) kvs = .ok t := by
  intro fuel
  induction fuel with
  | zero => intro f1 f2 g1 g2 t h; simp [u64mapCalibrate] at h
  | succ n ih =>
    intro f1 f2 g1 g2 t h
    rw [u64mapCalibrate] at h
    rcases hp : u64mapInsertPass f1 f2 mask (List.replicate buckets (0, 0)) kvs with
      _ | _ | t0
    · rw [hp] at h; simp at h
    · rw [hp] at h
      simp only at h
      exact ih _ _ _ _ _ h
    · rw [hp] at h
      simp only [U64Calibrated.ok.injEq] at h
      obtain ⟨hf1, hf2, ht⟩ := h
      rw [← hf1, ← hf2, ← ht]
      exact hp

theorem u64FindFreeKey_spec (f1 f2 mask target : Nat) :
    ∀ (fuel key s : Nat), u64FindFreeKey f1 f2 mask target fuel key = some s →
      hm_u64_hash64 f1 f2 s &&& mask ≠ target := by
  intro fuel
  induction fuel with
  | zero => intro key s h; simp [u64FindFreeKey] at h
  | succ n ih =>
    intro key s h
    rw [u64FindFreeKey] at h
    split at h
    · have hs : (key + 1) % U64MOD = s := by simpa using h
      rw [← hs]
      assumption
    · exact ih _ _ h

theorem u64mapZeroRepairSlot_spec (f1 f2 mask fuel : Nat) (t : List (Nat × Nat))
    (b0 : Nat) (t1 : List (Nat × Nat))
    (h : u64mapZeroRepairSlot f1 f2 mask fuel t b0 = some t1) :
    t1.length = t.length ∧
    (∀ i, i ≠ b0 → t1.getD i (0, 0) = t.getD i (0, 0)) ∧
    ((slotKey t b0 ≠ 0 ∧ t1 = t) ∨
      (slotKey t b0 = 0 ∧ ∃ s, hm_u64_hash64 f1 f2 s &&& mask ≠ b0 &&& mask ∧
        t1 = t.set b0 (s, slotVal t b0))) := by
  unfold u64mapZeroRepairSlot at h
  split at h
  · rcases hf : u64FindFreeKey f1 f2 mask (b0 &&& mask) fuel (slotKey t b0) with _ | s
    · rw [hf] at h; simp at h
    · rw [hf] at h
      have ht1 : t1 = t.set b0 (s, slotVal t b0) := by
        simpa using h.symm
      subst ht1
      refine ⟨by simp, ?_, Or.inr ⟨by assumption, s,
        u64FindFreeKey_spec f1 f2 mask (b0 &&& mask) fuel _ s hf, rfl⟩⟩
      intro i hi
      exact getD_set_ne _ _ _ _ _ (fun he => hi he.symm)
  · have ht1 : t1 = t := by simpa using h.symm
    subst ht1
    refine ⟨rfl, fun i _ => rfl, Or.inl ⟨by assumption, rfl⟩⟩

theorem u64mapZeroRepair_final (f1 f2 m fuel : Nat) (hm : 2 ≤ m) (b : Nat)
    (t t1 : List (Nat × Nat)) (hlen : t.length = 2 ^ m)
    (hb : b = hm_u64_hash64 f1 f2 0 &&& (2 ^ m - 4))
    (hrep : u64mapZeroRepair f1 f2 (2 ^ m - 4) fuel t = some t1) :
    t1.length = t.length ∧
    (∀ i, i < b ∨ b + 4 ≤ i → t1.getD i (0, 0) = t.getD i (0, 0)) ∧
    (∀ r, r < 4 →
      (slotKey t (b + r) ≠ 0 → t1.getD (b + r) (0, 0) = t.getD (b + r) (0, 0)) ∧
      (slotKey t (b + r) = 0 → ∃ s, s ≠ 0 ∧
        hm_u64_hash64 f1 f2 s &&& (2 ^ m - 4) ≠ b ∧
        t1.getD (b + r) (0, 0) = (s, slotVal t (b + r)))) := by
  have hble : b ≤ 2 ^ m - 4 := by rw [hb]; exact land_mask_le _ m
  have h16 : (4 : Nat) ≤ 2 ^ m := by
    calc (4 : Nat) = 2 ^ 2 := by norm_num
      _ ≤ 2 ^ m := Nat.pow_le_pow_right (by norm_num) hm
  have hblen : b + 3 < t.length := by omega
  rw [u64mapZeroRepair] at hrep
  rw [← hb] at hrep
  rcases h1 : u64mapZeroRepairSlot f1 f2 (2 ^ m - 4) fuel t b with _ | ta
  · rw [h1] at hrep; simp at hrep
  rw [h1] at hrep
  simp only [Option.bind_eq_bind, Option.some_bind] at hrep
  rcases h2 : u64mapZeroRepairSlot f1 f2 (2 ^ m - 4) fuel ta (b + 1) with _ | tb
  · rw [h2] at hrep; simp at hrep
  rw [h2] at hrep
  simp only [Option.bind_eq_bind, Option.some_bind] at hrep
  rcases h3 : u64mapZeroRepairSlot f1 f2 (2 ^ m - 4) fuel tb (b + 2) with _ | tc
  · rw [h3] at hrep; simp at hrep
  rw [h3] at hrep
  simp only [Option.bind_eq_bind, Option.some_bind] at hrep
  obtain ⟨hl1, ho1, hc1⟩ := u64mapZeroRepairSlot_spec _ _ _ _ _ _ _ h1
  obtain ⟨hl2, ho2, hc2⟩ := u64mapZeroRepairSlot_spec _ _ _ _ _ _ _ h2
  obtain ⟨hl3, ho3, hc3⟩ := u64mapZeroRepairSlot_spec _ _ _ _ _ _ _ h3
  obtain ⟨hl4, ho4, hc4⟩ := u64mapZeroRepairSlot_spec _ _ _ _ _ _ _ hrep
  have hquartb : ∀ r, r < 4 → (b + r) &&& (2 ^ m - 4) = b := by
    intro r hr
    rcases Nat.eq_zero_or_pos r with hr0 | hrpos
    · subst hr0
      rw [Nat.add_zero, hb]
      apply Nat.eq_of_testBit_eq
      intro i
      simp only [Nat.testBit_land]
      cases (2 ^ m - 4).testBit i <;> simp
    · rw [hb]
      exact quartet_shift _ r m hm hr
  have hsynth : ∀ r, r < 4 → ∀ s,
      hm_u64_hash64 f1 f2 s &&& (2 ^ m - 4) ≠ (b + r) &&& (2 ^ m - 4) →
      s ≠ 0 ∧ hm_u64_hash64 f1 f2 s &&& (2 ^ m - 4) ≠ b := by
    intro r hr s hs
    rw [hquartb r hr] at hs
    refine ⟨?_, hs⟩
    intro hs0
    rw [hs0, hb] at hs
    exact hs rfl
  have hlen4 : t1.length = t.length := by rw [hl4, hl3, hl2, hl1]
  refine ⟨hlen4, ?_, ?_⟩
  · intro i hi
    rw [ho4 i (by omega), ho3 i (by omega), ho2 i (by omega), ho1 i (by omega)]
  · intro r hr
    interval_cases r
    · constructor
      · intro hnz
        rcases hc1 with ⟨_, hta⟩ | ⟨hz, _⟩
        · rw [Nat.add_zero] at hnz ⊢
          rw [ho4 b (by omega), ho3 b (by omega), ho2 b (by omega), hta]
        · rw [Nat.add_zero] at hnz
          exact absurd hz hnz
      · intro hz
        rw [Nat.add_zero] at hz ⊢
        rcases hc1 with ⟨hnz, _⟩ | ⟨_, s, hs, hta⟩
        · exact absurd hz hnz
        · obtain ⟨hs0, hsb⟩ := hsynth 0 (by omega) s (by rw [Nat.add_zero]; exact hs)
          refine ⟨s, hs0, hsb, ?_⟩
          rw [ho4 b (by omega), ho3 b (by omega), ho2 b (by omega), hta,
            getD_set_self _ _ _ _ (by omega)]
    · have hpre : ta.getD (b + 1) (0, 0) = t.getD (b + 1) (0, 0) := ho1 _ (by omega)
      have hpreK : slotKey ta (b + 1) = slotKey t (b + 1) := by
        rw [slotKey, slotKey, hpre]
      constructor
      · intro hnz
        rcases hc2 with ⟨_, htb⟩ | ⟨hz, _⟩
        · rw [ho4 _ (by omega), ho3 _ (by omega), htb, hpre]
        · rw [hpreK] at hz
          exact absurd hz hnz
      · intro hz
        rcases hc2 with ⟨hnz, _⟩ | ⟨_, s, hs, htb⟩
        · rw [hpreK] at hnz
          exact absurd hz hnz
        · obtain ⟨hs0, hsb⟩ := hsynth 1 (by omega) s hs
          refine ⟨s, hs0, hsb, ?_⟩
          rw [ho4 _ (by omega), ho3 _ (by omega), htb,
            getD_set_self _ _ _ _ (by omega)]
          rw [slotVal, slotVal, hpre]
    · have hpre : tb.getD (b + 2) (0, 0) = t.getD (b + 2) (0, 0) := by
        rw [ho2 _ (by omega), ho1 _ (by omega)]
      have hpreK : slotKey tb (b + 2) = slotKey t (b + 2) := by
        rw [slotKey, slotKey, hpre]
      constructor
      · intro hnz
        rcases hc3 with ⟨_, htc⟩ | ⟨hz, _⟩
        · rw [ho4 _ (by omega), htc, hpre]
        · rw [hpreK] at hz
          exact absurd hz hnz
      · intro hz
        rcases hc3 with ⟨hnz, _⟩ | ⟨_, s, hs, htc⟩
        · rw [hpreK] at hnz
          exact absurd hz hnz
        · obtain ⟨hs0, hsb⟩ := hsynth 2 (by omega) s hs
          refine ⟨s, hs0, hsb, ?_⟩
          rw [ho4 _ (by omega), htc, getD_set_self _ _ _ _ (by omega)]
          rw [slotVal, slotVal, hpre]
    · have hpre : tc.getD (b + 3) (0, 0) = t.getD (b + 3) (0, 0) := by
        rw [ho3 _ (by omega), ho2 _ (by omega), ho1 _ (by omega)]
      have hpreK : slotKey tc (b + 3) = slotKey t (b + 3) := by
        rw [slotKey, slotKey, hpre]
      constructor
      · intro hnz
        rcases hc4 with ⟨_, ht1⟩ | ⟨hz, _⟩
        · rw [ht1, hpre]
        · rw [hpreK] at hz
          exact absurd hz hnz
      · intro hz
        rcases hc4 with ⟨hnz, _⟩ | ⟨_, s, hs, ht1⟩
        · rw [hpreK] at hnz
          exact absurd hz hnz
        · obtain ⟨hs0, hsb⟩ := hsynth 3 (by omega) s hs
          refine ⟨s, hs0, hsb, ?_⟩
          rw [ht1, getD_set_self _ _ _ _ (by omega)]
          rw [slotVal, slotVal, hpre]

theorem getD_append_left {α : Type} (u v : List α) (i : Nat) (d : α)
    (h : i < u.length) : (u ++ v).getD i d = u.getD i d := by
  simp [List.getD_eq_getElem?_getD, List.getElem?_append_left h]

theorem getD_append_right {α : Type} (u v : List α) (i : Nat) (d : α)
    (h : u.length ≤ i) : (u ++ v).getD i d = v.getD (i - u.length) d := by
  simp [List.getD_eq_getElem?_getD, List.getElem?_append_right h]

theorem list_eta4 {α : Type} (d : α) (u : List α) (h : u.length = 4) :
    u = [u.getD 0 d, u.getD 1 d, u.getD 2 d, u.getD 3 d] := by
  match u with
  | [a, b, c, e] => rfl
  | [] => exact absurd h (by simp)
  | [_] => exact absurd h (by simp)
  | [_, _] => exact absurd h (by simp)
  | [_, _, _] => exact absurd h (by simp)
  | _ :: _ :: _ :: _ :: _ :: _ => exact absurd h (by simp)

theorem kvInsertByKey_perm (p : Nat × Nat) (l : List (Nat × Nat)) :
    (kvInsertByKey p l).Perm (p :: l) := by
  induction l with
  | nil => simp [kvInsertByKey]
  | cons q rest ih =>
    rw [kvInsertByKey]
    split
    · exact List.Perm.refl _
    · exact (List.Perm.cons q ih).trans (List.Perm.swap p q rest)

theorem kvSortByKey_perm (l : List (Nat × Nat)) : (kvSortByKey l).Perm l := by
  induction l with
  | nil => simp [kvSortByKey]
  | cons p rest ih =>
    have hstep : kvSortByKey (p :: rest) = kvInsertByKey p (kvSortByKey rest) := rfl
    rw [hstep]
    exact (kvInsertByKey_perm p (kvSortByKey rest)).trans (List.Perm.cons p ih)

theorem kvSortByKey_length (l : List (Nat × Nat)) :
    (kvSortByKey l).length = l.length := (kvSortByKey_perm l).length_eq

theorem sortQuartets_length (l : List (Nat × Nat)) :
    (sortQuartets l).length = l.length := by
  induction l using sortQuartets.induct with
  | case1 a b c d rest ih =>
    rw [sortQuartets, List.length_append, kvSortByKey_length, ih]
    simp only [List.length_cons, List.length_nil]
    omega
  | case2 l h =>
    rw [sortQuartets]
    exact h

theorem sortQuartets_quartetSlots (l : List (Nat × Nat)) :
    ∀ (q : Nat), (quartetSlots (sortQuartets l) (4 * q)).Perm (quartetSlots l (4 * q)) := by
  induction l using sortQuartets.induct with
  | case1 a b c d rest ih =>
    intro q
    rw [sortQuartets]
    have hlen : (kvSortByKey [a, b, c, d]).length = 4 := kvSortByKey_length _
    rcases Nat.eq_zero_or_pos q with hq | hq
    · subst hq
      have hsl : ∀ r, r < 4 →
          (kvSortByKey [a, b, c, d] ++ sortQuartets rest).getD r (0, 0) =
            (kvSortByKey [a, b, c, d]).getD r (0, 0) := by
        intro r hr
        exact getD_append_left _ _ _ _ (by omega)
      have h0 : quartetSlots (kvSortByKey [a, b, c, d] ++ sortQuartets rest) 0 =
          kvSortByKey [a, b, c, d] := by
        rw [quartetSlots]
        have e0 := hsl 0 (by norm_num)
        have e1 := hsl 1 (by norm_num)
        have e2 := hsl 2 (by norm_num)
        have e3 := hsl 3 (by norm_num)
        simp only [Nat.mul_zero, Nat.zero_add] at *
        rw [e0, e1, e2, e3]
        exact (list_eta4 (0, 0) _ hlen).symm
      have h1 : quartetSlots (a :: b :: c :: d :: rest) 0 = [a, b, c, d] := by
        rw [quartetSlots]
        rfl
      simp only [Nat.mul_zero] at *
      rw [h0, h1]
      exact kvSortByKey_perm [a, b, c, d]
    · obtain ⟨q2, hq2⟩ : ∃ q2, q = q2 + 1 := ⟨q - 1, by omega⟩
      subst hq2
      have hshift : ∀ r, r < 4 →
          (kvSortByKey [a, b, c, d] ++ sortQuartets rest).getD (4 * (q2 + 1) + r) (0, 0) =
            (sortQuartets rest).getD (4 * q2 + r) (0, 0) := by
        intro r hr
        rw [getD_append_right _ _ _ _ (by omega)]
        congr 1
        omega
      have hshift2 : ∀ r, r < 4 →
          (a :: b :: c :: d :: rest).getD (4 * (q2 + 1) + r) (0, 0) =
            rest.getD (4 * q2 + r) (0, 0) := by
        intro r hr
        have hcons : a :: b :: c :: d :: rest = [a, b, c, d] ++ rest := rfl
        rw [hcons, getD_append_right _ _ _ _ (by simp; omega)]
        congr 1
        simp
        omega
      have e0 := hshift 0 (by norm_num)
      have e1 := hshift 1 (by norm_num)
      have e2 := hshift 2 (by norm_num)
      have e3 := hshift 3 (by norm_num)
      have f0 := hshift2 0 (by norm_num)
      have f1 := hshift2 1 (by norm_num)
      have f2 := hshift2 2 (by norm_num)
      have f3 := hshift2 3 (by norm_num)
      simp only [Nat.add_zero] at e0 f0
      have hL : quartetSlots (kvSortByKey [a, b, c, d] ++ sortQuartets rest) (4 * (q2 + 1)) =
          quartetSlots (sortQuartets rest) (4 * q2) := by
        rw [quartetSlots, quartetSlots]
        rw [e0, e1, e2, e3]
      have hR : quartetSlots (a :: b :: c :: d :: rest) (4 * (q2 + 1)) =
          quartetSlots rest (4 * q2) := by
        rw [quartetSlots, quartetSlots]
        rw [f0, f1, f2, f3]
      rw [hL, hR]
      exact ih q2
  | case2 l h =>
    intro q
    rw [sortQuartets]
    exact h

theorem mem_quartetSlots {t : List (Nat × Nat)} {b : Nat} {p : Nat × Nat} :
    p ∈ quartetSlots t b ↔ ∃ r, r < 4 ∧ t.getD (b + r) (0, 0) = p := by
  rw [quartetSlots]
  simp only [List.mem_cons, List.not_mem_nil, or_false]
  constructor
  · rintro (h | h | h | h)
    · exact ⟨0, by omega, by rw [Nat.add_zero]; exact h.symm⟩
    · exact ⟨1, by omega, h.symm⟩
    · exact ⟨2, by omega, h.symm⟩
    · exact ⟨3, by omega, h.symm⟩
  · rintro ⟨r, hr, he⟩
    interval_cases r
    · rw [Nat.add_zero] at he
      exact Or.inl he.symm
    · exact Or.inr (Or.inl he.symm)
    · exact Or.inr (Or.inr (Or.inl he.symm))
    · exact Or.inr (Or.inr (Or.inr he.symm))

theorem findQuartet_eq (t : List (Nat × Nat)) (b k v : Nat)
    (hex : (k, v) ∈ quartetSlots t b)
    (huniq : ∀ p ∈ quartetSlots t b, (p : Nat × Nat).1 = k → p.2 = v) :
    (if slotKey t b = k then slotVal t b
     else if slotKey t (b + 1) = k then slotVal t (b + 1)
     else if slotKey t (b + 2) = k then slotVal t (b + 2)
     else if slotKey t (b + 3) = k then slotVal t (b + 3) else 0) = v := by
  have hmem : ∀ r, r < 4 → t.getD (b + r) (0, 0) ∈ quartetSlots t b := by
    intro r hr
    exact mem_quartetSlots.mpr ⟨r, hr, rfl⟩
  by_cases h0 : slotKey t b = k
  · rw [if_pos h0]
    exact huniq _ (by rw [quartetSlots]; exact List.mem_cons_self _ _) h0
  rw [if_neg h0]
  by_cases h1 : slotKey t (b + 1) = k
  · rw [if_pos h1]
    exact huniq _ (hmem 1 (by omega)) h1
  rw [if_neg h1]
  by_cases h2 : slotKey t (b + 2) = k
  · rw [if_pos h2]
    exact huniq _ (hmem 2 (by omega)) h2
  rw [if_neg h2]
  by_cases h3 : slotKey t (b + 3) = k
  · rw [if_pos h3]
    exact huniq _ (hmem 3 (by omega)) h3
  rw [if_neg h3]
  exfalso
  obtain ⟨r, hr, he⟩ := mem_quartetSlots.mp hex
  have hk : slotKey t (b + r) = k := by rw [slotKey, he]
  interval_cases r
  · rw [Nat.add_zero] at hk; exact h0 hk
  · exact h1 hk
  · exact h2 hk
  · exact h3 hk

theorem findQuartet_none (t : List (Nat × Nat)) (b k : Nat)
    (hnone : ∀ p ∈ quartetSlots t b, (p : Nat × Nat).1 ≠ k) :
    (if slotKey t b = k then slotVal t b
     else if slotKey t (b + 1) = k then slotVal t (b + 1)
     else if slotKey t (b + 2) = k then slotVal t (b + 2)
     else if slotKey t (b + 3) = k then slotVal t (b + 3) else 0) = 0 := by
  have hmem : ∀ r, r < 4 → t.getD (b + r) (0, 0) ∈ quartetSlots t b := by
    intro r hr
    exact mem_quartetSlots.mpr ⟨r, hr, rfl⟩
  have h0 : slotKey t b ≠ k :=
    hnone _ (by rw [quartetSlots]; exact List.mem_cons_self _ _)
  have h1 : slotKey t (b + 1) ≠ k := hnone _ (hmem 1 (by omega))
  have h2 : slotKey t (b + 2) ≠ k := hnone _ (hmem 2 (by omega))
  have h3 : slotKey t (b + 3) ≠ k := hnone _ (hmem 3 (by omega))
  rw [if_neg h0, if_neg h1, if_neg h2, if_neg h3]

theorem hm_u64map_find_eq_chain (db : U64MapDB) (k : Nat) :
    hm_u64map_find db k =
      (if slotKey db.hashTable (hm_u64_hash64 db.factor1 db.factor2 k &&& db.maskForHash) = k
        then slotVal db.hashTable (hm_u64_hash64 db.factor1 db.factor2 k &&& db.maskForHash)
       else if slotKey db.hashTable ((hm_u64_hash64 db.factor1 db.factor2 k &&& db.maskForHash) + 1) = k
        then slotVal db.hashTable ((hm_u64_hash64 db.factor1 db.factor2 k &&& db.maskForHash) + 1)
       else if slotKey db.hashTable ((hm_u64_hash64 db.factor1 db.factor2 k &&& db.maskForHash) + 2) = k
        then slotVal db.hashTable ((hm_u64_hash64 db.factor1 db.factor2 k &&& db.maskForHash) + 2)
       else if slotKey db.hashTable ((hm_u64_hash64 db.factor1 db.factor2 k &&& db.maskForHash) + 3) = k
        then slotVal db.hashTable ((hm_u64_hash64 db.factor1 db.factor2 k &&& db.maskForHash) + 3)
       else 0) := rfl

theorem getD_replicate_zero (n i : Nat) :
    (List.replicate n ((0 : Nat), (0 : Nat))).getD i (0, 0) = (0, 0) := by
  rw [List.getD_eq_getElem?_getD, List.getElem?_replicate]
  split <;> rfl

theorem u64map_correct (keys values : List Nat) (fuelCal fuelRepair : Nat) (db : U64MapDB)
    (hnd : keys.Nodup)
    (hk0 : ∀ k ∈ keys, k ≠ 0)
    (hc : hm_u64map_compile fuelCal fuelRepair keys values = some (.ok db)) :
    (∀ kv ∈ keys.zip values, hm_u64map_find db kv.1 = kv.2) ∧
    hm_u64map_find db 0 = 0 ∧
    (∀ k, k ∉ keys → hm_u64map_find db k = 0) := by
  rw [hm_u64map_compile] at hc
  split at hc
  · simp at hc
  split at hc
  · simp at hc
  rcases hcal : u64mapCalibrate (hash_table_buckets keys.length - 1 - 3)
      (hash_table_buckets keys.length) (keys.headD 0) (keys.zip values) fuelCal
      0xA6C3096657A14E89 0x24F963569D05D92E with _ | _ | ⟨f1, f2, t⟩
  · rw [hcal] at hc; simp at hc
  · rw [hcal] at hc; simp at hc
  rw [hcal] at hc
  simp only at hc
  rcases hrep : u64mapZeroRepair f1 f2 (hash_table_buckets keys.length - 1 - 3)
      fuelRepair t with _ | t1
  · rw [hrep] at hc; simp at hc
  rw [hrep] at hc
  simp only [Option.some.injEq, Except.ok.injEq] at hc
  obtain ⟨m, hm4, hbuck⟩ := hash_table_buckets_pow2 keys.length
  have hm2 : 2 ≤ m := by omega
  have h16 : (16 : Nat) ≤ 2 ^ m := by
    calc (16 : Nat) = 2 ^ 4 := by norm_num
      _ ≤ 2 ^ m := Nat.pow_le_pow_right (by norm_num) hm4
  have hmask : hash_table_buckets keys.length - 1 - 3 = 2 ^ m - 4 := by omega
  rw [hmask] at hcal hrep hc
  subst hc
  have hpass := u64mapCalibrate_ok _ _ _ _ _ _ _ _ _ _ hcal
  have hreplen : (List.replicate (hash_table_buckets keys.length)
      ((0 : Nat), (0 : Nat))).length = 2 ^ m := by
    rw [List.length_replicate, hbuck]
  have hquartAll : ∀ k r, r < 4 →
      ((hm_u64_hash64 f1 f2 k &&& (2 ^ m - 4)) + r) &&& (2 ^ m - 4) =
        hm_u64_hash64 f1 f2 k &&& (2 ^ m - 4) :=
    fun k r hr => quartet_shift _ r m hm2 hr
  have hlenBound : ∀ k2, (hm_u64_hash64 f1 f2 k2 &&& (2 ^ m - 4)) + 3 <
      (List.replicate (hash_table_buckets keys.length) ((0 : Nat), (0 : Nat))).length := by
    intro k2
    have := land_mask_le (hm_u64_hash64 f1 f2 k2) m
    omega
  have hz : ∀ kv ∈ keys.zip values, (kv : Nat × Nat).1 ≠ 0 :=
    fun kv hkv => hk0 kv.1 (List.of_mem_zip hkv).1
  have hS0 : u64mapSlotsOK f1 f2 (2 ^ m - 4) []
      (List.replicate (hash_table_buckets keys.length) (0, 0)) := by
    intro i hi hiz
    exact absurd (by rw [slotKey, getD_replicate_zero]) hiz
  have hT0 : u64mapStoredOK f1 f2 (2 ^ m - 4) []
      (List.replicate (hash_table_buckets keys.length) (0, 0)) := by
    intro kv hkv
    simp at hkv
  obtain ⟨hS, hT, htlen⟩ := u64mapInsertPass_inv f1 f2 (2 ^ m - 4) (keys.zip values)
    (List.replicate (hash_table_buckets keys.length) (0, 0)) t []
    hlenBound hquartAll hz (by simp) hS0 hT0 hpass
  simp only [List.nil_append] at hS hT
  have htlen2 : t.length = 2 ^ m := by rw [htlen, hreplen]
  obtain ⟨hRlen, hRout, hRquart⟩ := u64mapZeroRepair_final f1 f2 m fuelRepair hm2
    (hm_u64_hash64 f1 f2 0 &&& (2 ^ m - 4)) t t1 htlen2 rfl hrep
  have ht1len : t1.length = 2 ^ m := by rw [hRlen, htlen2]
  have hb0le : (hm_u64_hash64 f1 f2 0 &&& (2 ^ m - 4)) + 3 < 2 ^ m := by
    have := land_mask_le (hm_u64_hash64 f1 f2 0) m
    omega
  have hpreserve : ∀ i, slotKey t i ≠ 0 → t1.getD i (0, 0) = t.getD i (0, 0) := by
    intro i hnz
    by_cases hcase : i < hm_u64_hash64 f1 f2 0 &&& (2 ^ m - 4) ∨
        (hm_u64_hash64 f1 f2 0 &&& (2 ^ m - 4)) + 4 ≤ i
    · exact hRout i hcase
    · push_neg at hcase
      obtain ⟨hge, hlt⟩ := hcase
      have hr : i = (hm_u64_hash64 f1 f2 0 &&& (2 ^ m - 4)) +
          (i - (hm_u64_hash64 f1 f2 0 &&& (2 ^ m - 4))) := by omega
      rw [hr] at hnz ⊢
      exact (hRquart _ (by omega)).1 hnz
  have hq0nonzero : ∀ r, r < 4 →
      slotKey t1 ((hm_u64_hash64 f1 f2 0 &&& (2 ^ m - 4)) + r) ≠ 0 := by
    intro r hr
    by_cases hzt : slotKey t ((hm_u64_hash64 f1 f2 0 &&& (2 ^ m - 4)) + r) = 0
    · obtain ⟨s, hs0, _, hset⟩ := (hRquart r hr).2 hzt
      rw [slotKey, hset]
      exact hs0
    · rw [slotKey, (hRquart r hr).1 hzt]
      exact hzt
  have hclassify : ∀ j, j < 2 ^ m → slotKey t1 j ≠ 0 →
      (t1.getD j (0, 0) ∈ keys.zip values ∧
        j &&& (2 ^ m - 4) = hm_u64_hash64 f1 f2 (slotKey t1 j) &&& (2 ^ m - 4)) ∨
      hm_u64_hash64 f1 f2 (slotKey t1 j) &&& (2 ^ m - 4) ≠ j &&& (2 ^ m - 4) := by
    intro j hj hjz
    by_cases hzt : slotKey t j = 0
    · by_cases hcase : j < hm_u64_hash64 f1 f2 0 &&& (2 ^ m - 4) ∨
          (hm_u64_hash64 f1 f2 0 &&& (2 ^ m - 4)) + 4 ≤ j
      · exfalso
        exact hjz (by rw [slotKey, hRout j hcase]; exact hzt)
      · push_neg at hcase
        obtain ⟨hge, hlt⟩ := hcase
        have hrj : j = (hm_u64_hash64 f1 f2 0 &&& (2 ^ m - 4)) +
            (j - (hm_u64_hash64 f1 f2 0 &&& (2 ^ m - 4))) := by omega
        rw [hrj] at hzt
        obtain ⟨s, hs0, hsb, hset⟩ := (hRquart _ (by omega)).2 hzt
        right
        have hslot : slotKey t1 j = s := by
          rw [slotKey, hrj, hset]
        have hjq : j &&& (2 ^ m - 4) = hm_u64_hash64 f1 f2 0 &&& (2 ^ m - 4) :=
          (quartet_mem_iff j (hm_u64_hash64 f1 f2 0) m hm2 hj).mpr ⟨hge, by omega⟩
        rw [hslot, hjq]
        exact hsb
    · have heq := hpreserve j hzt
      have hSj := hS j (by omega) hzt
      left
      have hkeq : slotKey t1 j = slotKey t j := by rw [slotKey, slotKey, heq]
      constructor
      · rw [heq]; exact hSj.1
      · rw [hkeq]; exact hSj.2
  have hstored1 : ∀ kv ∈ keys.zip values, ∃ i, i < 2 ^ m ∧ t1.getD i (0, 0) = kv ∧
      i &&& (2 ^ m - 4) = hm_u64_hash64 f1 f2 (kv : Nat × Nat).1 &&& (2 ^ m - 4) := by
    intro kv hkv
    obtain ⟨i, hi, hgd, hq⟩ := hT kv hkv
    have hnz : slotKey t i ≠ 0 := by rw [slotKey, hgd]; exact hz kv hkv
    exact ⟨i, by omega, by rw [hpreserve i hnz, hgd], hq⟩
  have hperm : ∀ x : Nat, (quartetSlots (sortQuartets t1) (x &&& (2 ^ m - 4))).Perm
      (quartetSlots t1 (x &&& (2 ^ m - 4))) := by
    intro x
    have hc4 := land_mask_eq x m hm2
    rw [hc4]
    exact sortQuartets_quartetSlots t1 _
  have hfind0 : hm_u64map_find ⟨f1, f2, 2 ^ m - 4, sortQuartets t1⟩ 0 = 0 := by
    rw [hm_u64map_find_eq_chain]
    dsimp only
    apply findQuartet_none
    intro p hp
    have hp1 : p ∈ quartetSlots t1 (hm_u64_hash64 f1 f2 0 &&& (2 ^ m - 4)) :=
      (hperm (hm_u64_hash64 f1 f2 0)).mem_iff.mp hp
    obtain ⟨r, hr, hgd⟩ := mem_quartetSlots.mp hp1
    have : slotKey t1 ((hm_u64_hash64 f1 f2 0 &&& (2 ^ m - 4)) + r) = p.1 := by
      rw [slotKey, hgd]
    rw [← this]
    exact hq0nonzero r hr
  refine ⟨?_, hfind0, ?_⟩
  · intro kv hkv
    obtain ⟨key, value⟩ := kv
    have hkmem : key ∈ keys := (List.of_mem_zip hkv).1
    have hknz : key ≠ 0 := hk0 _ hkmem
    rw [hm_u64map_find_eq_chain]
    dsimp only
    apply findQuartet_eq
    · obtain ⟨i, hi, hgd, hq⟩ := hstored1 (key, value) hkv
      have hbounds := (quartet_mem_iff i (hm_u64_hash64 f1 f2 key) m hm2 (by omega)).mp hq
      apply (hperm (hm_u64_hash64 f1 f2 key)).mem_iff.mpr
      apply mem_quartetSlots.mpr
      refine ⟨i - (hm_u64_hash64 f1 f2 key &&& (2 ^ m - 4)), by omega, ?_⟩
      have hre : (hm_u64_hash64 f1 f2 key &&& (2 ^ m - 4)) +
          (i - (hm_u64_hash64 f1 f2 key &&& (2 ^ m - 4))) = i := by omega
      rw [hre]
      exact hgd
    · intro p hp hpk
      have hp1 : p ∈ quartetSlots t1 (hm_u64_hash64 f1 f2 key &&& (2 ^ m - 4)) :=
        (hperm (hm_u64_hash64 f1 f2 key)).mem_iff.mp hp
      obtain ⟨r, hr, hgd⟩ := mem_quartetSlots.mp hp1
      have hble : (hm_u64_hash64 f1 f2 key &&& (2 ^ m - 4)) + r < 2 ^ m := by
        have := land_mask_le (hm_u64_hash64 f1 f2 key) m
        omega
      have hslotp : slotKey t1 ((hm_u64_hash64 f1 f2 key &&& (2 ^ m - 4)) + r) = p.1 := by
        rw [slotKey, hgd]
      have hsnz : slotKey t1 ((hm_u64_hash64 f1 f2 key &&& (2 ^ m - 4)) + r) ≠ 0 := by
        rw [hslotp, hpk]
        exact hknz
      rcases hclassify _ hble hsnz with ⟨hmem2, hq2⟩ | hq2
      · rw [hgd] at hmem2
        rw [hslotp, hpk] at hq2
        have hp2 : p = (key, p.2) := by
          rw [Prod.mk.injEq]
          exact ⟨hpk.symm ▸ rfl, rfl⟩
        rw [hp2] at hmem2
        exact zip_nodup_functional keys values hnd hmem2 hkv
      · exfalso
        rw [hslotp, hpk, hquartAll key r hr] at hq2
        exact hq2 rfl
  · intro k hk
    by_cases hkz : k = 0
    · rw [hkz]
      exact hfind0
    rw [hm_u64map_find_eq_chain]
    dsimp only
    apply findQuartet_none
    intro p hp
    have hp1 : p ∈ quartetSlots t1 (hm_u64_hash64 f1 f2 k &&& (2 ^ m - 4)) :=
      (hperm (hm_u64_hash64 f1 f2 k)).mem_iff.mp hp
    obtain ⟨r, hr, hgd⟩ := mem_quartetSlots.mp hp1
    have hble : (hm_u64_hash64 f1 f2 k &&& (2 ^ m - 4)) + r < 2 ^ m := by
      have := land_mask_le (hm_u64_hash64 f1 f2 k) m
      omega
    have hslotp : slotKey t1 ((hm_u64_hash64 f1 f2 k &&& (2 ^ m - 4)) + r) = p.1 := by
      rw [slotKey, hgd]
    by_cases hp0 : p.1 = 0
    · rw [hp0]
      exact fun he => hkz he.symm
    have hsnz : slotKey t1 ((hm_u64_hash64 f1 f2 k &&& (2 ^ m - 4)) + r) ≠ 0 := by
      rw [hslotp]
      exact hp0
    intro hpk
    rcases hclassify _ hble hsnz with ⟨hmem2, _⟩ | hq2
    · rw [hgd] at hmem2
      have : p.1 ∈ keys := by
        have hz : (p.1, p.2) ∈ List.zip keys values := by
          have hpp : p = (p.1, p.2) := rfl
          rw [hpp] at hmem2
          exact hmem2
        exact (List.of_mem_zip hz).1
      rw [hpk] at this
      exact hk this
    · rw [hslotp, hpk, hquartAll k r hr] at hq2
      exact hq2 rfl

/- ---------------- insertion pass invariants (set) ---------------- -/

theorem getD_replicate {α : Type} (n i : Nat) (d : α) :
    (List.replicate n d).getD i d = d := by
  rw [List.getD_eq_getElem?_getD, List.getElem?_replicate]
  split <;> rfl

theorem u64setInsertOne_ok (t : List Nat) (b key : Nat)
    (t2 : List Nat) (h : u64setInsertOne t b key = .ok t2) :
    ∃ r, r < 4 ∧ setSlot t (b + r) = 0 ∧ t2 = t.set (b + r) key := by
  unfold u64setInsertOne at h
  split_ifs at h with h1 h2 h3 h4 h5
  · exact ⟨0, by norm_num, by simpa using h2, by simpa using h.symm⟩
  · exact ⟨1, by norm_num, h3, by simpa using h.symm⟩
  · exact ⟨2, by norm_num, h4, by simpa using h.symm⟩
  · exact ⟨3, by norm_num, h5, by simpa using h.symm⟩

theorem u64setInsertPass_inv (f1 f2 mask : Nat) :
    ∀ (ks : List Nat) (t t2 done : List Nat),
      (∀ k, (hm_u64_hash64 f1 f2 k &&& mask) + 3 < t.length) →
      (∀ k r, r < 4 → ((hm_u64_hash64 f1 f2 k &&& mask) + r) &&& mask =
        hm_u64_hash64 f1 f2 k &&& mask) →
      (∀ k ∈ ks, k ≠ 0) →
      (∀ k ∈ done, k ≠ 0) →
      u64setSlotsOK f1 f2 mask done t →
      u64setStoredOK f1 f2 mask done t →
      u64setInsertPass f1 f2 mask t ks = .ok t2 →
      u64setSlotsOK f1 f2 mask (done ++ ks) t2 ∧
        u64setStoredOK f1 f2 mask (done ++ ks) t2 ∧ t2.length = t.length := by
  intro ks
  induction ks with
  | nil =>
    intro t t2 done _ _ _ _ hS hT hp
    rw [u64setInsertPass] at hp
    have ht : t = t2 := by simpa using hp
    subst ht
    simpa using ⟨hS, hT⟩
  | cons key rest ih =>
    intro t t2 done hlen hquart hz hdz hS hT hp
    rw [u64setInsertPass] at hp
    rcases hone : u64setInsertOne t (hm_u64_hash64 f1 f2 key &&& mask) key with
      _ | _ | tmid
    · rw [hone] at hp; simp at hp
    · rw [hone] at hp; simp at hp
    · rw [hone] at hp
      simp only at hp
      obtain ⟨r, hr4, hzero, htmid⟩ := u64setInsertOne_ok _ _ _ _ hone
      have hjlen : (hm_u64_hash64 f1 f2 key &&& mask) + r < t.length := by
        have := hlen key
        omega
      have hkey0 : key ≠ 0 := hz key (by simp)
      have hrest0 : ∀ k ∈ rest, k ≠ 0 := fun k hk => hz k (by simp [hk])
      have hmidlen : tmid.length = t.length := by rw [htmid]; simp
      have hdz2 : ∀ k ∈ done ++ [key], k ≠ 0 := by
        intro k hk
        rcases List.mem_append.mp hk with hk | hk
        · exact hdz k hk
        · have : k = key := by simpa using hk
          rw [this]; exact hkey0
      have hSmid : u64setSlotsOK f1 f2 mask (done ++ [key]) tmid := by
        intro i hilen hiz
        rw [hmidlen] at hilen
        by_cases hij : i = (hm_u64_hash64 f1 f2 key &&& mask) + r
        · subst hij
          rw [htmid]
          rw [setSlot, getD_set_self _ _ _ _ hjlen]
          exact ⟨by simp, hquart key r hr4⟩
        · rw [htmid] at hiz
          rw [setSlot, getD_set_ne _ _ _ _ _ (fun he => hij he.symm)] at hiz
          have hSi := hS i hilen hiz
          rw [htmid, setSlot, getD_set_ne _ _ _ _ _ (fun he => hij he.symm)]
          exact ⟨List.mem_append.mpr (Or.inl hSi.1), hSi.2⟩
      have hTmid : u64setStoredOK f1 f2 mask (done ++ [key]) tmid := by
        intro k hk
        rcases List.mem_append.mp hk with hk | hk
        · obtain ⟨i, hilen, hgd, hq⟩ := hT k hk
          have hiz : setSlot t i ≠ 0 := by
            rw [setSlot]
            rw [setSlot] at hgd
            rw [hgd]
            exact hdz k hk
          have hij : i ≠ (hm_u64_hash64 f1 f2 key &&& mask) + r := by
            intro he
            rw [he] at hiz
            exact hiz hzero
          refine ⟨i, by omega, ?_, hq⟩
          rw [setSlot, htmid, getD_set_ne _ _ _ _ _ (fun he => hij he.symm)]
          exact hgd
        · have hkk : k = key := by simpa using hk
          subst hkk
          refine ⟨(hm_u64_hash64 f1 f2 k &&& mask) + r, by omega, ?_, ?_⟩
          · rw [setSlot, htmid, getD_set_self _ _ _ _ hjlen]
          · exact hquart k r hr4
      have hfin := ih tmid t2 (done ++ [key])
        (by rw [hmidlen]; exact hlen) hquart hrest0 hdz2 hSmid hTmid hp
      rw [List.append_assoc] at hfin
      rw [← hmidlen]
      simpa using hfin

theorem u64setCalibrate_ok (mask buckets key0 : Nat) (ks : List Nat) :
    ∀ (fuel f1 f2 g1 g2 : Nat) (t : List Nat),
      u64setCalibrate mask buckets key0 ks fuel f1 f2 = .ok g1 g2 t →
      u64setInsertPass g1 g2 mask (List.replicate buckets 0) ks = .ok t := by
  intro fuel
  induction fuel with
  | zero => intro f1 f2 g1 g2 t h; simp [u64setCalibrate] at h
  | succ n ih =>
    intro f1 f2 g1 g2 t h
    rw [u64setCalibrate] at h
    rcases hp : u64setInsertPass f1 f2 mask (List.replicate buckets 0) ks with
      _ | _ | t0
    · rw [hp] at h; simp at h
    · rw [hp] at h
      simp only at h
      exact ih _ _ _ _ _ h
    · rw [hp] at h
      simp only [U64Calibrated.ok.injEq] at h
      obtain ⟨hf1, hf2, ht⟩ := h
      rw [← hf1, ← hf2, ← ht]
      exact hp

theorem u64setZeroRepairSlot_spec (f1 f2 mask fuel : Nat) (t : List Nat)
    (b0 : Nat) (t1 : List Nat)
    (h : u64setZeroRepairSlot f1 f2 mask fuel t b0 = some t1) :
    t1.length = t.length ∧
    (∀ i, i ≠ b0 → t1.getD i 0 = t.getD i 0) ∧
    ((setSlot t b0 ≠ 0 ∧ t1 = t) ∨
      (setSlot t b0 = 0 ∧ ∃ s, hm_u64_hash64 f1 f2 s &&& mask ≠ b0 &&& mask ∧
        t1 = t.set b0 s)) := by
  unfold u64setZeroRepairSlot at h
  split at h
  · rcases hf : u64FindFreeKey f1 f2 mask (b0 &&& mask) fuel (setSlot t b0) with _ | s
    · rw [hf] at h; simp at h
    · rw [hf] at h
      have ht1 : t1 = t.set b0 s := by
        simpa using h.symm
      subst ht1
      refine ⟨by simp, ?_, Or.inr ⟨by assumption, s,
        u64FindFreeKey_spec f1 f2 mask (b0 &&& mask) fuel _ s hf, rfl⟩⟩
      intro i hi
      exact getD_set_ne _ _ _ _ _ (fun he => hi he.symm)
  · have ht1 : t1 = t := by simpa using h.symm
    subst ht1
    refine ⟨rfl, fun i _ => rfl, Or.inl ⟨by assumption, rfl⟩⟩

theorem u64setZeroRepair_final (f1 f2 m fuel : Nat) (hm : 2 ≤ m) (b : Nat)
    (t t1 : List Nat) (hlen : t.length = 2 ^ m)
    (hb : b = hm_u64_hash64 f1 f2 0 &&& (2 ^ m - 4))
    (hrep : u64setZeroRepair f1 f2 (2 ^ m - 4) fuel t = some t1) :
    t1.length = t.length ∧
    (∀ i, i < b ∨ b + 4 ≤ i → t1.getD i 0 = t.getD i 0) ∧
    (∀ r, r < 4 →
      (setSlot t (b + r) ≠ 0 → t1.getD (b + r) 0 = t.getD (b + r) 0) ∧
      (setSlot t (b + r) = 0 → ∃ s, s ≠ 0 ∧
        hm_u64_hash64 f1 f2 s &&& (2 ^ m - 4) ≠ b ∧
        t1.getD (b + r) 0 = s)) := by
  have hble : b ≤ 2 ^ m - 4 := by rw [hb]; exact land_mask_le _ m
  have h16 : (4 : Nat) ≤ 2 ^ m := by
    calc (4 : Nat) = 2 ^ 2 := by norm_num
      _ ≤ 2 ^ m := Nat.pow_le_pow_right (by norm_num) hm
  have hblen : b + 3 < t.length := by omega
  rw [u64setZeroRepair] at hrep
  rw [← hb] at hrep
  rcases h1 : u64setZeroRepairSlot f1 f2 (2 ^ m - 4) fuel t b with _ | ta
  · rw [h1] at hrep; simp at hrep
  rw [h1] at hrep
  simp only [Option.bind_eq_bind, Option.some_bind] at hrep
  rcases h2 : u64setZeroRepairSlot f1 f2 (2 ^ m - 4) fuel ta (b + 1) with _ | tb
  · rw [h2] at hrep; simp at hrep
  rw [h2] at hrep
  simp only [Option.bind_eq_bind, Option.some_bind] at hrep
  rcases h3 : u64setZeroRepairSlot f1 f2 (2 ^ m - 4) fuel tb (b + 2) with _ | tc
  · rw [h3] at hrep; simp at hrep
  rw [h3] at hrep
  simp only [Option.bind_eq_bind, Option.some_bind] at hrep
  obtain ⟨hl1, ho1, hc1⟩ := u64setZeroRepairSlot_spec _ _ _ _ _ _ _ h1
  obtain ⟨hl2, ho2, hc2⟩ := u64setZeroRepairSlot_spec _ _ _ _ _ _ _ h2
  obtain ⟨hl3, ho3, hc3⟩ := u64setZeroRepairSlot_spec _ _ _ _ _ _ _ h3
  obtain ⟨hl4, ho4, hc4⟩ := u64setZeroRepairSlot_spec _ _ _ _ _ _ _ hrep
  have hquartb : ∀ r, r < 4 → (b + r) &&& (2 ^ m - 4) = b := by
    intro r hr
    rcases Nat.eq_zero_or_pos r with hr0 | hrpos
    · subst hr0
      rw [Nat.add_zero, hb]
      apply Nat.eq_of_testBit_eq
      intro i
      simp only [Nat.testBit_land]
      cases (2 ^ m - 4).testBit i <;> simp
    · rw [hb]
      exact quartet_shift _ r m hm hr
  have hsynth : ∀ r, r < 4 → ∀ s,
      hm_u64_hash64 f1 f2 s &&& (2 ^ m - 4) ≠ (b + r) &&& (2 ^ m - 4) →
      s ≠ 0 ∧ hm_u64_hash64 f1 f2 s &&& (2 ^ m - 4) ≠ b := by
    intro r hr s hs
    rw [hquartb r hr] at hs
    refine ⟨?_, hs⟩
    intro hs0
    rw [hs0, hb] at hs
    exact hs rfl
  have hlen4 : t1.length = t.length := by rw [hl4, hl3, hl2, hl1]
  refine ⟨hlen4, ?_, ?_⟩
  · intro i hi
    rw [ho4 i (by omega), ho3 i (by omega), ho2 i (by omega), ho1 i (by omega)]
  · intro r hr
    interval_cases r
    · constructor
      · intro hnz
        rcases hc1 with ⟨_, hta⟩ | ⟨hz, _⟩
        · rw [Nat.add_zero] at hnz ⊢
          rw [ho4 b (by omega), ho3 b (by omega), ho2 b (by omega), hta]
        · rw [Nat.add_zero] at hnz
          exact absurd hz hnz
      · intro hz
        rw [Nat.add_zero] at hz ⊢
        rcases hc1 with ⟨hnz, _⟩ | ⟨_, s, hs, hta⟩
        · exact absurd hz hnz
        · obtain ⟨hs0, hsb⟩ := hsynth 0 (by omega) s (by rw [Nat.add_zero]; exact hs)
          refine ⟨s, hs0, hsb, ?_⟩
          rw [ho4 b (by omega), ho3 b (by omega), ho2 b (by omega), hta,
            getD_set_self _ _ _ _ (by omega)]
    · have hpre : ta.getD (b + 1) 0 = t.getD (b + 1) 0 := ho1 _ (by omega)
      have hpreK : setSlot ta (b + 1) = setSlot t (b + 1) := by
        rw [setSlot, setSlot, hpre]
      constructor
      · intro hnz
        rcases hc2 with ⟨_, htb⟩ | ⟨hz, _⟩
        · rw [ho4 _ (by omega), ho3 _ (by omega), htb, hpre]
        · rw [hpreK] at hz
          exact absurd hz hnz
      · intro hz
        rcases hc2 with ⟨hnz, _⟩ | ⟨_, s, hs, htb⟩
        · rw [hpreK] at hnz
          exact absurd hz hnz
        · obtain ⟨hs0, hsb⟩ := hsynth 1 (by omega) s hs
          refine ⟨s, hs0, hsb, ?_⟩
          rw [ho4 _ (by omega), ho3 _ (by omega), htb,
            getD_set_self _ _ _ _ (by omega)]
    · have hpre : tb.getD (b + 2) 0 = t.getD (b + 2) 0 := by
        rw [ho2 _ (by omega), ho1 _ (by omega)]
      have hpreK : setSlot tb (b + 2) = setSlot t (b + 2) := by
        rw [setSlot, setSlot, hpre]
      constructor
      · intro hnz
        rcases hc3 with ⟨_, htc⟩ | ⟨hz, _⟩
        · rw [ho4 _ (by omega), htc, hpre]
        · rw [hpreK] at hz
          exact absurd hz hnz
      · intro hz
        rcases hc3 with ⟨hnz, _⟩ | ⟨_, s, hs, htc⟩
        · rw [hpreK] at hnz
          exact absurd hz hnz
        · obtain ⟨hs0, hsb⟩ := hsynth 2 (by omega) s hs
          refine ⟨s, hs0, hsb, ?_⟩
          rw [ho4 _ (by omega), htc, getD_set_self _ _ _ _ (by omega)]
    · have hpre : tc.getD (b + 3) 0 = t.getD (b + 3) 0 := by
        rw [ho3 _ (by omega), ho2 _ (by omega), ho1 _ (by omega)]
      have hpreK : setSlot tc (b + 3) = setSlot t (b + 3) := by
        rw [setSlot, setSlot, hpre]
      constructor
      · intro hnz
        rcases hc4 with ⟨_, ht1⟩ | ⟨hz, _⟩
        · rw [ht1, hpre]
        · rw [hpreK] at hz
          exact absurd hz hnz
      · intro hz
        rcases hc4 with ⟨hnz, _⟩ | ⟨_, s, hs, ht1⟩
        · rw [hpreK] at hnz
          exact absurd hz hnz
        · obtain ⟨hs0, hsb⟩ := hsynth 3 (by omega) s hs
          refine ⟨s, hs0, hsb, ?_⟩
          rw [ht1, getD_set_self _ _ _ _ (by omega)]

theorem hm_u64_find_iff (db : U64SetDB) (k : Nat) :
    hm_u64_find db k = true ↔
      ∃ r, r < 4 ∧
        setSlot db.hashTable ((hm_u64_hash64 db.factor1 db.factor2 k &&& db.maskForHash) + r) = k := by
  rw [hm_u64_find]
  simp only [decide_eq_true_eq]
  constructor
  · rintro (h | h | h | h)
    · exact ⟨0, by omega, by rw [Nat.add_zero]; exact h⟩
    · exact ⟨1, by omega, h⟩
    · exact ⟨2, by omega, h⟩
    · exact ⟨3, by omega, h⟩
  · rintro ⟨r, hr, h⟩
    interval_cases r
    · rw [Nat.add_zero] at h
      exact Or.inl h
    · exact Or.inr (Or.inl h)
    · exact Or.inr (Or.inr (Or.inl h))
    · exact Or.inr (Or.inr (Or.inr h))

theorem u64set_correct (keys : List Nat) (fuelCal fuelRepair : Nat) (db : U64SetDB)
    (hk0 : ∀ k ∈ keys, k ≠ 0)
    (hc : hm_u64_compile fuelCal fuelRepair keys = some (.ok db)) :
    ∀ k, hm_u64_find db k = true ↔ k ∈ keys := by
  rw [hm_u64_compile] at hc
  split at hc
  · simp at hc
  split at hc
  · simp at hc
  rcases hcal : u64setCalibrate (hash_table_buckets keys.length - 1 - 3)
      (hash_table_buckets keys.length) (keys.headD 0) keys fuelCal
      0xA6C3096657A14E89 0x24F963569D05D92E with _ | _ | ⟨f1, f2, t⟩
  · rw [hcal] at hc; simp at hc
  · rw [hcal] at hc; simp at hc
  rw [hcal] at hc
  simp only at hc
  rcases hrep : u64setZeroRepair f1 f2 (hash_table_buckets keys.length - 1 - 3)
      fuelRepair t with _ | t1
  · rw [hrep] at hc; simp at hc
  rw [hrep] at hc
  simp only [Option.some.injEq, Except.ok.injEq] at hc
  obtain ⟨m, hm4, hbuck⟩ := hash_table_buckets_pow2 keys.length
  have hm2 : 2 ≤ m := by omega
  have h16 : (16 : Nat) ≤ 2 ^ m := by
    calc (16 : Nat) = 2 ^ 4 := by norm_num
      _ ≤ 2 ^ m := Nat.pow_le_pow_right (by norm_num) hm4
  have hmask : hash_table_buckets keys.length - 1 - 3 = 2 ^ m - 4 := by omega
  rw [hmask] at hcal hrep hc
  subst hc
  have hpass := u64setCalibrate_ok _ _ _ _ _ _ _ _ _ _ hcal
  have hreplen : (List.replicate (hash_table_buckets keys.length) (0 : Nat)).length = 2 ^ m := by
    rw [List.length_replicate, hbuck]
  have hquartAll : ∀ k r, r < 4 →
      ((hm_u64_hash64 f1 f2 k &&& (2 ^ m - 4)) + r) &&& (2 ^ m - 4) =
        hm_u64_hash64 f1 f2 k &&& (2 ^ m - 4) :=
    fun k r hr => quartet_shift _ r m hm2 hr
  have hlenBound : ∀ k2, (hm_u64_hash64 f1 f2 k2 &&& (2 ^ m - 4)) + 3 <
      (List.replicate (hash_table_buckets keys.length) (0 : Nat)).length := by
    intro k2
    have := land_mask_le (hm_u64_hash64 f1 f2 k2) m
    omega
  have hS0 : u64setSlotsOK f1 f2 (2 ^ m - 4) []
      (List.replicate (hash_table_buckets keys.length) 0) := by
    intro i hi hiz
    exact absurd (by rw [setSlot, getD_replicate]) hiz
  have hT0 : u64setStoredOK f1 f2 (2 ^ m - 4) []
      (List.replicate (hash_table_buckets keys.length) 0) := by
    intro k hk
    simp at hk
  obtain ⟨hS, hT, htlen⟩ := u64setInsertPass_inv f1 f2 (2 ^ m - 4) keys
    (List.replicate (hash_table_buckets keys.length) 0) t []
    hlenBound hquartAll hk0 (by simp) hS0 hT0 hpass
  simp only [List.nil_append] at hS hT
  have htlen2 : t.length = 2 ^ m := by rw [htlen, hreplen]
  obtain ⟨hRlen, hRout, hRquart⟩ := u64setZeroRepair_final f1 f2 m fuelRepair hm2
    (hm_u64_hash64 f1 f2 0 &&& (2 ^ m - 4)) t t1 htlen2 rfl hrep
  have ht1len : t1.length = 2 ^ m := by rw [hRlen, htlen2]
  have hpreserve : ∀ i, setSlot t i ≠ 0 → t1.getD i 0 = t.getD i 0 := by
    intro i hnz
    by_cases hcase : i < hm_u64_hash64 f1 f2 0 &&& (2 ^ m - 4) ∨
        (hm_u64_hash64 f1 f2 0 &&& (2 ^ m - 4)) + 4 ≤ i
    · exact hRout i hcase
    · push_neg at hcase
      obtain ⟨hge, hlt⟩ := hcase
      have hr : i = (hm_u64_hash64 f1 f2 0 &&& (2 ^ m - 4)) +
          (i - (hm_u64_hash64 f1 f2 0 &&& (2 ^ m - 4))) := by omega
      rw [hr] at hnz ⊢
      exact (hRquart _ (by omega)).1 hnz
  have hq0nonzero : ∀ r, r < 4 →
      setSlot t1 ((hm_u64_hash64 f1 f2 0 &&& (2 ^ m - 4)) + r) ≠ 0 := by
    intro r hr
    by_cases hzt : setSlot t ((hm_u64_hash64 f1 f2 0 &&& (2 ^ m - 4)) + r) = 0
    · obtain ⟨s, hs0, _, hset⟩ := (hRquart r hr).2 hzt
      rw [setSlot, hset]
      exact hs0
    · rw [setSlot, (hRquart r hr).1 hzt]
      exact hzt
  have hclassify : ∀ j, j < 2 ^ m → setSlot t1 j ≠ 0 →
      (setSlot t1 j ∈ keys ∧
        j &&& (2 ^ m - 4) = hm_u64_hash64 f1 f2 (setSlot t1 j) &&& (2 ^ m - 4)) ∨
      hm_u64_hash64 f1 f2 (setSlot t1 j) &&& (2 ^ m - 4) ≠ j &&& (2 ^ m - 4) := by
    intro j hj hjz
    by_cases hzt : setSlot t j = 0
    · by_cases hcase : j < hm_u64_hash64 f1 f2 0 &&& (2 ^ m - 4) ∨
          (hm_u64_hash64 f1 f2 0 &&& (2 ^ m - 4)) + 4 ≤ j
      · exfalso
        exact hjz (by rw [setSlot, hRout j hcase]; exact hzt)
      · push_neg at hcase
        obtain ⟨hge, hlt⟩ := hcase
        have hrj : j = (hm_u64_hash64 f1 f2 0 &&& (2 ^ m - 4)) +
            (j - (hm_u64_hash64 f1 f2 0 &&& (2 ^ m - 4))) := by omega
        rw [hrj] at hzt
        obtain ⟨s, hs0, hsb, hset⟩ := (hRquart _ (by omega)).2 hzt
        right
        have hslot : setSlot t1 j = s := by
          rw [setSlot, hrj, hset]
        have hjq : j &&& (2 ^ m - 4) = hm_u64_hash64 f1 f2 0 &&& (2 ^ m - 4) :=
          (quartet_mem_iff j (hm_u64_hash64 f1 f2 0) m hm2 hj).mpr ⟨hge, by omega⟩
        rw [hslot, hjq]
        exact hsb
    · have heq := hpreserve j hzt
      have hSj := hS j (by omega) hzt
      left
      have hkeq : setSlot t1 j = setSlot t j := by rw [setSlot, setSlot, heq]
      rw [hkeq]
      exact hSj
  intro k
  constructor
  · intro hfind
    obtain ⟨r, hr, hslot⟩ := (hm_u64_find_iff _ k).mp hfind
    simp only at hslot
    have hble : (hm_u64_hash64 f1 f2 k &&& (2 ^ m - 4)) + r < 2 ^ m := by
      have := land_mask_le (hm_u64_hash64 f1 f2 k) m
      omega
    by_cases hkz : k = 0
    · exfalso
      subst hkz
      exact hq0nonzero r hr hslot
    have hsnz : setSlot t1 ((hm_u64_hash64 f1 f2 k &&& (2 ^ m - 4)) + r) ≠ 0 := by
      rw [hslot]; exact hkz
    rcases hclassify _ hble hsnz with ⟨hmem, _⟩ | hq2
    · rw [hslot] at hmem
      exact hmem
    · exfalso
      rw [hslot, hquartAll k r hr] at hq2
      exact hq2 rfl
  · intro hmem
    obtain ⟨i, hi, hgd, hq⟩ := hT k hmem
    have hnz : setSlot t i ≠ 0 := by
      rw [setSlot] at hgd ⊢
      rw [hgd]
      exact hk0 k hmem
    have hbounds := (quartet_mem_iff i (hm_u64_hash64 f1 f2 k) m hm2 (by omega)).mp hq
    apply (hm_u64_find_iff _ k).mpr
    refine ⟨i - (hm_u64_hash64 f1 f2 k &&& (2 ^ m - 4)), by omega, ?_⟩
    simp only
    have hre : (hm_u64_hash64 f1 f2 k &&& (2 ^ m - 4)) +
        (i - (hm_u64_hash64 f1 f2 k &&& (2 ^ m - 4))) = i := by omega
    rw [hre, setSlot, hpreserve i hnz]
    rw [setSlot] at hgd
    exact hgd

/-- C7 counterexample.  The five keys 2, 3, 13, 19, 50 all hash to quartet
52 under the initial factors of hm_u64map_compile (buckets = 64, mask = 60
for 5 elements), so the first insertion pass ends in a quartet-overflow
collision; the retry then computes factor1 = hash(keys[0]) with the old
factors but factor2 = hash(keys[0]) with the already-updated factor1, and
the two factors differ, refuting the claim that after every recalibration
step factor1 and factor2 hold the same value. -/
theorem c7_factors_counterexample :
    u64mapInsertPass 0xA6C3096657A14E89 0x24F963569D05D92E 60
        (List.replicate 64 (0, 0)) [(2, 1), (3, 1), (13, 1), (19, 1), (50, 1)] =
      .collision ∧
    (u64NextFactors 0xA6C3096657A14E89 0x24F963569D05D92E 2).1 ≠
      (u64NextFactors 0xA6C3096657A14E89 0x24F963569D05D92E 2).2 := by
  constructor
  · decide
  · decide

/-- C7 (amended).  In hm_u64map_compile and hm_u64_compile, whenever an
insertion pass ends in a quartet-overflow collision, the retry continues
with factor1 = hash(keys[0]) computed with the factors current during the
failed pass, and factor2 = hash(keys[0]) computed with the already-updated
factor1 and the old factor2 (static_uint64_map.c lines 205-208 and
static_uint64_set.c lines 169-172 assign the two fields sequentially); the
two factors are not equal in general. -/
theorem c7_recalibration_amended (fuel f1 f2 mask buckets key0 : Nat)
    (kvs : List (Nat × Nat)) (keys : List Nat)
    (hmap : u64mapInsertPass f1 f2 mask (List.replicate buckets (0, 0)) kvs = .collision)
    (hset : u64setInsertPass f1 f2 mask (List.replicate buckets 0) keys = .collision) :
    u64mapCalibrate mask buckets key0 kvs (fuel + 1) f1 f2 =
      u64mapCalibrate mask buckets key0 kvs fuel (hm_u64_hash64 f1 f2 key0)
        (hm_u64_hash64 (hm_u64_hash64 f1 f2 key0) f2 key0) ∧
    u64setCalibrate mask buckets key0 keys (fuel + 1) f1 f2 =
      u64setCalibrate mask buckets key0 keys fuel (hm_u64_hash64 f1 f2 key0)
        (hm_u64_hash64 (hm_u64_hash64 f1 f2 key0) f2 key0) := by
  constructor
  · simp only [u64mapCalibrate, hmap, u64NextFactors]
  · simp only [u64setCalibrate, hset, u64NextFactors]

/-- Witness for c7_recalibration_amended at the concrete colliding input. -/
theorem c7_recalibration_amended_witness :
    u64mapCalibrate 60 64 2 [(2, 1), (3, 1), (13, 1), (19, 1), (50, 1)] 1
        0xA6C3096657A14E89 0x24F963569D05D92E =
      u64mapCalibrate 60 64 2 [(2, 1), (3, 1), (13, 1), (19, 1), (50, 1)] 0
        (hm_u64_hash64 0xA6C3096657A14E89 0x24F963569D05D92E 2)
        (hm_u64_hash64 (hm_u64_hash64 0xA6C3096657A14E89 0x24F963569D05D92E 2)
          0x24F963569D05D92E 2) ∧
    u64setCalibrate 60 64 2 [2, 3, 13, 19, 50] 1
        0xA6C3096657A14E89 0x24F963569D05D92E =
      u64setCalibrate 60 64 2 [2, 3, 13, 19, 50] 0
        (hm_u64_hash64 0xA6C3096657A14E89 0x24F963569D05D92E 2)
        (hm_u64_hash64 (hm_u64_hash64 0xA6C3096657A14E89 0x24F963569D05D92E 2)
          0x24F963569D05D92E 2) :=
  c7_recalibration_amended 0 0xA6C3096657A14E89 0x24F963569D05D92E 60 64 2
    [(2, 1), (3, 1), (13, 1), (19, 1), (50, 1)] [2, 3, 13, 19, 50]
    (by decide) (by decide)

/-- C3: after a successful `hm_u64map_compile` on pairwise-distinct non-zero
keys with non-zero values, `hm_u64map_find` returns the stored value for every
input pair, returns 0 for the key 0, and returns 0 for every key not among the
inputs (the synthetic keys written by the zero-quartet repair never create a
false positive); correspondingly, after a successful `hm_u64_compile` the set
lookup `hm_u64_find` returns true exactly on the input keys and false on every
other key, including 0. -/
theorem c3_u64_find_correct
    (keys values : List Nat) (fuelCal fuelRepair : Nat) (dbM : U64MapDB)
    (ksS : List Nat) (fuelCalS fuelRepairS : Nat) (dbS : U64SetDB)
    (hnd : keys.Nodup) (hk0 : ∀ k ∈ keys, k ≠ 0) (_hv0 : ∀ v ∈ values, v ≠ 0)
    (hcM : hm_u64map_compile fuelCal fuelRepair keys values = some (.ok dbM))
    (hk0S : ∀ k ∈ ksS, k ≠ 0)
    (hcS : hm_u64_compile fuelCalS fuelRepairS ksS = some (.ok dbS)) :
    (∀ kv ∈ keys.zip values, hm_u64map_find dbM kv.1 = kv.2) ∧
    hm_u64map_find dbM 0 = 0 ∧
    (∀ k, k ∉ keys → hm_u64map_find dbM k = 0) ∧
    (∀ k, hm_u64_find dbS k = true ↔ k ∈ ksS) := by
  obtain ⟨h1, h2, h3⟩ := u64map_correct keys values fuelCal fuelRepair dbM hnd hk0 hcM
  exact ⟨h1, h2, h3, u64set_correct ksS fuelCalS fuelRepairS dbS hk0S hcS⟩

/-- Witness for c3_u64_find_correct: keys {1, 2} with values {10, 20} for the
map side and keys {1, 2} for the set side, compiled concretely. -/
theorem c3_u64_find_correct_witness :
    (∀ kv ∈ ([1, 2] : List Nat).zip ([10, 20] : List Nat),
      hm_u64map_find
        { factor1 := 12016458565916118665, factor2 := 2664269878219102510,
          maskForHash := 12,
          hashTable := [(1, 0), (1, 0), (1, 0), (1, 0), (0, 0), (0, 0), (0, 0),
            (2, 20), (0, 0), (0, 0), (0, 0), (0, 0), (0, 0), (0, 0), (0, 0),
            (1, 10)] } kv.1 = kv.2) ∧
    hm_u64map_find
      { factor1 := 12016458565916118665, factor2 := 2664269878219102510,
        maskForHash := 12,
        hashTable := [(1, 0), (1, 0), (1, 0), (1, 0), (0, 0), (0, 0), (0, 0),
          (2, 20), (0, 0), (0, 0), (0, 0), (0, 0), (0, 0), (0, 0), (0, 0),
          (1, 10)] } 0 = 0 ∧
    (∀ k, k ∉ ([1, 2] : List Nat) →
      hm_u64map_find
        { factor1 := 12016458565916118665, factor2 := 2664269878219102510,
          maskForHash := 12,
          hashTable := [(1, 0), (1, 0), (1, 0), (1, 0), (0, 0), (0, 0), (0, 0),
            (2, 20), (0, 0), (0, 0), (0, 0), (0, 0), (0, 0), (0, 0), (0, 0),
            (1, 10)] } k = 0) ∧
    (∀ k, hm_u64_find
        { factor1 := 12016458565916118665, factor2 := 2664269878219102510,
          maskForHash := 12,
          hashTable := [1, 1, 1, 1, 2, 0, 0, 0, 0, 0, 0, 0, 1, 0, 0, 0] } k = true ↔
      k ∈ ([1, 2] : List Nat)) :=
  c3_u64_find_correct [1, 2] [10, 20] 4 1000
    { factor1 := 12016458565916118665, factor2 := 2664269878219102510,
      maskForHash := 12,
      hashTable := [(1, 0), (1, 0), (1, 0), (1, 0), (0, 0), (0, 0), (0, 0),
        (2, 20), (0, 0), (0, 0), (0, 0), (0, 0), (0, 0), (0, 0), (0, 0),
        (1, 10)] }
    [1, 2] 4 1000
    { factor1 := 12016458565916118665, factor2 := 2664269878219102510,
      maskForHash := 12,
      hashTable := [1, 1, 1, 1, 2, 0, 0, 0, 0, 0, 0, 0, 1, 0, 0, 0] }
    (by decide) (by decide) (by decide) rfl (by decide) rfl

/- ---------------- prefix map: bias arithmetic and lower_bound ---------------- -/

theorem xor_bias_low (x : Nat) (hx : x < 2 ^ 31) : x ^^^ 2 ^ 31 = x + 2 ^ 31 := by
  have hre : x + 2 ^ 31 = 2 ^ 31 + x := by omega
  rw [hre]
  apply Nat.eq_of_testBit_eq
  intro j
  rw [Nat.testBit_xor, Nat.testBit_two_pow]
  rcases lt_trichotomy j 31 with hj | hj | hj
  · rw [Nat.testBit_two_pow_add_gt hj]
    simp [Nat.ne_of_gt hj]
  · subst hj
    rw [Nat.testBit_two_pow_add_eq]
    simp [Nat.testBit_lt_two_pow hx]
  · have hx2 : x < 2 ^ j := lt_of_lt_of_le hx (Nat.pow_le_pow_right (by norm_num) (by omega))
    have hs : 2 ^ 31 + x < 2 ^ j := by
      have h31 : (2 : Nat) ^ 31 + 2 ^ 31 ≤ 2 ^ j := by
        have : (2 : Nat) ^ 32 ≤ 2 ^ j := Nat.pow_le_pow_right (by norm_num) (by omega)
        omega
      omega
    rw [Nat.testBit_lt_two_pow hs, Nat.testBit_lt_two_pow hx2]
    simp only [Bool.xor_false, Bool.false_xor, decide_eq_false_iff_not]
    omega

theorem xor_bias (x : Nat) (hx : x < 2 ^ 32) :
    x ^^^ ip_xor = if x < 2 ^ 31 then x + 2 ^ 31 else x - 2 ^ 31 := by
  rw [ip_xor]
  split
  · exact xor_bias_low x (by assumption)
  · have hge : 2 ^ 31 ≤ x := by omega
    have hy : x - 2 ^ 31 < 2 ^ 31 := by omega
    have hx2 : x = (x - 2 ^ 31) + 2 ^ 31 := by omega
    calc x ^^^ 2 ^ 31 = ((x - 2 ^ 31) ^^^ 2 ^ 31) ^^^ 2 ^ 31 := by
          rw [xor_bias_low _ hy, ← hx2]
      _ = (x - 2 ^ 31) ^^^ (2 ^ 31 ^^^ 2 ^ 31) := Nat.xor_assoc _ _ _
      _ = x - 2 ^ 31 := by rw [Nat.xor_self, Nat.xor_zero]

theorem toSigned32_lt_iff (x y : Nat) (hx : x < 2 ^ 32) (hy : y < 2 ^ 32) :
    (toSigned32 x < toSigned32 y ↔ (x ^^^ ip_xor) < (y ^^^ ip_xor)) := by
  rw [xor_bias x hx, xor_bias y hy, toSigned32, toSigned32]
  split_ifs with h1 h2 h2 <;> omega

theorem lowerBoundGo_spec (a : List Nat) (t : Int)
    (hsorted : ∀ i j, i ≤ j → j < a.length →
      toSigned32 (a.getD i 0) ≤ toSigned32 (a.getD j 0)) :
    ∀ fuel first count, count ≤ fuel → first + count ≤ a.length →
      first ≤ lowerBoundGo a t first count fuel ∧
      lowerBoundGo a t first count fuel ≤ first + count ∧
      (∀ i, first ≤ i → i < lowerBoundGo a t first count fuel →
        toSigned32 (a.getD i 0) < t) ∧
      (lowerBoundGo a t first count fuel < first + count →
        t ≤ toSigned32 (a.getD (lowerBoundGo a t first count fuel) 0)) := by
  intro fuel
  induction fuel with
  | zero =>
    intro first count hc _
    have h0 : count = 0 := by omega
    subst h0
    rw [lowerBoundGo]
    exact ⟨le_refl _, by omega, fun i h1 h2 => absurd h2 (by omega), by omega⟩
  | succ n ih =>
    intro first count hc hlen
    by_cases h0 : count = 0
    · subst h0
      rw [lowerBoundGo, if_pos rfl]
      exact ⟨le_refl _, by omega, fun i h1 h2 => absurd h2 (by omega), by omega⟩
    · rw [lowerBoundGo, if_neg h0]
      by_cases hmid : toSigned32 (a.getD (first + count / 2) 0) < t
      · rw [if_pos hmid]
        obtain ⟨ih1, ih2, ih3, ih4⟩ :=
          ih (first + count / 2 + 1) (count - count / 2 - 1) (by omega) (by omega)
        refine ⟨by omega, by omega, ?_, fun hr => ih4 (by omega)⟩
        intro i h1 h2
        by_cases hi : i ≤ first + count / 2
        · exact lt_of_le_of_lt (hsorted i (first + count / 2) hi (by omega)) hmid
        · exact ih3 i (by omega) h2
      · rw [if_neg hmid]
        obtain ⟨ih1, ih2, ih3, ih4⟩ := ih first (count / 2) (by omega) (by omega)
        refine ⟨ih1, by omega, ih3, ?_⟩
        intro _
        by_cases hend : lowerBoundGo a t first (count / 2) n < first + count / 2
        · exact ih4 hend
        · have he : lowerBoundGo a t first (count / 2) n = first + count / 2 := by omega
          rw [he]
          exact not_lt.mp hmid

theorem getD_eq_get_of_lt {α : Type} (l : List α) (d : α) (i : Nat)
    (h : i < l.length) : l.getD i d = l.get ⟨i, h⟩ := by
  rw [List.getD_eq_getElem?_getD, List.getElem?_eq_getElem h]
  rfl

/-- C8 (corrected): after hm_sm_compile, whenever the stored max_ips array is
sorted in the signed int32 order (as the sweep produces when no zone-end
wraps), the jump-table entry for a 16-bit high prefix h is the smallest index
i such that max_ips[i], read back as unsigned by undoing the 0x80000000 XOR
bias, is greater than or equal to h << 16 — not (h << 16) - 1 as the claim
states: std::lower_bound is called with the target int32((h << 16) ^ ip_xor)
itself, with no subtraction of one. -/
theorem c8_jump_table_amended (mips : List Nat) (h : Nat) (hh : h < 65536)
    (hw : ∀ v ∈ mips, v < 2 ^ 32)
    (hsorted : List.Pairwise (fun x y => toSigned32 x ≤ toSigned32 y) mips) :
    fillHashtableEntry mips h ≤ mips.length ∧
    (∀ i, i < fillHashtableEntry mips h →
      ((mips.getD i 0) ^^^ ip_xor) < h <<< 16) ∧
    (fillHashtableEntry mips h < mips.length →
      h <<< 16 ≤ (mips.getD (fillHashtableEntry mips h) 0) ^^^ ip_xor) := by
  have hwD : ∀ i, i < mips.length → mips.getD i 0 < 2 ^ 32 := by
    intro i hi
    rw [getD_eq_get_of_lt mips 0 i hi]
    exact hw _ (List.get_mem mips _ hi)
  have hsortedD : ∀ i j, i ≤ j → j < mips.length →
      toSigned32 (mips.getD i 0) ≤ toSigned32 (mips.getD j 0) := by
    intro i j hij hj
    rcases Nat.eq_or_lt_of_le hij with he | hlt
    · rw [he]
    · rw [getD_eq_get_of_lt mips 0 i (by omega), getD_eq_get_of_lt mips 0 j hj]
      exact List.pairwise_iff_get.mp hsorted ⟨i, by omega⟩ ⟨j, hj⟩ hlt
  have hsh : h <<< 16 < 2 ^ 32 := by
    rw [Nat.shiftLeft_eq]
    calc h * 2 ^ 16 < 65536 * 2 ^ 16 := by
          exact Nat.mul_lt_mul_of_lt_of_le hh (le_refl _) (by norm_num)
      _ = 2 ^ 32 := by norm_num
  have htx : (h <<< 16) ^^^ ip_xor < 2 ^ 32 :=
    Nat.xor_lt_two_pow hsh (by rw [ip_xor]; norm_num)
  have hundo : ((h <<< 16) ^^^ ip_xor) ^^^ ip_xor = h <<< 16 := by
    rw [Nat.xor_assoc, Nat.xor_self, Nat.xor_zero]
  have hbr : ∀ v, v < 2 ^ 32 →
      (toSigned32 v < toSigned32 ((h <<< 16) ^^^ ip_xor) ↔
        (v ^^^ ip_xor) < h <<< 16) := by
    intro v hv
    rw [toSigned32_lt_iff v _ hv htx, hundo]
  obtain ⟨h1, h2, h3, h4⟩ := lowerBoundGo_spec mips
    (toSigned32 ((h <<< 16) ^^^ ip_xor)) hsortedD mips.length 0 mips.length
    (le_refl _) (by omega)
  rw [fillHashtableEntry]
  refine ⟨by omega, ?_, ?_⟩
  · intro i hi
    exact (hbr _ (hwD i (by omega))).mp (h3 i (by omega) hi)
  · intro hr
    have := h4 (by omega)
    by_contra hcon
    push_neg at hcon
    exact absurd ((hbr _ (hwD _ (by omega))).mpr hcon) (not_lt.mpr this)

/-- Witness for c8_jump_table_amended: the two-entry max_ips array produced by
compiling the single prefix 0.0.0.0/16, at high prefix h = 1. -/
theorem c8_jump_table_amended_witness :
    (1 : Nat) < 65536 ∧
    (∀ v ∈ [2147549183, 2147483647], v < 2 ^ 32) ∧
    List.Pairwise (fun x y => toSigned32 x ≤ toSigned32 y) [2147549183, 2147483647] ∧
    (fillHashtableEntry [2147549183, 2147483647] 1 ≤ 2 ∧
      (∀ i, i < fillHashtableEntry [2147549183, 2147483647] 1 →
        (([2147549183, 2147483647].getD i 0) ^^^ ip_xor) < 1 <<< 16) ∧
      (fillHashtableEntry [2147549183, 2147483647] 1 < 2 →
        1 <<< 16 ≤ (([2147549183, 2147483647].getD
          (fillHashtableEntry [2147549183, 2147483647] 1) 0) ^^^ ip_xor))) :=
  ⟨by decide, by decide, by decide,
    c8_jump_table_amended [2147549183, 2147483647] 1 (by decide) (by decide)
      (by decide)⟩

/-- C8 counterexample: compiling the single prefix 0.0.0.0/16 value 5 yields
max_ips = [0x8000FFFF, 0x7FFFFFFF] (biased endpoints 0.0.255.255 and
255.255.255.255); the code's jump-table entry for h = 1 is 1, while the
claim's formula — the smallest index whose unbiased endpoint is at least
(1 << 16) - 1 = 0xFFFF — gives 0, because the first endpoint 0x0000FFFF
already satisfies it. -/
theorem c8_jump_table_counterexample :
    (hm_sm_compile [(0, 16, 5)]).map
        (fun db => (db.hashtable 1, claimC8SpecIndex db.max_ips 1)) =
      Except.ok (1, 0) := rfl

/-- C1 (code bug): on the input zones 128.0.0.0/1 value 7 and 192.0.0.0/8
value 9, hm_sm_compile succeeds but hm_sm_find on 208.0.0.0 (0xD0000000)
returns HM_NO_VALUE, although 128.0.0.0/1 covers that address (and the /8
does not), so the unique most-specific covering prefix has value 7.  The
cause: hm_end_ip_of_zone(0x80000000, 1) wraps to 0 in uint32 arithmetic, the
zone end 0 is popped from the ends stack as soon as the next input starts,
and the sweep closes the /1 zone prematurely. -/
theorem c1_zone_end_wrap_bug :
    (hm_sm_compile [(0x80000000, 1, 7), (0xC0000000, 8, 9)]).map
        (fun db => hm_sm_find db 0xD0000000) = Except.ok (some HM_NO_VALUE) ∧
    smCovers 0x80000000 1 0xD0000000 ∧ ¬ smCovers 0xC0000000 8 0xD0000000 :=
  ⟨rfl, by decide, by decide⟩

/- ---------------- domain set: C2 and C9 ---------------- -/

set_option maxHeartbeats 4000000 in
/-- C2 (code bug): with the 18 input patterns b.com, z-b.com and
x01.b.com .. x16.b.com, hm_domain_compile succeeds, "fresh.b.com" is a strict
subdomain of the input pattern "b.com", yet hm_domain_find returns 0.
Cause: prune_subdomains_revchar sorts by reversed characters, and since
'-' < '.', the entry z-b.com sits between b.com and its subdomains; the prune
scan only compares against the previously kept entry, so all 17 domains
ending in b.com survive, the group makes "b.com" a popular suffix, and the
find-side popular extension skips past the stored pattern "b.com" without
ever scanning it. -/
theorem c2_subdomain_find_bug :
    ((hm_domain_compile hashFold c2doms).map (fun e =>
      e.map (fun db => hm_domain_find hashFold db (asciiBytes "fresh.b.com")))) =
      some (Except.ok 0) ∧
    is_subdomain (asciiBytes "fresh.b.com") (asciiBytes "b.com") = true ∧
    asciiBytes "b.com" ∈ c2doms :=
  ⟨rfl, by decide, by decide⟩

/- When every domain lands in bucket 0 (and is nonempty), inserting more than
   D of them overflows the bucket and try_build_records gives up. -/
theorem tryBuildGo_zero_overflow (H : List Nat → Nat → Nat) (seed buckets : Nat)
    (popular : List (List Nat)) :
    ∀ (doms : List (List Nat)) (out : List DRec),
      (∀ sv ∈ doms, sv.length ≠ 0 ∧
        fastmod_u32 (build_chained_bucket_and_tag H sv seed popular).2.1
          (computeM_u32 buckets) buckets = 0) →
      out ≠ [] →
      (out.getD 0 emptyDRec).items.length ≤ D →
      D < (out.getD 0 emptyDRec).items.length + doms.length →
      tryBuildGo H seed buckets popular doms out = none := by
  intro doms
  induction doms with
  | nil =>
    intro out _ _ hle hlt
    simp only [List.length_nil] at hlt
    exact absurd hlt (by omega)
  | cons sv rest ih =>
    intro out hmap hne hle hlt
    rcases out with _ | ⟨o, os⟩
    · exact absurd rfl hne
    obtain ⟨hsvlen, hsvb⟩ := hmap sv (by simp)
    rw [tryBuildGo, if_neg hsvlen]
    simp only [hsvb]
    simp only [List.getD_cons_zero] at hle hlt ⊢
    by_cases hfull : D ≤ o.items.length
    · rw [if_pos hfull]
    · rw [if_neg hfull]
      rw [List.set_cons_zero]
      apply ih
      · intro s hs
        exact hmap s (by simp [hs])
      · simp
      · simp only [List.getD_cons_zero, List.length_append, List.length_cons,
          List.length_nil]
        omega
      · simp only [List.getD_cons_zero, List.length_append, List.length_cons,
          List.length_nil, List.length_cons] at hlt ⊢
        omega

theorem c9_tryBuild_fails (seed b : Nat) :
    try_build_records hashZero c9views seed (b + 1) [asciiBytes "b.c"] = none := by
  have hall : ∀ sv ∈ c9views,
      (build_chained_bucket_and_tag hashZero sv seed [asciiBytes "b.c"]).2.1 = 0 ∧
      sv.length ≠ 0 := by
    intro sv hsv
    simp only [c9views, List.mem_cons, List.not_mem_nil, or_false] at hsv
    rcases hsv with rfl | rfl | rfl | rfl | rfl | rfl | rfl | rfl | rfl | rfl |
      rfl | rfl | rfl | rfl | rfl | rfl | rfl <;> exact ⟨rfl, by decide⟩
  have hout : (List.replicate (b + 1) emptyDRec).getD 0 emptyDRec = emptyDRec := by
    rw [List.replicate_succ]
    rfl
  rw [try_build_records]
  apply tryBuildGo_zero_overflow
  · intro sv hsv
    obtain ⟨h0, hlen⟩ := hall sv hsv
    refine ⟨hlen, ?_⟩
    rw [fastmod_u32, h0]
    exact Nat.zero_mod _
  · rw [List.replicate_succ]
    simp
  · rw [hout]
    decide
  · rw [hout]
    decide

theorem c9_calibInner_fails (t : Nat) : ∀ seed b,
    (calibInner hashZero c9views [asciiBytes "b.c"] (b + 1) seed t).1 = none := by
  induction t with
  | zero => intro seed b; rfl
  | succ n ih =>
    intro seed b
    rw [calibInner]
    rw [c9_tryBuild_fails ((seed + 1) % U32MOD) b]
    exact ih ((seed + 1) % U32MOD) b

theorem c9_calibOuter_fails (g : Nat) : ∀ buckets seed, 1 ≤ buckets →
    calibOuter hashZero c9views [asciiBytes "b.c"] buckets seed g = none := by
  induction g with
  | zero => intro buckets seed _; rfl
  | succ n ih =>
    intro buckets seed hb
    obtain ⟨b, rfl⟩ : ∃ b, buckets = b + 1 := ⟨buckets - 1, by omega⟩
    rw [calibOuter]
    have hin := c9_calibInner_fails 100 seed b
    rcases hpair : calibInner hashZero c9views [asciiBytes "b.c"] (b + 1) seed 100
      with ⟨o, s2⟩
    rw [hpair] at hin
    simp only at hin
    subst hin
    exact ih _ s2 (le_trans (by omega) (le_max_right _ _))

/-- C9 (code bug): when table calibration exhausts all 60 growth steps of 100
seed tries (forced here by the degenerate hash instance hashZero, under which
all 17 preprocessed domains land in bucket 0 for every seed and bucket
count), hm_domain_compile returns HM_ERROR_BAD_VALUE (4), not the documented
HM_ERROR_FAILED_TO_CALIBRATE (8) that the claim states:
static_domain_set.cpp:616 returns HM_ERROR_BAD_VALUE on calibration failure.
(The popular-suffix cap check does return HM_ERROR_TOO_MANY_POPULAR_DOMAINS
as claimed.) -/
theorem c9_wrong_error_code :
    hm_domain_compile hashZero c9doms = some (Except.error HM_ERROR_BAD_VALUE) ∧
    HM_ERROR_BAD_VALUE ≠ HM_ERROR_FAILED_TO_CALIBRATE := by
  refine ⟨?_, by decide⟩
  have hcal : calibrate_and_build_preview hashZero c9views [asciiBytes "b.c"] = none := by
    rw [calibrate_and_build_preview]
    exact c9_calibOuter_fails 60 _ 0xA17F2344 (by decide)
  rw [hm_domain_compile]
  rw [if_neg (by decide : ¬ c9doms.length = 0)]
  rw [show preprocess_domains_views c9doms = some c9views from rfl]
  dsimp only
  rw [if_neg (by decide : ¬ c9views.any (fun sv => ! sv.contains 46) = true)]
  rw [show find_popular_suffixes c9views = some [asciiBytes "b.c"] from rfl]
  dsimp only
  rw [if_neg (by decide : ¬ (256 : Nat) < [asciiBytes "b.c"].length)]
  rw [hcal]

/- ---------------- serialization roundtrips (C6) ---------------- -/

theorem kvUnflatten_kvFlatten : ∀ (l : List (Nat × Nat)),
    kvUnflatten l.length (kvFlatten l) = l := by
  intro l
  induction l with
  | nil => rfl
  | cons kv rest ih =>
    rw [List.length_cons, kvFlatten, kvUnflatten]
    simp only [List.getD_cons_zero, List.getD_cons_succ, List.drop_succ_cons,
      List.drop_zero]
    rw [ih]

theorem round_up16_mod16 (x : Nat) : round_up16 x % 16 = 0 := by
  have h16 : round_up16 x % 16 = round_up16 x &&& 15 := by
    have := Nat.and_pow_two_sub_one_eq_mod (round_up16 x) 4
    norm_num at this
    omega
  rw [h16, round_up16]
  apply Nat.eq_of_testBit_eq
  intro i
  simp only [Nat.testBit_land, Nat.zero_testBit, Bool.and_eq_false_iff]
  by_cases hi : i < 4
  · left
    right
    interval_cases i <;> decide
  · right
    have h2 : (15 : Nat) < 2 ^ i := by
      calc (15 : Nat) < 2 ^ 4 := by norm_num
        _ ≤ 2 ^ i := Nat.pow_le_pow_right (by norm_num) (by omega)
    exact Nat.testBit_lt_two_pow h2

theorem blobSizeOf_facts (p : List (List Nat)) (pre : List DRec) :
    blobSizeOf p pre % 16 = 0 ∧ 256 ≤ blobSizeOf p pre := by
  have hdvd : (16 : Nat) ∣ blobSizeOf p pre := by
    rw [blobSizeOf]
    apply Nat.dvd_add
    · apply List.dvd_sum
      intro x hx
      simp only [List.mem_map] at hx
      obtain ⟨sv, _, hsv⟩ := hx
      rw [← hsv]
      exact Nat.dvd_of_mod_eq_zero (round_up16_mod16 _)
    · apply Nat.dvd_add
      · apply List.dvd_sum
        intro x hx
        simp only [List.mem_map] at hx
        obtain ⟨r, _, hr⟩ := hx
        rw [← hr]
        apply List.dvd_sum
        intro y hy
        simp only [List.mem_map] at hy
        obtain ⟨dm, _, hdm⟩ := hy
        rw [← hdm]
        exact Nat.dvd_of_mod_eq_zero (round_up16_mod16 _)
      · norm_num
  refine ⟨Nat.mod_eq_zero_of_dvd hdvd, ?_⟩
  rw [blobSizeOf]
  omega

theorem u64setInsertPass_len (f1 f2 mask : Nat) :
    ∀ (ks : List Nat) (t t2 : List Nat),
      u64setInsertPass f1 f2 mask t ks = .ok t2 → t2.length = t.length := by
  intro ks
  induction ks with
  | nil =>
    intro t t2 hp
    rw [u64setInsertPass] at hp
    have ht : t = t2 := by simpa using hp
    rw [ht]
  | cons key rest ih =>
    intro t t2 hp
    rw [u64setInsertPass] at hp
    rcases hone : u64setInsertOne t (hm_u64_hash64 f1 f2 key &&& mask) key with _ | _ | tmid
    · rw [hone] at hp; simp at hp
    · rw [hone] at hp; simp at hp
    · rw [hone] at hp
      simp only at hp
      obtain ⟨r, _, _, htmid⟩ := u64setInsertOne_ok _ _ _ _ hone
      rw [ih tmid t2 hp, htmid]
      simp

theorem u64mapInsertPass_len (f1 f2 mask : Nat) :
    ∀ (kvs : List (Nat × Nat)) (t t2 : List (Nat × Nat)),
      u64mapInsertPass f1 f2 mask t kvs = .ok t2 → t2.length = t.length := by
  intro kvs
  induction kvs with
  | nil =>
    intro t t2 hp
    rw [u64mapInsertPass] at hp
    have ht : t = t2 := by simpa using hp
    rw [ht]
  | cons kv rest ih =>
    intro t t2 hp
    rcases kv with ⟨key, value⟩
    rw [u64mapInsertPass] at hp
    rcases hone : u64mapInsertOne t (hm_u64_hash64 f1 f2 key &&& mask) key value with _ | _ | tmid
    · rw [hone] at hp; simp at hp
    · rw [hone] at hp; simp at hp
    · rw [hone] at hp
      simp only at hp
      obtain ⟨r, _, _, htmid⟩ := u64mapInsertOne_ok _ _ _ _ _ hone
      rw [ih tmid t2 hp, htmid]
      simp

theorem u64setZeroRepair_len (f1 f2 mask fuel : Nat) (t t1 : List Nat)
    (h : u64setZeroRepair f1 f2 mask fuel t = some t1) : t1.length = t.length := by
  rw [u64setZeroRepair] at h
  rcases h1 : u64setZeroRepairSlot f1 f2 mask fuel t (hm_u64_hash64 f1 f2 0 &&& mask) with _ | ta
  · rw [h1] at h; simp at h
  rw [h1] at h
  simp only [Option.bind_eq_bind, Option.some_bind] at h
  rcases h2 : u64setZeroRepairSlot f1 f2 mask fuel ta ((hm_u64_hash64 f1 f2 0 &&& mask) + 1) with _ | tb
  · rw [h2] at h; simp at h
  rw [h2] at h
  simp only [Option.bind_eq_bind, Option.some_bind] at h
  rcases h3 : u64setZeroRepairSlot f1 f2 mask fuel tb ((hm_u64_hash64 f1 f2 0 &&& mask) + 2) with _ | tc
  · rw [h3] at h; simp at h
  rw [h3] at h
  simp only [Option.bind_eq_bind, Option.some_bind] at h
  rw [(u64setZeroRepairSlot_spec _ _ _ _ _ _ _ h).1,
    (u64setZeroRepairSlot_spec _ _ _ _ _ _ _ h3).1,
    (u64setZeroRepairSlot_spec _ _ _ _ _ _ _ h2).1,
    (u64setZeroRepairSlot_spec _ _ _ _ _ _ _ h1).1]

theorem u64mapZeroRepair_len (f1 f2 mask fuel : Nat) (t t1 : List (Nat × Nat))
    (h : u64mapZeroRepair f1 f2 mask fuel t = some t1) : t1.length = t.length := by
  rw [u64mapZeroRepair] at h
  rcases h1 : u64mapZeroRepairSlot f1 f2 mask fuel t (hm_u64_hash64 f1 f2 0 &&& mask) with _ | ta
  · rw [h1] at h; simp at h
  rw [h1] at h
  simp only [Option.bind_eq_bind, Option.some_bind] at h
  rcases h2 : u64mapZeroRepairSlot f1 f2 mask fuel ta ((hm_u64_hash64 f1 f2 0 &&& mask) + 1) with _ | tb
  · rw [h2] at h; simp at h
  rw [h2] at h
  simp only [Option.bind_eq_bind, Option.some_bind] at h
  rcases h3 : u64mapZeroRepairSlot f1 f2 mask fuel tb ((hm_u64_hash64 f1 f2 0 &&& mask) + 2) with _ | tc
  · rw [h3] at h; simp at h
  rw [h3] at h
  simp only [Option.bind_eq_bind, Option.some_bind] at h
  rw [(u64mapZeroRepairSlot_spec _ _ _ _ _ _ _ h).1,
    (u64mapZeroRepairSlot_spec _ _ _ _ _ _ _ h3).1,
    (u64mapZeroRepairSlot_spec _ _ _ _ _ _ _ h2).1,
    (u64mapZeroRepairSlot_spec _ _ _ _ _ _ _ h1).1]

theorem u64set_compile_shape (fuelCal fuelRepair : Nat) (keys : List Nat)
    (db : U64SetDB) (hc : hm_u64_compile fuelCal fuelRepair keys = some (.ok db)) :
    db.hashTable.length = db.maskForHash + 1 + 3 ∧ 1 ≤ db.maskForHash + 1 + 3 := by
  rw [hm_u64_compile] at hc
  split at hc
  · simp at hc
  split at hc
  · simp at hc
  rcases hcal : u64setCalibrate (hash_table_buckets keys.length - 1 - 3)
      (hash_table_buckets keys.length) (keys.headD 0) keys fuelCal
      0xA6C3096657A14E89 0x24F963569D05D92E with _ | _ | ⟨f1, f2, t⟩
  · rw [hcal] at hc; simp at hc
  · rw [hcal] at hc; simp at hc
  rw [hcal] at hc
  simp only at hc
  rcases hrep : u64setZeroRepair f1 f2 (hash_table_buckets keys.length - 1 - 3)
      fuelRepair t with _ | t1
  · rw [hrep] at hc; simp at hc
  rw [hrep] at hc
  simp only [Option.some.injEq, Except.ok.injEq] at hc
  subst hc
  have hpass := u64setCalibrate_ok _ _ _ _ _ _ _ _ _ _ hcal
  have hlen1 := u64setInsertPass_len _ _ _ _ _ _ hpass
  have hlen2 := u64setZeroRepair_len _ _ _ _ _ _ hrep
  obtain ⟨m, hm4, hbuck⟩ := hash_table_buckets_pow2 keys.length
  have h16 : (16 : Nat) ≤ 2 ^ m := by
    calc (16 : Nat) = 2 ^ 4 := by norm_num
      _ ≤ 2 ^ m := Nat.pow_le_pow_right (by norm_num) hm4
  simp only
  constructor
  · rw [hlen2, hlen1, List.length_replicate]
    omega
  · omega

theorem u64map_compile_shape (fuelCal fuelRepair : Nat) (keys values : List Nat)
    (db : U64MapDB)
    (hc : hm_u64map_compile fuelCal fuelRepair keys values = some (.ok db)) :
    db.hashTable.length = db.maskForHash + 1 + 3 ∧ 1 ≤ db.maskForHash + 1 + 3 := by
  rw [hm_u64map_compile] at hc
  split at hc
  · simp at hc
  split at hc
  · simp at hc
  rcases hcal : u64mapCalibrate (hash_table_buckets keys.length - 1 - 3)
      (hash_table_buckets keys.length) (keys.headD 0) (keys.zip values) fuelCal
      0xA6C3096657A14E89 0x24F963569D05D92E with _ | _ | ⟨f1, f2, t⟩
  · rw [hcal] at hc; simp at hc
  · rw [hcal] at hc; simp at hc
  rw [hcal] at hc
  simp only at hc
  rcases hrep : u64mapZeroRepair f1 f2 (hash_table_buckets keys.length - 1 - 3)
      fuelRepair t with _ | t1
  · rw [hrep] at hc; simp at hc
  rw [hrep] at hc
  simp only [Option.some.injEq, Except.ok.injEq] at hc
  subst hc
  have hpass := u64mapCalibrate_ok _ _ _ _ _ _ _ _ _ _ hcal
  have hlen1 := u64mapInsertPass_len _ _ _ _ _ _ hpass
  have hlen2 := u64mapZeroRepair_len _ _ _ _ _ _ hrep
  obtain ⟨m, hm4, hbuck⟩ := hash_table_buckets_pow2 keys.length
  have h16 : (16 : Nat) ≤ 2 ^ m := by
    calc (16 : Nat) = 2 ^ 4 := by norm_num
      _ ≤ 2 ^ m := Nat.pow_le_pow_right (by norm_num) hm4
  simp only
  constructor
  · rw [sortQuartets_length, hlen2, hlen1, List.length_replicate]
    omega
  · omega

theorem u64set_roundtrip (db : U64SetDB)
    (hlen : db.hashTable.length = db.maskForHash + 1 + 3) :
    hm_u64_deserialize (hm_u64_serialize db) = .ok db := by
  have htake : db.hashTable.take (db.maskForHash + 1 + 3) = db.hashTable := by
    rw [← hlen, List.take_length]
  rw [hm_u64_serialize, htake]
  simp only [List.cons_append, List.nil_append]
  rw [hm_u64_deserialize]
  rw [if_neg (by simp only [List.length_cons, hlen]; omega)]
  rw [if_neg (by omega)]
  rw [if_neg (by rw [hlen]; omega)]
  rw [htake]
  rcases db with ⟨f1, f2, mask, tbl⟩
  simp only [Except.ok.injEq, U64SetDB.mk.injEq, true_and, and_true]
  omega

theorem kvFlatten_length : ∀ (l : List (Nat × Nat)), (kvFlatten l).length = 2 * l.length := by
  intro l
  induction l with
  | nil => rfl
  | cons kv rest ih =>
    rw [kvFlatten]
    simp only [List.length_cons]
    rw [ih]
    omega

theorem u64map_roundtrip (db : U64MapDB)
    (hlen : db.hashTable.length = db.maskForHash + 1 + 3) :
    hm_u64map_deserialize (hm_u64map_serialize db) = .ok db := by
  have htake : db.hashTable.take (db.maskForHash + 1 + 3) = db.hashTable := by
    rw [← hlen, List.take_length]
  rw [hm_u64map_serialize, htake]
  simp only [List.cons_append, List.nil_append]
  rw [hm_u64map_deserialize]
  rw [if_neg (by simp only [List.length_cons, kvFlatten_length, hlen]; omega)]
  rw [if_neg (by omega)]
  rw [if_neg (by rw [kvFlatten_length, hlen]; omega)]
  rw [show db.maskForHash + 1 + 3 = db.hashTable.length from hlen.symm,
    kvUnflatten_kvFlatten]
  rcases db with ⟨f1, f2, mask, tbl⟩
  simp only at hlen
  simp only [Except.ok.injEq, U64MapDB.mk.injEq, true_and, and_true]
  omega

/- ---- the sweep of hm_sm_compile produces at least two entries ---- -/

theorem pushToSorted_len_ge (acc : List (Nat × Nat)) (ip v : Nat) :
    acc.length ≤ (pushToSorted acc ip v).length := by
  rcases acc with _ | ⟨⟨ip0, v0⟩, rest⟩
  · simp [pushToSorted]
  · rw [pushToSorted]
    split <;> simp

theorem pushToSorted_single_ne (v e r : Nat) (he : e ≠ 0) :
    pushToSorted [(0, v)] e r = [(e, r), (0, v)] := by
  rw [pushToSorted]
  rw [if_neg (fun h => he h.symm)]

theorem end_ip_zero_ne (c : Nat) (h1 : 1 ≤ c) (h2 : c ≤ 32) :
    hm_end_ip_of_zone 0 c ≠ 0 := by
  rw [hm_end_ip_of_zone]
  rw [Nat.zero_shiftRight, Nat.shiftLeft_eq, Nat.zero_add, Nat.one_mul]
  have hlt : 2 ^ (32 - c) < U32MOD := by
    rw [U32MOD]
    exact Nat.pow_lt_pow_right (by norm_num) (by omega)
  rw [Nat.mod_eq_of_lt hlt]
  exact Nat.pos_iff_ne_zero.mp (Nat.pos_pow_of_pos _ (by norm_num))

theorem closeBefore_inv (inIp : Nat) : ∀ (stack acc : List (Nat × Nat)),
    1 ≤ acc.length →
    (2 ≤ acc.length ∨ ∃ v, acc = [(0, v)] ∧ ∀ p ∈ stack, p.1 ≠ 0) →
    1 ≤ (closeBefore inIp acc stack).1.length ∧
    (2 ≤ (closeBefore inIp acc stack).1.length ∨
      ∃ v, (closeBefore inIp acc stack).1 = [(0, v)] ∧
        ∀ p ∈ (closeBefore inIp acc stack).2, p.1 ≠ 0) ∧
    (∀ p ∈ (closeBefore inIp acc stack).2, p ∈ stack) := by
  intro stack
  induction stack with
  | nil =>
    intro acc h1 h2
    rw [closeBefore]
    refine ⟨h1, ?_, by simp⟩
    rcases h2 with h2 | ⟨v, hv, _⟩
    · exact Or.inl h2
    · exact Or.inr ⟨v, hv, by simp⟩
  | cons es rest ih =>
    intro acc h1 h2
    rcases es with ⟨eip, ev⟩
    rw [closeBefore]
    by_cases he : eip < inIp
    · rw [if_pos he]
      have hrec := ih (pushToSorted acc eip (smReopened rest))
        (le_trans h1 (pushToSorted_len_ge _ _ _)) ?_
      · exact ⟨hrec.1, hrec.2.1, fun p hp => by simp [hrec.2.2 p hp]⟩
      · rcases h2 with h2 | ⟨v, hv, hstk⟩
        · exact Or.inl (le_trans h2 (pushToSorted_len_ge _ _ _))
        · subst hv
          left
          rw [pushToSorted_single_ne _ _ _ (hstk (eip, ev) (by simp))]
          simp
    · rw [if_neg he]
      exact ⟨h1, h2, fun p hp => hp⟩

theorem smPopEqual_subset (inIp : Nat) (stack : List (Nat × Nat)) :
    ∀ p ∈ smPopEqual inIp stack, p ∈ stack := by
  intro p hp
  rcases stack with _ | ⟨⟨eip, ev⟩, rest⟩
  · exact hp
  · rw [smPopEqual] at hp
    split at hp
    · exact List.mem_cons_of_mem _ hp
    · exact hp

theorem smPushEnd_ne (endIp val : Nat) (stack : List (Nat × Nat)) :
    smPushEnd endIp val stack ≠ [] := by
  rcases stack with _ | ⟨⟨eip, ev⟩, rest⟩
  · simp [smPushEnd]
  · rw [smPushEnd]
    split <;> simp

theorem smPushEnd_mem (endIp val : Nat) (stack : List (Nat × Nat)) :
    ∀ p ∈ smPushEnd endIp val stack, p.1 = endIp ∨ ∃ q ∈ stack, p.1 = q.1 := by
  intro p hp
  rcases stack with _ | ⟨⟨eip, ev⟩, rest⟩
  · left
    rw [smPushEnd] at hp
    simp only [List.mem_singleton] at hp
    rw [hp]
  · rw [smPushEnd] at hp
    split at hp
    · rcases List.mem_cons.mp hp with he | hm
      · right
        exact ⟨(eip, ev), by simp, by rw [he]⟩
      · right
        exact ⟨p, by simp [hm], rfl⟩
    · rcases List.mem_cons.mp hp with he | hm
      · left
        rw [he]
      · right
        exact ⟨p, hm, rfl⟩

theorem smStep_stack_ne (st : List (Nat × Nat) × List (Nat × Nat))
    (input : Nat × Nat × Nat) : (smStep st input).2 ≠ [] := by
  rw [smStep]
  exact smPushEnd_ne _ _ _

theorem smStep_inv (input : Nat × Nat × Nat) (hc1 : 1 ≤ input.2.1)
    (hc2 : input.2.1 ≤ 32) (st : List (Nat × Nat) × List (Nat × Nat))
    (h1 : 1 ≤ st.1.length)
    (h2 : 2 ≤ st.1.length ∨ ∃ v, st.1 = [(0, v)] ∧ ∀ p ∈ st.2, p.1 ≠ 0) :
    1 ≤ (smStep st input).1.length ∧
    (2 ≤ (smStep st input).1.length ∨ ∃ v, (smStep st input).1 = [(0, v)] ∧
      ∀ p ∈ (smStep st input).2, p.1 ≠ 0) := by
  obtain ⟨hcl1, hcl2, hclS⟩ := closeBefore_inv input.1 st.2 st.1 h1 h2
  rw [smStep]
  constructor
  · exact le_trans hcl1 (pushToSorted_len_ge _ _ _)
  rcases hcl2 with hbig | ⟨v, hv, hstk⟩
  · exact Or.inl (le_trans hbig (pushToSorted_len_ge _ _ _))
  by_cases hip : input.1 = 0
  · right
    rw [hv, hip]
    rw [pushToSorted, if_pos rfl]
    refine ⟨input.2.2, rfl, ?_⟩
    intro p hp
    have hend : hm_end_ip_of_zone 0 input.2.1 ≠ 0 := end_ip_zero_ne _ hc1 hc2
    rcases smPushEnd_mem _ _ _ p hp with he | ⟨q, hq, hpq⟩
    · rw [he]
      exact hend
    · rw [hpq]
      have hq2 : q ∈ (closeBefore input.1 st.1 st.2).2 := by
        rw [hip]
        exact smPopEqual_subset 0 _ q hq
      exact hstk q hq2
  · left
    rw [hv, pushToSorted_single_ne _ _ _ hip]
    simp

theorem foldl_smStep_inv : ∀ (inputs : List (Nat × Nat × Nat))
    (st : List (Nat × Nat) × List (Nat × Nat)),
    (∀ x ∈ inputs, 1 ≤ x.2.1 ∧ x.2.1 ≤ 32) →
    1 ≤ st.1.length →
    (2 ≤ st.1.length ∨ ∃ v, st.1 = [(0, v)] ∧ ∀ p ∈ st.2, p.1 ≠ 0) →
    1 ≤ (inputs.foldl smStep st).1.length ∧
    (2 ≤ (inputs.foldl smStep st).1.length ∨
      ∃ v, (inputs.foldl smStep st).1 = [(0, v)] ∧
        ∀ p ∈ (inputs.foldl smStep st).2, p.1 ≠ 0) := by
  intro inputs
  induction inputs with
  | nil => intro st _ h1 h2; exact ⟨h1, h2⟩
  | cons x rest ih =>
    intro st hcs h1 h2
    rw [List.foldl_cons]
    obtain ⟨hx1, hx2⟩ := hcs x (by simp)
    obtain ⟨g1, g2⟩ := smStep_inv x hx1 hx2 st h1 h2
    exact ih (smStep st x) (fun y hy => hcs y (by simp [hy])) g1 g2

theorem foldl_smStep_stack_ne : ∀ (inputs : List (Nat × Nat × Nat))
    (st : List (Nat × Nat) × List (Nat × Nat)), inputs ≠ [] →
    (inputs.foldl smStep st).2 ≠ [] := by
  intro inputs
  induction inputs with
  | nil => intro st h; exact absurd rfl h
  | cons x rest ih =>
    intro st _
    rw [List.foldl_cons]
    rcases hr : rest with _ | ⟨y, ys⟩
    · subst hr
      simpa using smStep_stack_ne st x
    · subst hr
      exact ih (smStep st x) (by simp)

theorem smDrain_ge2 : ∀ (stack acc : List (Nat × Nat)),
    (2 ≤ acc.length ∨ (stack ≠ [] ∧ ∃ v, acc = [(0, v)] ∧ ∀ p ∈ stack, p.1 ≠ 0)) →
    2 ≤ (smDrain acc stack).length := by
  intro stack
  induction stack with
  | nil =>
    intro acc h
    rcases h with h | ⟨hne, _⟩
    · rw [smDrain]; exact h
    · exact absurd rfl hne
  | cons es rest ih =>
    intro acc h
    rcases es with ⟨eip, ev⟩
    rw [smDrain]
    apply ih
    rcases h with h | ⟨_, v, hv, hstk⟩
    · exact Or.inl (le_trans h (pushToSorted_len_ge _ _ _))
    · left
      rw [hv, pushToSorted_single_ne _ _ _ (hstk (eip, ev) (by simp))]
      simp

theorem smValidate_bounds : ∀ (l : List (Nat × Nat × Nat)), smValidate l = none →
    ∀ x ∈ l, 1 ≤ x.2.1 ∧ x.2.1 ≤ 32 := by
  intro l
  induction l with
  | nil => intro _ x hx; simp at hx
  | cons y rest ih =>
    intro hval x hx
    rcases y with ⟨ip, cidr, v⟩
    rw [smValidate] at hval
    split_ifs at hval with hv hr hb
    have hbounds : 1 ≤ cidr ∧ cidr ≤ 32 := by
      push_neg at hb
      omega
    rcases List.mem_cons.mp hx with he | hm
    · rw [he]
      exact hbounds
    · exact ih hval x hm

theorem smInsertSorted_mem (x y : Nat × Nat × Nat) :
    ∀ (l : List (Nat × Nat × Nat)), y ∈ smInsertSorted x l → y = x ∨ y ∈ l := by
  intro l
  induction l with
  | nil => intro h; simp [smInsertSorted] at h; exact Or.inl h
  | cons z rest ih =>
    intro h
    rw [smInsertSorted] at h
    split at h
    · rcases List.mem_cons.mp h with he | hm
      · exact Or.inr (by simp [he])
      · rcases ih hm with he | hm2
        · exact Or.inl he
        · exact Or.inr (by simp [hm2])
    · rcases List.mem_cons.mp h with he | hm
      · exact Or.inl he
      · exact Or.inr hm

theorem smSort_mem (y : Nat × Nat × Nat) :
    ∀ (l : List (Nat × Nat × Nat)), y ∈ smSort l → y ∈ l := by
  intro l
  induction l with
  | nil => intro h; simp [smSort] at h
  | cons x rest ih =>
    intro h
    rw [smSort] at h
    rcases smInsertSorted_mem x y (smSort rest) h with he | hm
    · simp [he]
    · simp [ih hm]

theorem smInsertSorted_length (x : Nat × Nat × Nat) :
    ∀ (l : List (Nat × Nat × Nat)), (smInsertSorted x l).length = l.length + 1 := by
  intro l
  induction l with
  | nil => rfl
  | cons z rest ih =>
    rw [smInsertSorted]
    split
    · rw [List.length_cons, ih, List.length_cons]
    · simp

theorem smSort_length : ∀ (l : List (Nat × Nat × Nat)), (smSort l).length = l.length := by
  intro l
  induction l with
  | nil => rfl
  | cons x rest ih => rw [smSort, smInsertSorted_length, ih, List.length_cons]

theorem sm_compile_shape (inputs : List (Nat × Nat × Nat)) (db : SMDB)
    (hc : hm_sm_compile inputs = .ok db) :
    db.max_ips.length = db.listSize ∧ db.values.length = db.listSize ∧
    db.hashtable = fillHashtableEntry db.max_ips ∧ 1 ≤ db.listSize := by
  rw [hm_sm_compile] at hc
  split at hc
  · simp at hc
  rcases hval : smValidate inputs with _ | err
  swap
  · rw [hval] at hc; simp at hc
  rw [hval] at hc
  simp only [Except.ok.injEq] at hc
  subst hc
  have hinputs_ne : smSort inputs ≠ [] := by
    intro hnil
    have := smSort_length inputs
    rw [hnil] at this
    simp at this
    omega
  have hbounds : ∀ x ∈ smSort inputs, 1 ≤ x.2.1 ∧ x.2.1 ≤ 32 :=
    fun x hx => smValidate_bounds inputs hval x (smSort_mem x inputs hx)
  have hst := foldl_smStep_inv (smSort inputs) ([(0, HM_NO_VALUE)], [])
    hbounds (by simp) (Or.inr ⟨HM_NO_VALUE, rfl, by simp⟩)
  have hstk := foldl_smStep_stack_ne (smSort inputs) ([(0, HM_NO_VALUE)], []) hinputs_ne
  have hdrain : 2 ≤ (smDrain ((smSort inputs).foldl smStep ([(0, HM_NO_VALUE)], [])).1
      ((smSort inputs).foldl smStep ([(0, HM_NO_VALUE)], [])).2).length := by
    apply smDrain_ge2
    rcases hst.2 with h | ⟨v, hv, hsk⟩
    · exact Or.inl h
    · exact Or.inr ⟨hstk, v, hv, hsk⟩
  have hfin : 2 ≤ (pushToSorted
      (smDrain ((smSort inputs).foldl smStep ([(0, HM_NO_VALUE)], [])).1
        ((smSort inputs).foldl smStep ([(0, HM_NO_VALUE)], [])).2) 0 HM_NO_VALUE).length :=
    le_trans hdrain (pushToSorted_len_ge _ _ _)
  simp only
  refine ⟨by simp, by simp [List.length_dropLast], by trivial, ?_⟩
  simp only [List.length_map, List.length_reverse]
  omega

theorem sm_roundtrip (db : SMDB)
    (h1 : db.max_ips.length = db.listSize) (h2 : db.values.length = db.listSize)
    (h3 : db.hashtable = fillHashtableEntry db.max_ips) (h4 : 1 ≤ db.listSize) :
    hm_sm_deserialize (hm_sm_serialize db) = .ok db := by
  have ht1 : db.max_ips.take db.listSize = db.max_ips := by
    rw [← h1, List.take_length]
  have ht2 : db.values.take db.listSize = db.values := by
    rw [← h2, List.take_length]
  rw [hm_sm_serialize, ht1, ht2]
  simp only [List.cons_append, List.nil_append]
  rw [hm_sm_deserialize]
  rw [if_neg (by simp only [List.length_append, h1, h2]; omega)]
  rw [if_neg (by omega)]
  have hmtake : (db.max_ips ++ db.values).take db.listSize = db.max_ips := by
    rw [← h1, List.take_left]
  have hvdrop : (db.max_ips ++ db.values).drop db.listSize = db.values := by
    rw [← h1, List.drop_left]
  rw [hmtake, hvdrop, ht2]
  rcases db with ⟨ls, ht, mips, vals⟩
  simp only at h3 ⊢
  rw [h3]

theorem domain_compile_shape (H : List Nat → Nat → Nat) (dIn : List (List Nat))
    (db : DomainDB) (hc : hm_domain_compile H dIn = some (.ok db)) :
    db.domains_blob_size % 16 = 0 ∧ 256 ≤ db.domains_blob_size := by
  rw [hm_domain_compile] at hc
  split at hc
  · simp at hc
  rcases hpre : preprocess_domains_views dIn with _ | views
  · rw [hpre] at hc; simp at hc
  rw [hpre] at hc
  simp only at hc
  split at hc
  · simp at hc
  rcases hpop : find_popular_suffixes views with _ | popular
  · rw [hpop] at hc; simp at hc
  rw [hpop] at hc
  simp only at hc
  split at hc
  · simp at hc
  rcases hcal : calibrate_and_build_preview H views popular with _ | sbp
  · rw [hcal] at hc; simp at hc
  rw [hcal] at hc
  simp only [Option.some.injEq, Except.ok.injEq] at hc
  subst hc
  exact blobSizeOf_facts popular sbp.2.2

theorem domain_roundtrip (db : DomainDB)
    (hmod : db.domains_blob_size % 16 = 0) (hge : 256 ≤ db.domains_blob_size) :
    hm_domain_deserialize (hm_domain_serialize db) = .ok db := by
  rw [hm_domain_serialize, hm_domain_deserialize]
  dsimp only
  rw [if_neg (by simp), if_neg (by simp [hmod]), if_neg (by omega)]

/-- C6: serializing a successfully compiled structure and deserializing the
produced buffer reconstructs the structure exactly, for all four structures
(prefix map, 64-bit map, 64-bit set, domain set); in particular every query
function returns the same result on the deserialized structure as on the
original, for every input. -/
theorem c6_serialize_roundtrip
    (smIn : List (Nat × Nat × Nat)) (dbm : SMDB)
    (mapKeys mapVals : List Nat) (fcM frM : Nat) (dbM : U64MapDB)
    (setKeys : List Nat) (fcS frS : Nat) (dbS : U64SetDB)
    (H : List Nat → Nat → Nat) (dIn : List (List Nat)) (dbD : DomainDB)
    (h1 : hm_sm_compile smIn = .ok dbm)
    (h2 : hm_u64map_compile fcM frM mapKeys mapVals = some (.ok dbM))
    (h3 : hm_u64_compile fcS frS setKeys = some (.ok dbS))
    (h4 : hm_domain_compile H dIn = some (.ok dbD)) :
    (hm_sm_deserialize (hm_sm_serialize dbm) = .ok dbm ∧
      ∀ y, hm_sm_deserialize (hm_sm_serialize dbm) = .ok y →
        ∀ ip, hm_sm_find y ip = hm_sm_find dbm ip) ∧
    (hm_u64map_deserialize (hm_u64map_serialize dbM) = .ok dbM ∧
      ∀ y, hm_u64map_deserialize (hm_u64map_serialize dbM) = .ok y →
        ∀ k, hm_u64map_find y k = hm_u64map_find dbM k) ∧
    (hm_u64_deserialize (hm_u64_serialize dbS) = .ok dbS ∧
      ∀ y, hm_u64_deserialize (hm_u64_serialize dbS) = .ok y →
        ∀ k, hm_u64_find y k = hm_u64_find dbS k) ∧
    (hm_domain_deserialize (hm_domain_serialize dbD) = .ok dbD ∧
      ∀ y, hm_domain_deserialize (hm_domain_serialize dbD) = .ok y →
        ∀ q, hm_domain_find H y q = hm_domain_find H dbD q) := by
  obtain ⟨s1, s2, s3, s4⟩ := sm_compile_shape smIn dbm h1
  obtain ⟨m1, _⟩ := u64map_compile_shape fcM frM mapKeys mapVals dbM h2
  obtain ⟨t1, _⟩ := u64set_compile_shape fcS frS setKeys dbS h3
  obtain ⟨d1, d2⟩ := domain_compile_shape H dIn dbD h4
  have hr1 := sm_roundtrip dbm s1 s2 s3 s4
  have hr2 := u64map_roundtrip dbM m1
  have hr3 := u64set_roundtrip dbS t1
  have hr4 := domain_roundtrip dbD d1 d2
  refine ⟨⟨hr1, ?_⟩, ⟨hr2, ?_⟩, ⟨hr3, ?_⟩, ⟨hr4, ?_⟩⟩
  · intro y hy ip
    rw [hr1] at hy
    cases hy
    rfl
  · intro y hy k
    rw [hr2] at hy
    cases hy
    rfl
  · intro y hy k
    rw [hr3] at hy
    cases hy
    rfl
  · intro y hy q
    rw [hr4] at hy
    cases hy
    rfl

/-- Witness for c6_serialize_roundtrip: the prefix map compiled from
0.0.0.0/16, the 64-bit map {1 -> 10, 2 -> 20}, the 64-bit set {1, 2} and the
domain set {"a.b"}, all compiled concretely. -/
theorem c6_serialize_roundtrip_witness :
    (hm_sm_deserialize (hm_sm_serialize c6smDB) = .ok c6smDB ∧
      ∀ y, hm_sm_deserialize (hm_sm_serialize c6smDB) = .ok y →
        ∀ ip, hm_sm_find y ip = hm_sm_find c6smDB ip) ∧
    (hm_u64map_deserialize (hm_u64map_serialize c6mapDB) = .ok c6mapDB ∧
      ∀ y, hm_u64map_deserialize (hm_u64map_serialize c6mapDB) = .ok y →
        ∀ k, hm_u64map_find y k = hm_u64map_find c6mapDB k) ∧
    (hm_u64_deserialize (hm_u64_serialize c6setDB) = .ok c6setDB ∧
      ∀ y, hm_u64_deserialize (hm_u64_serialize c6setDB) = .ok y →
        ∀ k, hm_u64_find y k = hm_u64_find c6setDB k) ∧
    (hm_domain_deserialize (hm_domain_serialize c6domDB) = .ok c6domDB ∧
      ∀ y, hm_domain_deserialize (hm_domain_serialize c6domDB) = .ok y →
        ∀ q, hm_domain_find hashFold y q = hm_domain_find hashFold c6domDB q) :=
  c6_serialize_roundtrip [(0, 16, 5)] c6smDB [1, 2] [10, 20] 4 1000 c6mapDB
    [1, 2] 4 1000 c6setDB hashFold [asciiBytes "a.b"] c6domDB rfl rfl rfl rfl


/- ---- cache verification theorems ---- -/

theorem cGet_set_self (s : List CElem) (i : Nat) (e : CElem) (h : i < s.length) :
    cGet (s.set i e) i = e := by
  simp [cGet, List.getD_eq_getElem?_getD, List.getElem?_set_self, h]


theorem cGet_set_ne (s : List CElem) (i j : Nat) (e : CElem) (h : j ≠ i) :
    cGet (s.set i e) j = cGet s j := by
  simp [cGet, List.getD_eq_getElem?_getD, List.getElem?_set_ne (fun hh => h hh.symm)]


theorem length_set_c (s : List CElem) (i : Nat) (e : CElem) :
    (s.set i e).length = s.length := List.length_set s i e


/-- chainSeg only depends on the elements it mentions. -/
theorem chainSeg_congr (s s' : List CElem) (p n : Nat) (L : List Nat)
    (hag : ∀ j ∈ L, cGet s' j = cGet s j) :
    chainSeg s p L n → chainSeg s' p L n := by
  induction L generalizing p with
  | nil => intro h; exact h
  | cons a rest ih =>
    intro h
    obtain ⟨h1, h2, h3⟩ := h
    have ha : cGet s' a = cGet s a := hag a (List.mem_cons_self a rest)
    exact ⟨by rw [ha]; exact h1, by rw [ha]; exact h2,
      ih a (fun j hj => hag j (List.mem_cons_of_mem a hj)) h3⟩


theorem chainSeg_append (s : List CElem) (p n : Nat) (A B : List Nat) :
    chainSeg s p (A ++ B) n ↔
      chainSeg s p A (B.headD n) ∧ chainSeg s (A.getLastD p) B n := by
  induction A generalizing p with
  | nil =>
    simp only [List.nil_append, List.getLastD_nil]
    constructor
    · intro h; exact ⟨trivial, h⟩
    · intro h; exact h.2
  | cons a rest ih =>
    simp only [List.cons_append]
    constructor
    · intro h
      obtain ⟨h1, h2, h3⟩ := h
      have := (ih a).1 h3
      refine ⟨⟨h1, ?_, this.1⟩, ?_⟩
      · cases rest with
        | nil => cases B with
          | nil => exact h2
          | cons b B' => exact h2
        | cons r rest' => exact h2
      · rw [List.getLastD_cons]; exact this.2
    · intro h
      obtain ⟨⟨h1, h2, h3⟩, h4⟩ := h
      rw [List.getLastD_cons] at h4
      refine ⟨h1, ?_, (ih a).2 ⟨h3, h4⟩⟩
      cases rest with
      | nil => cases B with
        | nil => exact h2
        | cons b B' => exact h2
      | cons r rest' => exact h2


theorem chainSeg_cons (s : List CElem) (p a n : Nat) (rest : List Nat) :
    chainSeg s p (a :: rest) n ↔
      (cGet s a).prev_index = p ∧ (cGet s a).next_index = rest.headD n ∧
        chainSeg s a rest n := by
  cases rest with
  | nil => simp [chainSeg, List.headD]
  | cons b r => simp [chainSeg, List.headD]


theorem headD_append_left (A C : List Nat) (d : Nat) (h : A ≠ []) :
    (A ++ C).headD d = A.headD d := by
  cases A with
  | nil => exact absurd rfl h
  | cons a r => rfl


theorem getLastD_append_right (A B : List Nat) (d : Nat) (h : B ≠ []) :
    (A ++ B).getLastD d = B.getLastD d := by
  induction A generalizing d with
  | nil => rfl
  | cons a r ih =>
    rw [List.cons_append, List.getLastD_cons, ih a]
    cases B with
    | nil => exact absurd rfl h
    | cons b B' => rw [List.getLastD_cons, List.getLastD_cons]


theorem getLastD_ne_of_ne (A : List Nat) (d : Nat) (h : A ≠ [])
    (hmem : ∀ j ∈ A, j ≠ NO_INDEX) : A.getLastD d ≠ NO_INDEX := by
  cases A with
  | nil => exact absurd rfl h
  | cons a r =>
    rw [List.getLastD_cons]
    have : r.getLastD a ∈ a :: r := by
      cases r with
      | nil => simp [List.getLastD]
      | cons b r' =>
        have : (b :: r').getLastD a = (b :: r').getLast (by simp) :=
          List.getLastD_eq_getLast? _ _ ▸ by
            rw [List.getLast?_eq_getLast (b :: r') (by simp)]; rfl
        rw [this]
        exact List.mem_cons_of_mem a (List.getLast_mem _)
    exact hmem _ this


theorem headD_ne_of_ne (A : List Nat) (d : Nat) (h : A ≠ [])
    (hmem : ∀ j ∈ A, j ≠ NO_INDEX) : A.headD d ≠ NO_INDEX := by
  cases A with
  | nil => exact absurd rfl h
  | cons a r => exact hmem a (List.mem_cons_self a r)


theorem headD_mem (A : List Nat) (d : Nat) (h : A ≠ []) : A.headD d ∈ A := by
  cases A with
  | nil => exact absurd rfl h
  | cons a r => exact List.mem_cons_self a r


theorem getLastD_mem (A : List Nat) (d : Nat) (h : A ≠ []) : A.getLastD d ∈ A := by
  cases A with
  | nil => exact absurd rfl h
  | cons a r =>
    rw [List.getLastD_cons]
    cases r with
    | nil => simp [List.getLastD]
    | cons b r' =>
      have : (b :: r').getLastD a = (b :: r').getLast (by simp) :=
        List.getLastD_eq_getLast? _ _ ▸ by
          rw [List.getLast?_eq_getLast (b :: r') (by simp)]; rfl
      rw [this]
      exact List.mem_cons_of_mem a (List.getLast_mem _)


theorem listWF_decomp (s : List CElem) (l : HmList) (A B : List Nat) (idx : Nat)
    (h : listWF s l (A ++ idx :: B)) :
    (cGet s idx).prev_index = A.getLastD NO_INDEX ∧
      (cGet s idx).next_index = B.headD NO_INDEX := by
  obtain ⟨hc, _, _⟩ := h
  rw [chainSeg_append] at hc
  have h2 := hc.2
  rw [chainSeg_cons] at h2
  exact ⟨h2.1, h2.2.1⟩


theorem cut_eq_mid (s : List CElem) (l : HmList) (idx : Nat)
    (h1 : (cGet s idx).prev_index ≠ NO_INDEX)
    (h2 : (cGet s idx).next_index ≠ NO_INDEX) :
    cut s l idx =
      (let s1 := s.set idx
        { cGet s idx with prev_index := NO_INDEX, next_index := NO_INDEX }
       let s2 := s1.set (cGet s idx).prev_index
        { cGet s1 (cGet s idx).prev_index with next_index := (cGet s idx).next_index }
       (s2.set (cGet s idx).next_index
        { cGet s2 (cGet s idx).next_index with prev_index := (cGet s idx).prev_index }, l)) := by
  simp only [cut]
  rw [if_pos ⟨h1, h2⟩]


theorem cut_eq_tail (s : List CElem) (l : HmList) (idx : Nat)
    (h1 : (cGet s idx).prev_index ≠ NO_INDEX)
    (h2 : (cGet s idx).next_index = NO_INDEX) :
    cut s l idx =
      (let s1 := s.set idx
        { cGet s idx with prev_index := NO_INDEX, next_index := NO_INDEX }
       (s1.set (cGet s idx).prev_index
        { cGet s1 (cGet s idx).prev_index with next_index := NO_INDEX },
        { l with tail_index := (cGet s idx).prev_index })) := by
  have hneg : ¬((cGet s idx).prev_index ≠ NO_INDEX ∧
      (cGet s idx).next_index ≠ NO_INDEX) := fun hc => hc.2 h2
  simp only [cut]
  rw [if_neg hneg, if_pos h1]


theorem cut_eq_head (s : List CElem) (l : HmList) (idx : Nat)
    (h1 : (cGet s idx).prev_index = NO_INDEX)
    (h2 : (cGet s idx).next_index ≠ NO_INDEX) :
    cut s l idx =
      (let s1 := s.set idx
        { cGet s idx with prev_index := NO_INDEX, next_index := NO_INDEX }
       (s1.set (cGet s idx).next_index
        { cGet s1 (cGet s idx).next_index with prev_index := NO_INDEX },
        { l with head_index := (cGet s idx).next_index })) := by
  have hneg : ¬((cGet s idx).prev_index ≠ NO_INDEX ∧
      (cGet s idx).next_index ≠ NO_INDEX) := fun hc => hc.1 h1
  have hneg2 : ¬((cGet s idx).prev_index ≠ NO_INDEX) := fun hc => hc h1
  simp only [cut]
  rw [if_neg hneg, if_neg hneg2, if_pos h2]


theorem cut_eq_only (s : List CElem) (l : HmList) (idx : Nat)
    (h1 : (cGet s idx).prev_index = NO_INDEX)
    (h2 : (cGet s idx).next_index = NO_INDEX) :
    cut s l idx =
      (s.set idx { cGet s idx with prev_index := NO_INDEX, next_index := NO_INDEX },
       { head_index := NO_INDEX, tail_index := NO_INDEX }) := by
  have hneg : ¬((cGet s idx).prev_index ≠ NO_INDEX ∧
      (cGet s idx).next_index ≠ NO_INDEX) := fun hc => hc.1 h1
  have hneg2 : ¬((cGet s idx).prev_index ≠ NO_INDEX) := fun hc => hc h1
  have hneg3 : ¬((cGet s idx).next_index ≠ NO_INDEX) := fun hc => hc h2
  simp only [cut]
  rw [if_neg hneg, if_neg hneg2, if_neg hneg3]


theorem getLastD_default_irrel (L : List Nat) (d d' : Nat) (h : L ≠ []) :
    L.getLastD d = L.getLastD d' := by
  cases L with
  | nil => exact absurd rfl h
  | cons a r => rw [List.getLastD_cons, List.getLastD_cons]


theorem getLastD_concat_c (A : List Nat) (a d : Nat) : (A ++ [a]).getLastD d = a := by
  rw [getLastD_append_right A [a] d (by simp)]; rfl


theorem storagePost_refl (s : List CElem) (t : List Nat) : storagePost s s t :=
  ⟨rfl, fun _ => ⟨rfl, rfl⟩, fun _ _ => rfl⟩


theorem storagePost_trans (s s' s'' : List CElem) (t : List Nat)
    (h1 : storagePost s s' t) (h2 : storagePost s' s'' t) : storagePost s s'' t :=
  ⟨h2.1.trans h1.1,
   fun j => ⟨(h2.2.1 j).1.trans (h1.2.1 j).1, (h2.2.1 j).2.trans (h1.2.1 j).2⟩,
   fun j hj => (h2.2.2 j hj).trans (h1.2.2 j hj)⟩


theorem storagePost_set (s : List CElem) (i : Nat) (e : CElem) (t : List Nat)
    (hip : e.ip = (cGet s i).ip) (hv : e.value = (cGet s i).value) (hi : i ∈ t) :
    storagePost s (s.set i e) t := by
  refine ⟨List.length_set s i e, fun j => ?_, fun j hj => ?_⟩
  · by_cases hji : j = i
    · subst hji
      by_cases hlt : j < s.length
      · rw [cGet_set_self s j e hlt]; exact ⟨hip, hv⟩
      · rw [show s.set j e = s from List.set_eq_of_length_le (by omega)]
        exact ⟨rfl, rfl⟩
    · rw [cGet_set_ne s i j e hji]; exact ⟨rfl, rfl⟩
  · have hji : j ≠ i := fun hh => hj (hh ▸ hi)
    exact cGet_set_ne s i j e hji


theorem cut_spec (s : List CElem) (l : HmList) (A B : List Nat) (idx : Nat)
    (hWF : listWF s l (A ++ idx :: B))
    (hnd : (A ++ idx :: B).Nodup)
    (hbd : ∀ j ∈ A ++ idx :: B, j < s.length ∧ j ≠ NO_INDEX) :
    listWF (cut s l idx).1 (cut s l idx).2 (A ++ B) ∧
    storagePost s (cut s l idx).1 (A ++ idx :: B) ∧
    (cGet (cut s l idx).1 idx).prev_index = NO_INDEX ∧
    (cGet (cut s l idx).1 idx).next_index = NO_INDEX := by
  obtain ⟨hchain, hhead, htail⟩ := hWF
  have hdec := listWF_decomp s l A B idx ⟨hchain, hhead, htail⟩
  obtain ⟨hp, hn⟩ := hdec
  have hidxmem : idx ∈ A ++ idx :: B := by simp
  have hidxlt : idx < s.length := (hbd idx hidxmem).1
  rw [List.nodup_append] at hnd
  obtain ⟨hndA, hndIB, hdisj⟩ := hnd
  have hidxA : idx ∉ A := fun hh => hdisj hh (List.mem_cons_self idx B)
  have hidxB : idx ∉ B := (List.nodup_cons.1 hndIB).1
  have hndB : B.Nodup := (List.nodup_cons.1 hndIB).2
  rcases List.eq_nil_or_concat A with rfl | ⟨A₀, a, rfl⟩
  · -- A = []
    cases B with
    | nil =>
      -- only element
      have hp0 : (cGet s idx).prev_index = NO_INDEX := hp
      have hn0 : (cGet s idx).next_index = NO_INDEX := hn
      rw [cut_eq_only s l idx hp0 hn0]
      refine ⟨⟨trivial, rfl, rfl⟩, ?_, ?_, ?_⟩
      · exact storagePost_set s idx _ _ rfl rfl hidxmem
      · rw [cGet_set_self s idx _ hidxlt]
      · rw [cGet_set_self s idx _ hidxlt]
    | cons b B' =>
      -- idx is the head, b the new head
      have hp0 : (cGet s idx).prev_index = NO_INDEX := hp
      have hbmem : b ∈ [] ++ idx :: b :: B' := by simp
      have hblt : b < s.length := (hbd b hbmem).1
      have hbNO : b ≠ NO_INDEX := (hbd b hbmem).2
      have hbidx : idx ≠ b := fun hh => hidxB (hh ▸ List.mem_cons_self b B')
      have hn0 : (cGet s idx).next_index = b := hn
      have hn0' : (cGet s idx).next_index ≠ NO_INDEX := by rw [hn0]; exact hbNO
      rw [cut_eq_head s l idx hp0 hn0']
      simp only [hn0]
      set s1 := s.set idx
        { cGet s idx with prev_index := NO_INDEX, next_index := NO_INDEX } with hs1
      set s2 := s1.set b { cGet s1 b with prev_index := NO_INDEX } with hs2
      have hs1b : cGet s1 b = cGet s b := cGet_set_ne s idx b _ (Ne.symm hbidx)
      have hs1len : s1.length = s.length := List.length_set s idx _
      have hblt1 : b < s1.length := by omega
      have hchain0 : chainSeg s NO_INDEX (idx :: b :: B') NO_INDEX := hchain
      rw [chainSeg_cons] at hchain0
      have hchain1 : chainSeg s idx (b :: B') NO_INDEX := hchain0.2.2
      rw [chainSeg_cons] at hchain1
      obtain ⟨hbp, hbn, hchainB'⟩ := hchain1
      have hagree : ∀ j ∈ B', cGet s2 j = cGet s j := by
        intro j hj
        have hjb : j ≠ b := fun hh => (List.nodup_cons.1 hndB).1 (hh ▸ hj)
        have hjidx : j ≠ idx := fun hh => hidxB (hh ▸ List.mem_cons_of_mem b hj)
        rw [hs2, cGet_set_ne s1 b j _ hjb, hs1, cGet_set_ne s idx j _ hjidx]
      refine ⟨⟨?_, rfl, ?_⟩, ?_, ?_, ?_⟩
      · simp only [List.nil_append]
        rw [chainSeg_cons]
        refine ⟨?_, ?_, ?_⟩
        · rw [hs2, cGet_set_self s1 b _ hblt1]
        · rw [hs2, cGet_set_self s1 b _ hblt1]
          simp only [hs1b]
          exact hbn
        · exact chainSeg_congr s s2 b NO_INDEX B' hagree hchainB'
      · rw [htail]
        simp only [List.nil_append, List.getLastD_cons]
      · refine storagePost_trans s s1 s2 _ ?_ ?_
        · exact storagePost_set s idx _ _ rfl rfl hidxmem
        · exact storagePost_set s1 b _ _ rfl rfl hbmem
      · rw [hs2, cGet_set_ne s1 b idx _ hbidx, hs1, cGet_set_self s idx _ hidxlt]
      · rw [hs2, cGet_set_ne s1 b idx _ hbidx, hs1, cGet_set_self s idx _ hidxlt]
  · -- A = A₀ ++ [a]
    simp only [List.concat_eq_append] at hbd hchain hhead htail hp hidxmem hndA hdisj hidxA ⊢
    have hamem : a ∈ (A₀ ++ [a]) ++ idx :: B := by simp
    have halt : a < s.length := (hbd a hamem).1
    have haNO : a ≠ NO_INDEX := (hbd a hamem).2
    have haidx : a ≠ idx := fun hh =>
      hidxA (hh ▸ (by simp : a ∈ A₀ ++ [a]))
    have hp0 : (cGet s idx).prev_index = a := by
      rw [hp, getLastD_concat_c]
    have hp0' : (cGet s idx).prev_index ≠ NO_INDEX := by rw [hp0]; exact haNO
    have hndA0 : A₀.Nodup := (List.nodup_append.1 hndA).1
    have haA0 : a ∉ A₀ := by
      have := (List.nodup_append.1 hndA).2.2
      exact fun hh => this hh (List.mem_cons_self a [])
    -- decompose the original chain across A₀, a, idx
    have hchainA : chainSeg s NO_INDEX (A₀ ++ [a]) ((idx :: B).headD NO_INDEX) ∧
        chainSeg s ((A₀ ++ [a]).getLastD NO_INDEX) (idx :: B) NO_INDEX :=
      (chainSeg_append s NO_INDEX NO_INDEX (A₀ ++ [a]) (idx :: B)).1 hchain
    have hchainA1 : chainSeg s NO_INDEX A₀ ([a].headD idx) ∧
        chainSeg s (A₀.getLastD NO_INDEX) [a] idx := by
      have := (chainSeg_append s NO_INDEX idx A₀ [a]).1 ?_
      · exact this
      · have hh := hchainA.1
        simp only [List.headD] at hh
        exact hh
    have hchainIdx : chainSeg s a (idx :: B) NO_INDEX := by
      have hh := hchainA.2
      rw [getLastD_concat_c] at hh
      exact hh
    have hA0a : chainSeg s NO_INDEX A₀ a := by
      have hh := hchainA1.1
      simp only [List.headD] at hh
      exact hh
    have haSeg : chainSeg s (A₀.getLastD NO_INDEX) [a] idx := hchainA1.2
    rw [chainSeg_cons] at haSeg
    obtain ⟨hap, han, _⟩ := haSeg
    simp only [List.headD] at han
    cases B with
    | nil =>
      -- idx is the tail, a the new tail
      have hn0 : (cGet s idx).next_index = NO_INDEX := hn
      rw [cut_eq_tail s l idx hp0' hn0]
      simp only [hp0]
      set s1 := s.set idx
        { cGet s idx with prev_index := NO_INDEX, next_index := NO_INDEX } with hs1
      set s2 := s1.set a { cGet s1 a with next_index := NO_INDEX } with hs2
      have hs1a : cGet s1 a = cGet s a := cGet_set_ne s idx a _ haidx
      have hs1len : s1.length = s.length := List.length_set s idx _
      have halt1 : a < s1.length := by omega
      have hagree : ∀ j ∈ A₀, cGet s2 j = cGet s j := by
        intro j hj
        have hja : j ≠ a := fun hh => haA0 (hh ▸ hj)
        have hjidx : j ≠ idx := fun hh =>
          hidxA (hh ▸ List.mem_append_left [a] hj)
        rw [hs2, cGet_set_ne s1 a j _ hja, hs1, cGet_set_ne s idx j _ hjidx]
      refine ⟨⟨?_, ?_, ?_⟩, ?_, ?_, ?_⟩
      · rw [List.append_nil, chainSeg_append]
        refine ⟨?_, ?_⟩
        · simp only [List.headD]
          exact chainSeg_congr s s2 NO_INDEX a A₀ hagree hA0a
        · rw [chainSeg_cons]
          refine ⟨?_, ?_, trivial⟩
          · rw [hs2, cGet_set_self s1 a _ halt1, hs1a]
            exact hap
          · simp only [hs2, cGet_set_self s1 a _ halt1]
            rfl
      · rw [hhead, List.append_nil]
        rw [headD_append_left (A₀ ++ [a]) (idx :: []) NO_INDEX (by simp)]
      · rw [List.append_nil, getLastD_concat_c]
      · refine storagePost_trans s s1 s2 _ ?_ ?_
        · exact storagePost_set s idx _ _ rfl rfl (by simp)
        · exact storagePost_set s1 a _ _ rfl rfl hamem
      · rw [hs2, cGet_set_ne s1 a idx _ (Ne.symm haidx), hs1,
          cGet_set_self s idx _ hidxlt]
      · rw [hs2, cGet_set_ne s1 a idx _ (Ne.symm haidx), hs1,
          cGet_set_self s idx _ hidxlt]
    | cons b B' =>
      -- idx is interior: link a to b
      have hbmem : b ∈ (A₀ ++ [a]) ++ idx :: b :: B' := by simp
      have hblt : b < s.length := (hbd b hbmem).1
      have hbNO : b ≠ NO_INDEX := (hbd b hbmem).2
      have hbidx : idx ≠ b := fun hh => hidxB (hh ▸ List.mem_cons_self b B')
      have hab : a ≠ b := fun hh =>
        hdisj (by simp : a ∈ A₀ ++ [a])
          (by rw [hh]; exact List.mem_cons_of_mem idx (List.mem_cons_self b B'))
      have hn0 : (cGet s idx).next_index = b := hn
      have hn0' : (cGet s idx).next_index ≠ NO_INDEX := by rw [hn0]; exact hbNO
      rw [cut_eq_mid s l idx hp0' hn0']
      simp only [hp0, hn0]
      set s1 := s.set idx
        { cGet s idx with prev_index := NO_INDEX, next_index := NO_INDEX } with hs1
      set s2 := s1.set a { cGet s1 a with next_index := b } with hs2
      set s3 := s2.set b { cGet s2 b with prev_index := a } with hs3
      have hs1a : cGet s1 a = cGet s a := cGet_set_ne s idx a _ haidx
      have hs2b : cGet s2 b = cGet s b := by
        rw [hs2, cGet_set_ne s1 a b _ (Ne.symm hab), hs1,
          cGet_set_ne s idx b _ (Ne.symm hbidx)]
      have hs1len : s1.length = s.length := List.length_set s idx _
      have hs2len : s2.length = s1.length := List.length_set s1 a _
      have halt2 : a < s2.length := by omega
      have hblt3 : b < s2.length := by omega
      rw [chainSeg_cons] at hchainIdx
      have hchainB : chainSeg s idx (b :: B') NO_INDEX := hchainIdx.2.2
      rw [chainSeg_cons] at hchainB
      obtain ⟨hbp, hbn, hchainB'⟩ := hchainB
      have hagreeA : ∀ j ∈ A₀, cGet s3 j = cGet s j := by
        intro j hj
        have hja : j ≠ a := fun hh => haA0 (hh ▸ hj)
        have hjidx : j ≠ idx := fun hh =>
          hidxA (hh ▸ List.mem_append_left [a] hj)
        have hjb : j ≠ b := fun hh =>
          hdisj (List.mem_append_left [a] hj)
            (by rw [hh]; exact List.mem_cons_of_mem idx (List.mem_cons_self b B'))
        rw [hs3, cGet_set_ne s2 b j _ hjb, hs2, cGet_set_ne s1 a j _ hja, hs1,
          cGet_set_ne s idx j _ hjidx]
      have hagreeB : ∀ j ∈ B', cGet s3 j = cGet s j := by
        intro j hj
        have hjb : j ≠ b := fun hh => (List.nodup_cons.1 hndB).1 (hh ▸ hj)
        have hjidx : j ≠ idx := fun hh => hidxB (hh ▸ List.mem_cons_of_mem b hj)
        have hja : j ≠ a := fun hh =>
          hdisj (by simp : a ∈ A₀ ++ [a])
            (by rw [← hh]; exact List.mem_cons_of_mem idx (List.mem_cons_of_mem b hj))
        rw [hs3, cGet_set_ne s2 b j _ hjb, hs2, cGet_set_ne s1 a j _ hja, hs1,
          cGet_set_ne s idx j _ hjidx]
      have hs3a : cGet s3 a = { cGet s a with next_index := b } := by
        rw [hs3, cGet_set_ne s2 b a _ hab, hs2, cGet_set_self s1 a _ (by omega),
          hs1a]
      have hs3b : cGet s3 b = { cGet s b with prev_index := a } := by
        rw [hs3, cGet_set_self s2 b _ hblt3, hs2b]
      refine ⟨⟨?_, ?_, ?_⟩, ?_, ?_, ?_⟩
      · rw [chainSeg_append]
        refine ⟨?_, ?_⟩
        · rw [chainSeg_append]
          refine ⟨?_, ?_⟩
          · exact chainSeg_congr s s3 NO_INDEX a A₀ hagreeA hA0a
          · rw [chainSeg_cons]
            refine ⟨?_, ?_, trivial⟩
            · rw [hs3a]; exact hap
            · rw [hs3a]; rfl
        · rw [getLastD_concat_c, chainSeg_cons]
          refine ⟨?_, ?_, ?_⟩
          · rw [hs3b]
          · rw [hs3b]; exact hbn
          · exact chainSeg_congr s s3 b NO_INDEX B' hagreeB hchainB'
      · rw [hhead, headD_append_left (A₀ ++ [a]) _ NO_INDEX (by simp),
          headD_append_left (A₀ ++ [a]) _ NO_INDEX (by simp)]
      · rw [htail, getLastD_append_right (A₀ ++ [a]) (idx :: b :: B') NO_INDEX (by simp),
          getLastD_append_right (A₀ ++ [a]) (b :: B') NO_INDEX (by simp),
          List.getLastD_cons]
        exact getLastD_default_irrel (b :: B') idx NO_INDEX (by simp)
      · refine storagePost_trans s s1 s3 _ ?_ ?_
        · exact storagePost_set s idx _ _ rfl rfl (by simp)
        · refine storagePost_trans s1 s2 s3 _ ?_ ?_
          · exact storagePost_set s1 a _ _ rfl rfl hamem
          · exact storagePost_set s2 b _ _ rfl rfl hbmem
      · rw [hs3, cGet_set_ne s2 b idx _ hbidx, hs2,
          cGet_set_ne s1 a idx _ (Ne.symm haidx), hs1,
          cGet_set_self s idx _ hidxlt]
      · rw [hs3, cGet_set_ne s2 b idx _ hbidx, hs2,
          cGet_set_ne s1 a idx _ (Ne.symm haidx), hs1,
          cGet_set_self s idx _ hidxlt]


theorem set_head_spec (s : List CElem) (l : HmList) (L : List Nat) (idx : Nat)
    (hWF : listWF s l L)
    (hnd : L.Nodup)
    (hbd : ∀ j ∈ L, j < s.length ∧ j ≠ NO_INDEX)
    (hprev : (cGet s idx).prev_index = NO_INDEX)
    (hnext : (cGet s idx).next_index = NO_INDEX)
    (hnotin : idx ∉ L)
    (hidxlt : idx < s.length) :
    listWF (set_head s l idx).1 (set_head s l idx).2 (idx :: L) ∧
    storagePost s (set_head s l idx).1 (idx :: L) := by
  obtain ⟨hchain, hhead, htail⟩ := hWF
  cases L with
  | nil =>
    have hh : l.head_index = NO_INDEX := hhead
    rw [set_head, if_pos hh]
    exact ⟨⟨⟨hprev, hnext, trivial⟩, rfl, rfl⟩, storagePost_refl s _⟩
  | cons h L' =>
    have hhd : l.head_index = h := hhead
    have hmem : h ∈ h :: L' := List.mem_cons_self h L'
    have hhlt : h < s.length := (hbd h hmem).1
    have hhNO : h ≠ NO_INDEX := (hbd h hmem).2
    have hcond : ¬ l.head_index = NO_INDEX := by rw [hhd]; exact hhNO
    have hidxh : idx ≠ h := fun hh => hnotin (hh ▸ hmem)
    rw [set_head, if_neg hcond]
    simp only [hhd]
    set s1 := s.set idx { cGet s idx with next_index := h } with hs1
    set s2 := s1.set h { cGet s1 h with prev_index := idx } with hs2
    have hs1len : s1.length = s.length := List.length_set s idx _
    have hs1h : cGet s1 h = cGet s h := cGet_set_ne s idx h _ (Ne.symm hidxh)
    rw [chainSeg_cons] at hchain
    obtain ⟨hhp, hhn, hchainL'⟩ := hchain
    have hagree : ∀ j ∈ L', cGet s2 j = cGet s j := by
      intro j hj
      have hjh : j ≠ h := fun hh => (List.nodup_cons.1 hnd).1 (hh ▸ hj)
      have hjidx : j ≠ idx := fun hh => hnotin (hh ▸ List.mem_cons_of_mem h hj)
      rw [hs2, cGet_set_ne s1 h j _ hjh, hs1, cGet_set_ne s idx j _ hjidx]
    refine ⟨⟨?_, rfl, ?_⟩, ?_⟩
    · rw [chainSeg_cons]
      refine ⟨?_, ?_, ?_⟩
      · rw [hs2, cGet_set_ne s1 h idx _ hidxh, hs1, cGet_set_self s idx _ hidxlt]
        exact hprev
      · rw [hs2, cGet_set_ne s1 h idx _ hidxh, hs1, cGet_set_self s idx _ hidxlt]
        rfl
      · rw [chainSeg_cons]
        refine ⟨?_, ?_, ?_⟩
        · rw [hs2, cGet_set_self s1 h _ (by omega)]
        · rw [hs2, cGet_set_self s1 h _ (by omega)]
          simp only [hs1h]
          exact hhn
        · exact chainSeg_congr s s2 h NO_INDEX L' hagree hchainL'
    · rw [htail, List.getLastD_cons, List.getLastD_cons]
      exact (getLastD_default_irrel (h :: L') idx NO_INDEX (by simp)).symm ▸ by
        rw [List.getLastD_cons]
    · refine storagePost_trans s s1 s2 _ ?_ ?_
      · exact storagePost_set s idx _ _ rfl rfl (List.mem_cons_self idx _)
      · exact storagePost_set s1 h _ _ rfl rfl (List.mem_cons_of_mem idx hmem)


/- ---- phase 2: cyclic probe arithmetic ---- -/

theorem land_pow2_mask (x k : Nat) : x &&& (2 ^ k - 1) = x % 2 ^ k := by
  apply Nat.eq_of_testBit_eq
  intro i
  rw [Nat.testBit_land, Nat.testBit_mod_two_pow, Nat.testBit_two_pow_sub_one]
  cases hb : x.testBit i <;> simp


theorem cycDist_closed (len a b : Nat) (ha : a < len) (hb : b < len) :
    cycDist len a b = if a ≤ b then b - a else b + len - a := by
  unfold cycDist
  split
  · have h1 : b + len - a = (b - a) + len := by omega
    rw [h1, Nat.add_mod_right, Nat.mod_eq_of_lt (by omega)]
  · rw [Nat.mod_eq_of_lt (by omega)]


theorem cycDist_lt (len a b : Nat) (h0 : 0 < len) : cycDist len a b < len :=
  Nat.mod_lt _ h0


theorem cycDist_self (len a : Nat) (ha : a < len) : cycDist len a a = 0 := by
  rw [cycDist_closed len a a ha ha]; simp


theorem cycDist_eq_zero_iff (len a b : Nat) (ha : a < len) (hb : b < len) :
    cycDist len a b = 0 ↔ a = b := by
  rw [cycDist_closed len a b ha hb]
  split <;> omega


theorem probe_cycDist (len h d : Nat) (hh : h < len) (hd : d < len) :
    cycDist len h ((h + d) % len) = d := by
  rcases Nat.lt_or_ge (h + d) len with hlt | hge
  · rw [Nat.mod_eq_of_lt hlt, cycDist_closed len h (h + d) hh hlt]
    simp
  · have hmod : (h + d) % len = h + d - len := by
      rw [Nat.mod_eq_sub_mod hge, Nat.mod_eq_of_lt (by omega)]
    rw [hmod, cycDist_closed len h (h + d - len) hh (by omega)]
    have : ¬ (h ≤ h + d - len) := by omega
    rw [if_neg this]
    omega


theorem probe_of_cycDist (len a b : Nat) (ha : a < len) (hb : b < len) :
    (a + cycDist len a b) % len = b := by
  rw [cycDist_closed len a b ha hb]
  split
  · rw [show a + (b - a) = b by omega, Nat.mod_eq_of_lt hb]
  · rw [show a + (b + len - a) = b + len by omega, Nat.add_mod_right,
      Nat.mod_eq_of_lt hb]


theorem probe_inj (len h d1 d2 : Nat) (hh : h < len) (hd1 : d1 < len)
    (hd2 : d2 < len) (he : (h + d1) % len = (h + d2) % len) : d1 = d2 := by
  have h1 := probe_cycDist len h d1 hh hd1
  have h2 := probe_cycDist len h d2 hh hd2
  rw [he] at h1
  omega


theorem cycDist_succ (len a b : Nat) (h0 : 0 < len) (ha : a < len) (hb : b < len)
    (hne : (b + 1) % len ≠ a) :
    cycDist len a ((b + 1) % len) = cycDist len a b + 1 := by
  rcases Nat.lt_or_ge (b + 1) len with hlt | hge
  · rw [Nat.mod_eq_of_lt hlt] at hne ⊢
    rw [cycDist_closed len a (b + 1) ha hlt, cycDist_closed len a b ha hb]
    split <;> split <;> omega
  · have hb1 : b + 1 = len := by omega
    have hmod : (b + 1) % len = 0 := by rw [hb1, Nat.mod_self]
    rw [hmod] at hne ⊢
    rw [cycDist_closed len a 0 ha h0, cycDist_closed len a b ha hb]
    split <;> split <;> omega


theorem cycDist_pred (len b e : Nat) (h0 : 0 < len) (hb : b < len) (he : e < len)
    (hne : b ≠ e) :
    cycDist len ((b + 1) % len) e + 1 = cycDist len b e := by
  rcases Nat.lt_or_ge (b + 1) len with hlt | hge
  · rw [Nat.mod_eq_of_lt hlt, cycDist_closed len (b + 1) e hlt he,
      cycDist_closed len b e hb he]
    split <;> split <;> omega
  · have hb1 : b + 1 = len := by omega
    have hmod : (b + 1) % len = 0 := by rw [hb1, Nat.mod_self]
    rw [hmod, cycDist_closed len 0 e h0 he, cycDist_closed len b e hb he]
    split <;> split <;> omega


theorem cyc_test_iff (len i j k : Nat) (hi : i < len) (hj : j < len) (hk : k < len) :
    (if i ≤ j then i < k ∧ k ≤ j else k ≤ j ∨ i < k) ↔
      (0 < cycDist len i k ∧ cycDist len i k ≤ cycDist len i j) := by
  rw [cycDist_closed len i k hi hk, cycDist_closed len i j hi hj]
  by_cases h1 : i ≤ j
  · by_cases h2 : i ≤ k
    · simp only [if_pos h1, if_pos h2]; omega
    · simp only [if_pos h1, if_neg h2]; omega
  · by_cases h2 : i ≤ k
    · simp only [if_neg h1, if_pos h2]; omega
    · simp only [if_neg h1, if_neg h2]; omega


/- ---- phase 3: hash-table lookup ---- -/

theorem exists_empty_cell (ht : List Nat) (L : List Nat)
    (hmem : ∀ b, b < ht.length → ht.getD b NO_INDEX ≠ NO_INDEX →
      ht.getD b NO_INDEX ∈ L)
    (hinj : ∀ b1 b2, b1 < ht.length → b2 < ht.length →
      ht.getD b1 NO_INDEX = ht.getD b2 NO_INDEX →
      ht.getD b1 NO_INDEX ≠ NO_INDEX → b1 = b2)
    (hnd : L.Nodup)
    (hlen : L.length < ht.length) :
    ∃ e, e < ht.length ∧ ht.getD e NO_INDEX = NO_INDEX := by
  by_contra hcon
  push_neg at hcon
  have hcard : (Finset.range ht.length).card ≤ L.toFinset.card := by
    apply Finset.card_le_card_of_injOn (fun b => ht.getD b NO_INDEX)
    · intro b hb
      rw [Finset.mem_range] at hb
      exact List.mem_toFinset.2 (hmem b hb (hcon b hb))
    · intro b1 h1 b2 h2 he
      rw [Finset.mem_coe, Finset.mem_range] at h1 h2
      exact hinj b1 b2 h1 h2 he (hcon b1 h1)
  rw [Finset.card_range] at hcard
  have htf : L.toFinset.card ≤ L.length := L.toFinset_card_le
  omega


theorem lookupGo_none (ht : List Nat) (s : List CElem) (ip kk e : Nat)
    (hlen : ht.length = 2 ^ kk)
    (he : e < 2 ^ kk) (hee : ht.getD e NO_INDEX = NO_INDEX)
    (hnom : ∀ b, b < 2 ^ kk → ht.getD b NO_INDEX ≠ NO_INDEX →
      (cGet s (ht.getD b NO_INDEX)).ip ≠ ip) :
    ∀ d b fuel, b < 2 ^ kk → cycDist (2 ^ kk) b e = d → d < fuel →
      tableLookupGo ht s ip (2 ^ kk - 1) b fuel = some NO_INDEX := by
  intro d
  induction d with
  | zero =>
    intro b fuel hb hd hf
    have hbe : b = e := (cycDist_eq_zero_iff _ b e hb he).1 hd
    cases fuel with
    | zero => omega
    | succ f =>
      rw [hbe]
      simp only [tableLookupGo, hee]
      simp
  | succ d ih =>
    intro b fuel hb hd hf
    cases fuel with
    | zero => omega
    | succ f =>
      simp only [tableLookupGo]
      by_cases hbv : ht.getD b NO_INDEX = NO_INDEX
      · rw [if_pos hbv]
      · rw [if_neg hbv, if_neg (hnom b hb hbv)]
        have hbne : b ≠ e := by
          intro hh
          rw [hh, cycDist_self _ e he] at hd
          omega
        have hstep : (b + 1) &&& (2 ^ kk - 1) = (b + 1) % 2 ^ kk :=
          land_pow2_mask (b + 1) kk
        rw [hstep]
        have hd' : cycDist (2 ^ kk) ((b + 1) % 2 ^ kk) e = d := by
          have := cycDist_pred (2 ^ kk) b e (Nat.pos_pow_of_pos kk (by norm_num))
            hb he hbne
          omega
        exact ih ((b + 1) % 2 ^ kk) f
          (Nat.mod_lt _ (Nat.pos_pow_of_pos kk (by norm_num))) hd' (by omega)


theorem lookupGo_found (ht : List Nat) (s : List CElem) (ip kk i h0 cell : Nat)
    (hlen : ht.length = 2 ^ kk)
    (hh0 : h0 < 2 ^ kk)
    (hcell : cell < 2 ^ kk) (hcv : ht.getD cell NO_INDEX = i)
    (hiNO : i ≠ NO_INDEX)
    (hipq : (cGet s i).ip = ip)
    (huniq : ∀ b, b < 2 ^ kk → ht.getD b NO_INDEX ≠ NO_INDEX →
      (cGet s (ht.getD b NO_INDEX)).ip = ip → ht.getD b NO_INDEX = i)
    (hclu : ∀ d, d ≤ cycDist (2 ^ kk) h0 cell →
      ht.getD ((h0 + d) % 2 ^ kk) NO_INDEX ≠ NO_INDEX) :
    ∀ r d fuel, d + r = cycDist (2 ^ kk) h0 cell → r < fuel →
      tableLookupGo ht s ip (2 ^ kk - 1) ((h0 + d) % 2 ^ kk) fuel = some i := by
  intro r
  induction r with
  | zero =>
    intro d fuel hd hf
    cases fuel with
    | zero => omega
    | succ f =>
      have hpos : (h0 + d) % 2 ^ kk = cell := by
        rw [show d = cycDist (2 ^ kk) h0 cell from by omega]
        exact probe_of_cycDist _ h0 cell hh0 hcell
      simp only [tableLookupGo, hpos, hcv]
      rw [if_neg hiNO, if_pos hipq]
  | succ r ih =>
    intro d fuel hd hf
    cases fuel with
    | zero => omega
    | succ f =>
      have hocc : ht.getD ((h0 + d) % 2 ^ kk) NO_INDEX ≠ NO_INDEX :=
        hclu d (by omega)
      simp only [tableLookupGo]
      rw [if_neg hocc]
      by_cases hmatch : (cGet s (ht.getD ((h0 + d) % 2 ^ kk) NO_INDEX)).ip = ip
      · rw [if_pos hmatch]
        rw [huniq _ (Nat.mod_lt _ (Nat.pos_pow_of_pos kk (by norm_num))) hocc hmatch]
      · rw [if_neg hmatch]
        have hstep : ((h0 + d) % 2 ^ kk + 1) &&& (2 ^ kk - 1) =
            (h0 + (d + 1)) % 2 ^ kk := by
          rw [land_pow2_mask, Nat.mod_add_mod]
          congr 1
        rw [hstep]
        exact ih (d + 1) f (by omega) (by omega)


theorem pow2_pos (kk : Nat) : 0 < 2 ^ kk := Nat.pos_pow_of_pos kk (by norm_num)


theorem table_lookup_found (c : HmCache) (L F : List Nat) (i : Nat)
    (hWF : CacheWF c L F) (hi : i ∈ L) :
    table_lookup c ((cGet c.list_storage i).ip) = some i := by
  obtain ⟨hL, hF, hnd, hbd, hcomp, hslen, hcap, hsum, ⟨kk, hkk⟩, hmask, h2cap, hht⟩ := hWF
  obtain ⟨hhtmem, hhtsurj, hhtinj, hkeys, hclu⟩ := hht
  have hiA : i ∈ L ++ F := List.mem_append_left F hi
  have hilt : i < c.capacity := hbd i hiA
  have hiNO : i ≠ NO_INDEX := Nat.ne_of_lt (lt_trans hilt hcap)
  obtain ⟨cell, hcelllt, hcellv⟩ := hhtsurj i hi
  have hcelllt' : cell < 2 ^ kk := hkk ▸ hcelllt
  have hhomlt : homeOf c.list_storage c.mask_for_hash i < 2 ^ kk := by
    rw [homeOf, hmask, hkk, land_pow2_mask]
    exact Nat.mod_lt _ (pow2_pos kk)
  have huniq : ∀ b, b < 2 ^ kk → c.hash_table.getD b NO_INDEX ≠ NO_INDEX →
      (cGet c.list_storage (c.hash_table.getD b NO_INDEX)).ip =
        (cGet c.list_storage i).ip →
      c.hash_table.getD b NO_INDEX = i := by
    intro b hb hocc hkey
    by_contra hne
    exact hkeys _ i (hhtmem b (hkk ▸ hb) hocc) hi hne hkey
  have hclu' : ∀ d, d ≤ cycDist (2 ^ kk)
      (homeOf c.list_storage c.mask_for_hash i) cell →
      c.hash_table.getD ((homeOf c.list_storage c.mask_for_hash i + d) % 2 ^ kk)
        NO_INDEX ≠ NO_INDEX := by
    intro d hd
    have hocc : c.hash_table.getD cell NO_INDEX ≠ NO_INDEX := by
      rw [hcellv]; exact hiNO
    have := hclu cell hcelllt hocc d ?_
    · rw [← hkk]
      rw [hcellv] at this
      exact this
    · rw [hcellv, hkk]
      exact hd
  have hDlt : cycDist (2 ^ kk) (homeOf c.list_storage c.mask_for_hash i) cell <
      2 ^ kk + 1 := by
    have := cycDist_lt (2 ^ kk) (homeOf c.list_storage c.mask_for_hash i) cell
      (pow2_pos kk)
    omega
  have hmain := lookupGo_found c.hash_table c.list_storage
    ((cGet c.list_storage i).ip) kk i
    (homeOf c.list_storage c.mask_for_hash i) cell hkk hhomlt hcelllt' hcellv
    hiNO rfl huniq hclu'
    (cycDist (2 ^ kk) (homeOf c.list_storage c.mask_for_hash i) cell) 0
    (2 ^ kk + 1) (by omega) hDlt
  rw [table_lookup, hmask, hkk]
  have hstart : hash32 ((cGet c.list_storage i).ip) &&& (2 ^ kk - 1) =
      (homeOf c.list_storage c.mask_for_hash i + 0) % 2 ^ kk := by
    rw [Nat.add_zero, homeOf, hmask, hkk, land_pow2_mask,
      Nat.mod_mod_of_dvd _ dvd_rfl]
  rw [hstart]
  exact hmain


theorem table_lookup_fresh (c : HmCache) (L F : List Nat) (ip : Nat)
    (hWF : CacheWF c L F)
    (hfresh : ∀ i ∈ L, (cGet c.list_storage i).ip ≠ ip) :
    table_lookup c ip = some NO_INDEX := by
  obtain ⟨hL, hF, hnd, hbd, hcomp, hslen, hcap, hsum, ⟨kk, hkk⟩, hmask, h2cap, hht⟩ := hWF
  obtain ⟨hhtmem, hhtsurj, hhtinj, hkeys, hclu⟩ := hht
  have hndL : L.Nodup := (List.nodup_append.1 hnd).1
  have hlenpos : 0 < c.hash_table.length := hkk ▸ pow2_pos kk
  have hLlen : L.length < c.hash_table.length := by omega
  obtain ⟨e, helt, hev⟩ := exists_empty_cell c.hash_table L hhtmem hhtinj hndL hLlen
  have helt' : e < 2 ^ kk := hkk ▸ helt
  have hnom : ∀ b, b < 2 ^ kk → c.hash_table.getD b NO_INDEX ≠ NO_INDEX →
      (cGet c.list_storage (c.hash_table.getD b NO_INDEX)).ip ≠ ip := by
    intro b hb hocc
    exact hfresh _ (hhtmem b (hkk ▸ hb) hocc)
  have hstart : hash32 ip &&& (2 ^ kk - 1) = (hash32 ip) % 2 ^ kk :=
    land_pow2_mask _ kk
  have hstartlt : (hash32 ip) % 2 ^ kk < 2 ^ kk := Nat.mod_lt _ (pow2_pos kk)
  have hdlt : cycDist (2 ^ kk) ((hash32 ip) % 2 ^ kk) e < 2 ^ kk + 1 := by
    have := cycDist_lt (2 ^ kk) ((hash32 ip) % 2 ^ kk) e (pow2_pos kk)
    omega
  have hmain := lookupGo_none c.hash_table c.list_storage ip kk e hkk helt' hev
    hnom (cycDist (2 ^ kk) ((hash32 ip) % 2 ^ kk) e) ((hash32 ip) % 2 ^ kk)
    (2 ^ kk + 1) hstartlt rfl hdlt
  rw [table_lookup, hmask, hkk, hstart]
  exact hmain


/- ---- phase 4: table_add ---- -/

theorem ngetD_set_self (ht : List Nat) (i v : Nat) (h : i < ht.length) :
    (ht.set i v).getD i NO_INDEX = v := by
  simp [List.getD_eq_getElem?_getD, List.getElem?_set_self, h]


theorem ngetD_set_ne (ht : List Nat) (i j v : Nat) (h : j ≠ i) :
    (ht.set i v).getD j NO_INDEX = ht.getD j NO_INDEX := by
  simp [List.getD_eq_getElem?_getD, List.getElem?_set_ne (fun hh => h hh.symm)]


theorem tableAddGo_spec (ht : List Nat) (s : List CElem) (idx kk h0 D : Nat)
    (hlen : ht.length = 2 ^ kk) (hh0 : h0 < 2 ^ kk)
    (hD : ht.getD ((h0 + D) % 2 ^ kk) NO_INDEX = NO_INDEX)
    (hmin : ∀ d, d < D → ht.getD ((h0 + d) % 2 ^ kk) NO_INDEX ≠ NO_INDEX) :
    ∀ r d fuel, d + r = D → r < fuel →
      tableAddGo ht idx (2 ^ kk - 1) ((h0 + d) % 2 ^ kk) fuel =
        some (ht.set ((h0 + D) % 2 ^ kk) idx) := by
  intro r
  induction r with
  | zero =>
    intro d fuel hd hf
    cases fuel with
    | zero => omega
    | succ f =>
      have hdD : d = D := by omega
      rw [hdD]
      rw [show tableAddGo ht idx (2 ^ kk - 1) ((h0 + D) % 2 ^ kk) (f + 1) =
          (if ht.getD ((h0 + D) % 2 ^ kk) NO_INDEX = NO_INDEX then
            some (ht.set ((h0 + D) % 2 ^ kk) idx)
          else tableAddGo ht idx (2 ^ kk - 1)
            (((h0 + D) % 2 ^ kk + 1) &&& (2 ^ kk - 1)) f) from rfl]
      rw [if_pos hD]
  | succ r ih =>
    intro d fuel hd hf
    cases fuel with
    | zero => omega
    | succ f =>
      have hocc : ht.getD ((h0 + d) % 2 ^ kk) NO_INDEX ≠ NO_INDEX :=
        hmin d (by omega)
      simp only [tableAddGo]
      rw [if_neg hocc]
      have hstep : ((h0 + d) % 2 ^ kk + 1) &&& (2 ^ kk - 1) =
          (h0 + (d + 1)) % 2 ^ kk := by
        rw [land_pow2_mask, Nat.mod_add_mod]
        congr 1
      rw [hstep]
      exact ih (d + 1) f (by omega) (by omega)


theorem table_add_spec (c : HmCache) (L : List Nat) (idx kk : Nat)
    (hkk : c.hash_table.length = 2 ^ kk)
    (hmask : c.mask_for_hash = c.hash_table.length - 1)
    (hht : htWF c.hash_table c.list_storage c.mask_for_hash L)
    (hLlen : L.length < c.hash_table.length)
    (hndL : L.Nodup)
    (hLNO : ∀ i ∈ L, i ≠ NO_INDEX)
    (hidxNO : idx ≠ NO_INDEX)
    (hfresh : ∀ i ∈ L, (cGet c.list_storage i).ip ≠ (cGet c.list_storage idx).ip) :
    ∃ b', b' < c.hash_table.length ∧ c.hash_table.getD b' NO_INDEX = NO_INDEX ∧
      table_add c ((cGet c.list_storage idx).ip) idx =
        some { c with hash_table := c.hash_table.set b' idx } ∧
      htWF (c.hash_table.set b' idx) c.list_storage c.mask_for_hash (idx :: L) := by
  obtain ⟨hhtmem, hhtsurj, hhtinj, hkeys, hclu⟩ := hht
  have hidxL : idx ∉ L := fun hh => hfresh idx hh rfl
  set s := c.list_storage with hs
  set ht := c.hash_table with hht0
  set h0 := homeOf s c.mask_for_hash idx with hh0def
  have hh0lt : h0 < 2 ^ kk := by
    rw [hh0def, homeOf, hmask, hkk, land_pow2_mask]
    exact Nat.mod_lt _ (pow2_pos kk)
  obtain ⟨e, helt, hev⟩ := exists_empty_cell ht L hhtmem hhtinj hndL hLlen
  have hex : ∃ d, ht.getD ((h0 + d) % 2 ^ kk) NO_INDEX = NO_INDEX := by
    refine ⟨cycDist (2 ^ kk) h0 e, ?_⟩
    rw [probe_of_cycDist _ h0 e hh0lt (hkk ▸ helt)]
    exact hev
  set D := Nat.find hex with hDdef
  have hD : ht.getD ((h0 + D) % 2 ^ kk) NO_INDEX = NO_INDEX := Nat.find_spec hex
  have hmin : ∀ d, d < D → ht.getD ((h0 + d) % 2 ^ kk) NO_INDEX ≠ NO_INDEX :=
    fun d hd => Nat.find_min hex hd
  have hDle : D ≤ cycDist (2 ^ kk) h0 e := by
    apply Nat.find_min'
    rw [probe_of_cycDist _ h0 e hh0lt (hkk ▸ helt)]
    exact hev
  have hDlt : D < 2 ^ kk :=
    lt_of_le_of_lt hDle (cycDist_lt _ h0 e (pow2_pos kk))
  set b' := (h0 + D) % 2 ^ kk with hbndef
  have hb'lt : b' < 2 ^ kk := Nat.mod_lt _ (pow2_pos kk)
  have hb'lt2 : b' < ht.length := by omega
  have hcycb' : cycDist (2 ^ kk) h0 b' = D := probe_cycDist _ h0 D hh0lt hDlt
  have hmono : ∀ x, x < ht.length → ht.getD x NO_INDEX ≠ NO_INDEX →
      (ht.set b' idx).getD x NO_INDEX ≠ NO_INDEX := by
    intro x hx hxo
    by_cases hxb : x = b'
    · rw [hxb, ngetD_set_self ht b' idx hb'lt2]
      exact hidxNO
    · rw [ngetD_set_ne ht b' x idx hxb]
      exact hxo
  have hmain := tableAddGo_spec ht s idx kk h0 D hkk hh0lt hD hmin D 0
    (2 ^ kk + 1) (by omega) (by omega)
  refine ⟨b', hb'lt2, hD, ?_, ?_, ?_, ?_, ?_, ?_⟩
  · rw [table_add, hmask, hkk]
    have hstart : hash32 ((cGet s idx).ip) &&& (2 ^ kk - 1) = (h0 + 0) % 2 ^ kk := by
      rw [Nat.add_zero, hh0def, homeOf, hmask, hkk, land_pow2_mask,
        Nat.mod_mod_of_dvd _ dvd_rfl]
    rw [hstart, hmain]
    rfl
  · -- membership
    intro b hb hocc
    rw [List.length_set] at hb
    by_cases hbb : b = b'
    · rw [hbb, ngetD_set_self ht b' idx hb'lt2]
      exact List.mem_cons_self idx L
    · rw [ngetD_set_ne ht b' b idx hbb] at hocc ⊢
      exact List.mem_cons_of_mem idx (hhtmem b hb hocc)
  · -- surjectivity
    intro m hm
    rcases List.mem_cons.1 hm with rfl | hmL
    · exact ⟨b', by rw [List.length_set]; exact hb'lt2,
        ngetD_set_self ht b' m hb'lt2⟩
    · obtain ⟨bm, hbmlt, hbmv⟩ := hhtsurj m hmL
      have hbmb' : bm ≠ b' := by
        intro hh
        rw [hh, hD] at hbmv
        exact hLNO m hmL hbmv.symm
      exact ⟨bm, by rw [List.length_set]; exact hbmlt,
        by rw [ngetD_set_ne ht b' bm idx hbmb']; exact hbmv⟩
  · -- injectivity
    intro b1 b2 h1 h2 he hocc
    rw [List.length_set] at h1 h2
    by_cases hb1 : b1 = b'
    · by_cases hb2 : b2 = b'
      · rw [hb1, hb2]
      · exfalso
        rw [hb1, ngetD_set_self ht b' idx hb'lt2,
          ngetD_set_ne ht b' b2 idx hb2] at he
        have hocc2 : ht.getD b2 NO_INDEX ≠ NO_INDEX := by
          rw [← he]; exact hidxNO
        have hmem2 : ht.getD b2 NO_INDEX ∈ L := hhtmem b2 h2 hocc2
        rw [← he] at hmem2
        exact hidxL hmem2
    · by_cases hb2 : b2 = b'
      · exfalso
        rw [hb2, ngetD_set_self ht b' idx hb'lt2,
          ngetD_set_ne ht b' b1 idx hb1] at he
        have hocc1 : ht.getD b1 NO_INDEX ≠ NO_INDEX := by
          rw [he]; exact hidxNO
        have hmem1 : ht.getD b1 NO_INDEX ∈ L := hhtmem b1 h1 hocc1
        rw [he] at hmem1
        exact hidxL hmem1
      · rw [ngetD_set_ne ht b' b1 idx hb1] at he hocc
        rw [ngetD_set_ne ht b' b2 idx hb2] at he
        exact hhtinj b1 b2 h1 h2 he hocc
  · -- distinct keys
    intro i1 i2 hi1 hi2 hne
    rcases List.mem_cons.1 hi1 with rfl | h1L
    · rcases List.mem_cons.1 hi2 with rfl | h2L
      · exact absurd rfl hne
      · exact fun hh => hfresh i2 h2L hh.symm
    · rcases List.mem_cons.1 hi2 with rfl | h2L
      · exact hfresh i1 h1L
      · exact hkeys i1 i2 h1L h2L hne
  · -- cluster invariant
    intro b hb hocc d hd
    simp only [List.length_set] at hb hd ⊢
    by_cases hbb : b = b'
    · rw [hbb] at hocc hd ⊢
      rw [ngetD_set_self ht b' idx hb'lt2] at hocc hd ⊢
      have hhome : homeOf s c.mask_for_hash idx = h0 := rfl
      rw [hhome, hkk, hcycb'] at hd
      rw [hhome, hkk]
      rcases Nat.lt_or_ge d D with hdD | hdD
      · exact hmono _ (by rw [hkk]; exact Nat.mod_lt _ (pow2_pos kk)) (hmin d hdD)
      · have hdeq : d = D := by omega
        rw [hdeq]
        rw [show (h0 + D) % 2 ^ kk = b' from rfl]
        rw [ngetD_set_self ht b' idx hb'lt2]
        exact hidxNO
    · rw [ngetD_set_ne ht b' b idx hbb] at hocc hd ⊢
      have hlp : 0 < ht.length := by rw [hkk]; exact pow2_pos kk
      exact hmono _ (Nat.mod_lt _ hlp) (hclu b hb hocc d hd)


/- ---- phase 5: table_delete ---- -/

theorem homeOf_lt (s : List CElem) (kk x : Nat) :
    homeOf s (2 ^ kk - 1) x < 2 ^ kk := by
  rw [homeOf, land_pow2_mask]
  exact Nat.mod_lt _ (pow2_pos kk)


theorem delFindGo_spec (ht : List Nat) (s : List CElem) (ip kk i h0 cell : Nat)
    (hlen : ht.length = 2 ^ kk)
    (hh0 : h0 < 2 ^ kk)
    (hcell : cell < 2 ^ kk) (hcv : ht.getD cell NO_INDEX = i)
    (hiNO : i ≠ NO_INDEX)
    (hipq : (cGet s i).ip = ip)
    (huniq : ∀ b, b < 2 ^ kk → ht.getD b NO_INDEX ≠ NO_INDEX →
      (cGet s (ht.getD b NO_INDEX)).ip = ip → ht.getD b NO_INDEX = i)
    (hinj : ∀ b1 b2, b1 < 2 ^ kk → b2 < 2 ^ kk →
      ht.getD b1 NO_INDEX = ht.getD b2 NO_INDEX →
      ht.getD b1 NO_INDEX ≠ NO_INDEX → b1 = b2)
    (hclu : ∀ d, d ≤ cycDist (2 ^ kk) h0 cell →
      ht.getD ((h0 + d) % 2 ^ kk) NO_INDEX ≠ NO_INDEX) :
    ∀ r d fuel, d + r = cycDist (2 ^ kk) h0 cell → r < fuel →
      tableDelFindGo ht s ip (2 ^ kk - 1) ((h0 + d) % 2 ^ kk) fuel = some cell := by
  intro r
  induction r with
  | zero =>
    intro d fuel hd hf
    cases fuel with
    | zero => omega
    | succ f =>
      have hpos : (h0 + d) % 2 ^ kk = cell := by
        rw [show d = cycDist (2 ^ kk) h0 cell from by omega]
        exact probe_of_cycDist _ h0 cell hh0 hcell
      simp only [tableDelFindGo, hpos, hcv]
      rw [if_neg hiNO, if_pos hipq]
  | succ r ih =>
    intro d fuel hd hf
    cases fuel with
    | zero => omega
    | succ f =>
      have hposlt : (h0 + d) % 2 ^ kk < 2 ^ kk := Nat.mod_lt _ (pow2_pos kk)
      have hocc : ht.getD ((h0 + d) % 2 ^ kk) NO_INDEX ≠ NO_INDEX :=
        hclu d (by omega)
      simp only [tableDelFindGo]
      rw [if_neg hocc]
      by_cases hmatch : (cGet s (ht.getD ((h0 + d) % 2 ^ kk) NO_INDEX)).ip = ip
      · rw [if_pos hmatch]
        have hvi := huniq _ hposlt hocc hmatch
        have hcells : (h0 + d) % 2 ^ kk = cell := by
          apply hinj _ _ hposlt hcell (by rw [hvi, hcv]) hocc
        rw [hcells]
      · rw [if_neg hmatch]
        have hstep : ((h0 + d) % 2 ^ kk + 1) &&& (2 ^ kk - 1) =
            (h0 + (d + 1)) % 2 ^ kk := by
          rw [land_pow2_mask, Nat.mod_add_mod]
          congr 1
        rw [hstep]
        exact ih (d + 1) f (by omega) (by omega)


theorem RINV_init (s : List CElem) (kk : Nat) (L : List Nat) (idx e0 c0 : Nat)
    (ht : List Nat)
    (hlen : ht.length = 2 ^ kk)
    (hc0 : c0 < 2 ^ kk) (hc0v : ht.getD c0 NO_INDEX = idx)
    (hidxNO : idx ≠ NO_INDEX)
    (he0 : e0 < 2 ^ kk) (he0v : ht.getD e0 NO_INDEX = NO_INDEX)
    (hmem : ∀ b, b < 2 ^ kk → ht.getD b NO_INDEX ≠ NO_INDEX →
      ht.getD b NO_INDEX ∈ L)
    (hsurj : ∀ m ∈ L, ∃ b, b < 2 ^ kk ∧ ht.getD b NO_INDEX = m)
    (hinj : ∀ b1 b2, b1 < 2 ^ kk → b2 < 2 ^ kk →
      ht.getD b1 NO_INDEX = ht.getD b2 NO_INDEX →
      ht.getD b1 NO_INDEX ≠ NO_INDEX → b1 = b2)
    (hclu : ∀ b, b < 2 ^ kk → ht.getD b NO_INDEX ≠ NO_INDEX →
      ∀ d, d ≤ cycDist (2 ^ kk) (homeOf s (2 ^ kk - 1) (ht.getD b NO_INDEX)) b →
        ht.getD ((homeOf s (2 ^ kk - 1) (ht.getD b NO_INDEX) + d) % 2 ^ kk)
          NO_INDEX ≠ NO_INDEX) :
    RINV s kk L idx e0 (ht.set c0 NO_INDEX) c0 c0 := by
  have hc0len : c0 < ht.length := by omega
  have he0c0 : e0 ≠ c0 := by
    intro hh
    rw [hh, hc0v] at he0v
    exact hidxNO he0v
  have hval : ∀ b, b < 2 ^ kk → b ≠ c0 →
      (ht.set c0 NO_INDEX).getD b NO_INDEX = ht.getD b NO_INDEX :=
    fun b _ hb => ngetD_set_ne ht c0 b NO_INDEX hb
  have hc0new : (ht.set c0 NO_INDEX).getD c0 NO_INDEX = NO_INDEX :=
    ngetD_set_self ht c0 NO_INDEX hc0len
  have hoccb : ∀ b, b < 2 ^ kk → (ht.set c0 NO_INDEX).getD b NO_INDEX ≠ NO_INDEX →
      b ≠ c0 ∧ ht.getD b NO_INDEX ≠ NO_INDEX ∧
      (ht.set c0 NO_INDEX).getD b NO_INDEX = ht.getD b NO_INDEX := by
    intro b hb hocc
    have hbc0 : b ≠ c0 := by
      intro hh
      rw [hh, hc0new] at hocc
      exact hocc rfl
    have hv := hval b hb hbc0
    exact ⟨hbc0, by rw [← hv]; exact hocc, hv⟩
  refine ⟨by rw [List.length_set]; exact hlen, hc0, hc0, hc0new, he0,
    he0c0, Ne.symm he0c0, by rw [hval e0 he0 he0c0]; exact he0v, ?_, ?_, ?_, ?_, ?_⟩
  · intro b hb hocc
    obtain ⟨hbc0, hocc0, hv⟩ := hoccb b hb hocc
    rw [hv]
    refine ⟨hmem b hb hocc0, ?_⟩
    intro hh
    have := hinj b c0 hb hc0 (by rw [hh, hc0v]) (by rw [hh]; exact hidxNO)
    exact hbc0 this
  · intro m hm hmidx
    obtain ⟨bm, hbmlt, hbmv⟩ := hsurj m hm
    have hbmc0 : bm ≠ c0 := by
      intro hh
      rw [hh, hc0v] at hbmv
      exact hmidx hbmv.symm
    exact ⟨bm, hbmlt, by rw [hval bm hbmlt hbmc0]; exact hbmv⟩
  · intro b1 b2 h1 h2 he hocc
    obtain ⟨h1c0, hocc1, hv1⟩ := hoccb b1 h1 hocc
    rw [hv1] at he hocc
    by_cases h2c0 : b2 = c0
    · rw [h2c0, hc0new] at he
      exact absurd he hocc
    · rw [hval b2 h2 h2c0] at he
      exact hinj b1 b2 h1 h2 he hocc
  · intro b hb hocc d hd
    obtain ⟨hbc0, hocc0, hv⟩ := hoccb b hb hocc
    rw [hv] at hd ⊢
    by_cases hcell : (homeOf s (2 ^ kk - 1) (ht.getD b NO_INDEX) + d) % 2 ^ kk = c0
    · exact Or.inl hcell
    · right
      rw [hval _ (Nat.mod_lt _ (pow2_pos kk)) hcell]
      exact hclu b hb hocc0 d hd
  · intro b hb hocc d hd hcell
    obtain ⟨hbc0, hocc0, hv⟩ := hoccb b hb hocc
    rw [cycDist_self _ c0 hc0]
    have : cycDist (2 ^ kk) c0 b ≠ 0 := by
      intro hh
      exact hbc0 ((cycDist_eq_zero_iff _ c0 b hc0 hb).1 hh).symm
    omega


theorem cycDist_shift (len i u v : Nat) (hi : i < len) (hu : u < len) (hv : v < len)
    (huv : u ≤ v) :
    cycDist len ((i + u) % len) ((i + v) % len) = v - u := by
  have h0 : 0 < len := by omega
  have hk : (i + u) % len < len := Nat.mod_lt _ h0
  have heq : (((i + u) % len) + (v - u)) % len = (i + v) % len := by
    rw [Nat.mod_add_mod]
    congr 1
    omega
  rw [← heq]
  exact probe_cycDist len _ (v - u) hk (by omega)


theorem cycDist_wrap (len i u : Nat) (hi : i < len) (hu0 : 0 < u) (hu : u < len) :
    cycDist len ((i + u) % len) i = len - u := by
  have h0 : 0 < len := by omega
  have hk : (i + u) % len < len := Nat.mod_lt _ h0
  have heq : (((i + u) % len) + (len - u)) % len = i := by
    rw [Nat.mod_add_mod, show i + u + (len - u) = i + len by omega,
      Nat.add_mod_right, Nat.mod_eq_of_lt hi]
  nth_rewrite 2 [← heq]
  exact probe_cycDist len _ (len - u) hk (by omega)


theorem repairGo_spec (s : List CElem) (kk : Nat) (L : List Nat) (idx e0 : Nat) :
    ∀ fuel ht i j, RINV s kk L idx e0 ht i j →
      cycDist (2 ^ kk) j e0 < fuel →
      ∃ ht2, tableDelRepairGo s (2 ^ kk - 1) ht i j fuel = some ht2 ∧
        RPOST s kk L idx ht2 := by
  intro fuel
  induction fuel with
  | zero =>
    intro ht i j hinv hf
    omega
  | succ f ih =>
    intro ht i j hinv hf
    obtain ⟨hlen, hi, hj, hhole, he0lt, he0i, hje0, he0v, hmem, hsurj, hinj,
      hA, hB⟩ := hinv
    have hpos : 0 < 2 ^ kk := pow2_pos kk
    simp only [tableDelRepairGo]
    set j' := (j + 1) &&& (2 ^ kk - 1) with hjndef
    have hj'eq : j' = (j + 1) % 2 ^ kk := by rw [hjndef, land_pow2_mask]
    have hj'lt : j' < 2 ^ kk := by rw [hj'eq]; exact Nat.mod_lt _ hpos
    have hmeas : cycDist (2 ^ kk) j' e0 + 1 = cycDist (2 ^ kk) j e0 := by
      rw [hj'eq]
      exact cycDist_pred (2 ^ kk) j e0 hpos hj he0lt hje0
    by_cases hempty : ht.getD j' NO_INDEX = NO_INDEX
    · -- scan hit an empty cell: the loop exits with the current table
      rw [if_pos hempty]
      refine ⟨ht, rfl, hlen, hmem, hsurj, hinj, ?_⟩
      intro b hb hocc d hd
      rcases hA b hb hocc d hd with hcell | hoccd
      · exfalso
        set home := homeOf s (2 ^ kk - 1) (ht.getD b NO_INDEX) with hhomedef
        have hhome : home < 2 ^ kk := homeOf_lt s kk _
        set D := cycDist (2 ^ kk) home b with hDdef
        have hDlt : D < 2 ^ kk := cycDist_lt _ home b hpos
        have hdD : d < D := by
          rcases Nat.lt_or_ge d D with h | h
          · exact h
          · exfalso
            have hdeq : d = D := by omega
            rw [hdeq, hDdef, probe_of_cycDist _ home b hhome hb] at hcell
            rw [hcell] at hocc
            exact hocc hhole
        have hBb := hB b hb hocc d hdD hcell
        set t0 := cycDist (2 ^ kk) i j with ht0def
        have hib : cycDist (2 ^ kk) i b = D - d := by
          have hbeq : ((i + (D - d)) % 2 ^ kk) = b := by
            rw [← hcell, Nat.mod_add_mod,
              show home + d + (D - d) = home + D by omega,
              probe_of_cycDist _ home b hhome hb]
          rw [← hbeq]
          exact probe_cycDist _ i (D - d) hi (by omega)
        have hjb : t0 + 1 ≤ D - d := by omega
        have hj'path : j' = (home + (d + (t0 + 1))) % 2 ^ kk := by
          have h1 : (i + t0) % 2 ^ kk = j := probe_of_cycDist (2 ^ kk) i j hi hj
          rw [hj'eq, ← h1, Nat.mod_add_mod, ← hcell,
            show (home + d) % 2 ^ kk + t0 + 1 =
              (home + d) % 2 ^ kk + (t0 + 1) from by omega,
            Nat.mod_add_mod,
            show home + d + (t0 + 1) = home + (d + (t0 + 1)) from by omega]
        have hdt : d + (t0 + 1) ≤ cycDist (2 ^ kk)
            (homeOf s (2 ^ kk - 1) (ht.getD b NO_INDEX)) b := by
          rw [← hhomedef, ← hDdef]
          omega
        rcases hA b hb hocc (d + (t0 + 1)) hdt with hcell2 | hocc2
        · rw [← hhomedef] at hcell2
          have habs : d + (t0 + 1) = d :=
            probe_inj (2 ^ kk) home _ _ hhome (by omega) (by omega)
              (by rw [hcell2, hcell])
          omega
        · rw [← hhomedef] at hocc2
          rw [← hj'path] at hocc2
          exact hocc2 hempty
      · exact hoccd
    · -- j' holds an entry
      rw [if_neg hempty]
      set m := ht.getD j' NO_INDEX with hmdef
      set k := hash32 (cGet s m).ip &&& (2 ^ kk - 1) with hkdef
      have hkhome : homeOf s (2 ^ kk - 1) m = k := rfl
      have hklt : k < 2 ^ kk := by
        rw [← hkhome]
        exact homeOf_lt s kk m
      have hij' : i ≠ j' := by
        intro hh
        rw [hh] at hhole
        exact hempty hhole
      have hj'e0 : j' ≠ e0 := by
        intro hh
        rw [← hh] at he0v
        exact hempty he0v
      have hj'i : j' ≠ i := Ne.symm hij'
      have hvj : cycDist (2 ^ kk) i j' = cycDist (2 ^ kk) i j + 1 := by
        rw [hj'eq]
        exact cycDist_succ (2 ^ kk) i j hpos hi hj (by rw [← hj'eq]; exact hj'i)
      by_cases htest : (if i ≤ j' then i < k ∧ k ≤ j' else k ≤ j' ∨ i < k)
      · -- keep: the entry is correctly positioned, continue the scan
        rw [if_pos htest]
        have htest' := (cyc_test_iff (2 ^ kk) i j' k hi hj'lt hklt).1 htest
        apply ih ht i j'
        · refine ⟨hlen, hi, hj'lt, hhole, he0lt, he0i, hj'e0, he0v, hmem,
            hsurj, hinj, hA, ?_⟩
          intro b hb hocc d hd hcell
          have hold := hB b hb hocc d hd hcell
          rw [hvj]
          rcases Nat.lt_or_ge (cycDist (2 ^ kk) i j + 1) (cycDist (2 ^ kk) i b)
            with h | h
          · exact h
          · exfalso
            have heqd : cycDist (2 ^ kk) i b = cycDist (2 ^ kk) i j + 1 := by
              omega
            have hbj' : b = j' := by
              rw [← probe_of_cycDist (2 ^ kk) i b hi hb, heqd, ← hvj,
                probe_of_cycDist (2 ^ kk) i j' hi hj'lt]
            -- show the kept entry cannot be the offending one
            rw [hbj'] at hcell hd hocc
            rw [← hmdef] at hcell hd hocc
            rw [hkhome] at hcell hd
            set u := cycDist (2 ^ kk) i k with hudef
            set v := cycDist (2 ^ kk) i j' with hvdef
            have hkeq : (i + u) % 2 ^ kk = k :=
              probe_of_cycDist (2 ^ kk) i k hi hklt
            have hj'2 : (i + v) % 2 ^ kk = j' :=
              probe_of_cycDist (2 ^ kk) i j' hi hj'lt
            have hu0 : 0 < u := htest'.1
            have hulen : u < 2 ^ kk := cycDist_lt _ i k hpos
            have hvlen : v < 2 ^ kk := cycDist_lt _ i j' hpos
            have huv : u ≤ v := htest'.2
            have hDj' : cycDist (2 ^ kk) k j' = v - u := by
              rw [← hkeq, ← hj'2]
              exact cycDist_shift (2 ^ kk) i u v hi hulen hvlen huv
            have hdki : d = cycDist (2 ^ kk) k i := by
              rw [← hcell]
              exact (probe_cycDist (2 ^ kk) k d hklt (by
                have h1 := cycDist_lt (2 ^ kk) k j' hpos
                omega)).symm
            have hki : cycDist (2 ^ kk) k i = 2 ^ kk - u := by
              rw [← hkeq]
              exact cycDist_wrap (2 ^ kk) i u hi hu0 hulen
            rw [hDj'] at hd
            omega
        · omega
      · -- move: shift the entry back into the hole, the hole moves to j'
        rw [if_neg htest]
        have htestneg : ¬(0 < cycDist (2 ^ kk) i k ∧
            cycDist (2 ^ kk) i k ≤ cycDist (2 ^ kk) i j') := by
          intro hc
          exact htest ((cyc_test_iff (2 ^ kk) i j' k hi hj'lt hklt).2 hc)
        set ht2 := (ht.set i m).set j' NO_INDEX with hht2def
        have hlen1 : (ht.set i m).length = ht.length := List.length_set ht i m
        have hlen2 : ht2.length = ht.length := by
          rw [hht2def, List.length_set, hlen1]
        have hv2j' : ht2.getD j' NO_INDEX = NO_INDEX :=
          ngetD_set_self (ht.set i m) j' NO_INDEX (by omega)
        have hv2i : ht2.getD i NO_INDEX = m := by
          rw [hht2def, ngetD_set_ne _ j' i NO_INDEX hij',
            ngetD_set_self ht i m (by omega)]
        have hv2o : ∀ b, b ≠ i → b ≠ j' →
            ht2.getD b NO_INDEX = ht.getD b NO_INDEX := by
          intro b hbi hbj'
          rw [hht2def, ngetD_set_ne _ j' b NO_INDEX hbj',
            ngetD_set_ne ht i b m hbi]
        have hmocc : m ≠ NO_INDEX := by rw [hmdef]; exact hempty
        have hoccb2 : ∀ b, ht2.getD b NO_INDEX ≠ NO_INDEX → b ≠ j' := by
          intro b hocc hh
          rw [hh, hv2j'] at hocc
          exact hocc rfl
        apply ih ht2 j' j'
        · refine ⟨by omega, hj'lt, hj'lt, hv2j', he0lt, Ne.symm hj'e0,
            hj'e0, ?_, ?_, ?_, ?_, ?_, ?_⟩
          · rw [hv2o e0 he0i (Ne.symm hj'e0)]
            exact he0v
          · -- membership
            intro b hb hocc
            by_cases hbi : b = i
            · rw [hbi, hv2i]
              exact hmem j' hj'lt hempty
            · have hbj'2 : b ≠ j' := hoccb2 b hocc
              rw [hv2o b hbi hbj'2] at hocc ⊢
              exact hmem b hb hocc
          · -- surjectivity
            intro m' hm' hm'idx
            obtain ⟨bm, hbmlt, hbmv⟩ := hsurj m' hm' hm'idx
            by_cases hbmj' : bm = j'
            · refine ⟨i, hi, ?_⟩
              rw [hv2i, hmdef, ← hbmj', hbmv]
            · by_cases hbmi : bm = i
              · rw [hbmi, hhole] at hbmv
                exact ⟨j', hj'lt, by rw [hv2j', hbmv]⟩
              · exact ⟨bm, hbmlt, by rw [hv2o bm hbmi hbmj']; exact hbmv⟩
          · -- injectivity
            intro b1 b2 h1 h2 he hocc
            have hb1j' : b1 ≠ j' := hoccb2 b1 hocc
            have hb2j' : b2 ≠ j' := hoccb2 b2 (by rw [← he]; exact hocc)
            have htr : ∀ b, b ≠ j' →
                ht2.getD b NO_INDEX = ht.getD (if b = i then j' else b) NO_INDEX := by
              intro b hbj'
              by_cases hbi : b = i
              · rw [hbi, hv2i, if_pos rfl, hmdef]
              · rw [hv2o b hbi hbj', if_neg hbi]
            rw [htr b1 hb1j', htr b2 hb2j'] at he
            rw [htr b1 hb1j'] at hocc
            have hres := hinj (if b1 = i then j' else b1) (if b2 = i then j' else b2)
              (by split <;> omega) (by split <;> omega) he hocc
            by_cases hb1i : b1 = i
            · by_cases hb2i : b2 = i
              · rw [hb1i, hb2i]
              · rw [if_pos hb1i, if_neg hb2i] at hres
                exact absurd hres.symm hb2j'
            · by_cases hb2i : b2 = i
              · rw [if_neg hb1i, if_pos hb2i] at hres
                exact absurd hres hb1j'
              · rw [if_neg hb1i, if_neg hb2i] at hres
                exact hres
          · -- invariant (A) for the new hole j'
            intro b hb hocc d hd
            by_cases hbi : b = i
            · -- the moved entry m, now at cell i
              rw [hbi, hv2i] at hocc hd ⊢
              rw [hkhome] at hd ⊢
              set u := cycDist (2 ^ kk) i k with hudef
              set v := cycDist (2 ^ kk) i j' with hvdef
              have hulen : u < 2 ^ kk := cycDist_lt _ i k hpos
              have hvlen : v < 2 ^ kk := cycDist_lt _ i j' hpos
              have hkeq : (i + u) % 2 ^ kk = k :=
                probe_of_cycDist (2 ^ kk) i k hi hklt
              have hj'eq2 : (i + v) % 2 ^ kk = j' :=
                probe_of_cycDist (2 ^ kk) i j' hi hj'lt
              rcases Nat.eq_zero_or_pos u with hu0 | hu0
              · -- the home is the hole itself
                have hki : k = i :=
                  ((cycDist_eq_zero_iff (2 ^ kk) i k hi hklt).1 hu0).symm
                have hD0 : cycDist (2 ^ kk) k i = 0 := by
                  rw [hki]
                  exact cycDist_self _ i hi
                rw [hD0] at hd
                have hdeq : d = 0 := by omega
                rw [hdeq, Nat.add_zero, Nat.mod_eq_of_lt hklt, hki]
                right
                rw [hv2i]
                exact hmocc
              · have hvu : v < u := by
                  rcases Nat.lt_or_ge v u with h | h
                  · exact h
                  · exact absurd ⟨hu0, h⟩ htestneg
                have hD2 : cycDist (2 ^ kk) k i = 2 ^ kk - u := by
                  rw [← hkeq]
                  exact cycDist_wrap (2 ^ kk) i u hi hu0 hulen
                rcases Nat.lt_or_ge d (cycDist (2 ^ kk) k i) with hdD | hdD
                · -- strictly inside the moved entry's path to its new cell
                  have hDold : cycDist (2 ^ kk) k j' = 2 ^ kk - u + v := by
                    have heq2 : (k + (2 ^ kk - u + v)) % 2 ^ kk = j' := by
                      rw [← hkeq, Nat.mod_add_mod,
                        show i + u + (2 ^ kk - u + v) = (i + v) + 2 ^ kk by omega,
                        Nat.add_mod_right, hj'eq2]
                    rw [← heq2]
                    exact probe_cycDist (2 ^ kk) k _ hklt (by omega)
                  have hAj' := hA j' hj'lt hempty d (by
                    rw [← hmdef, hkhome, hDold]
                    omega)
                  rw [← hmdef, hkhome] at hAj'
                  rcases hAj' with hcell | hocc2
                  · exfalso
                    have : d = cycDist (2 ^ kk) k i := by
                      rw [← hcell]
                      exact (probe_cycDist (2 ^ kk) k d hklt (by omega)).symm
                    omega
                  · by_cases hcj' : (k + d) % 2 ^ kk = j'
                    · exact Or.inl hcj'
                    · right
                      have hci : (k + d) % 2 ^ kk ≠ i := by
                        intro hh
                        have : d = cycDist (2 ^ kk) k i := by
                          rw [← hh]
                          exact (probe_cycDist (2 ^ kk) k d hklt (by omega)).symm
                        omega
                      rw [hv2o _ hci hcj']
                      exact hocc2
                · have hdeq : d = cycDist (2 ^ kk) k i := by omega
                  rw [hdeq, probe_of_cycDist (2 ^ kk) k i hklt hi]
                  right
                  rw [hv2i]
                  exact hmocc
            · -- an untouched entry
              have hbj' : b ≠ j' := hoccb2 b hocc
              rw [hv2o b hbi hbj'] at hocc hd ⊢
              rcases hA b hb hocc d hd with hcell | hocc2
              · right
                rw [hcell, hv2i]
                exact hmocc
              · by_cases hcj' :
                    (homeOf s (2 ^ kk - 1) (ht.getD b NO_INDEX) + d) % 2 ^ kk = j'
                · exact Or.inl hcj'
                · right
                  by_cases hci :
                      (homeOf s (2 ^ kk - 1) (ht.getD b NO_INDEX) + d) % 2 ^ kk = i
                  · rw [hci, hv2i]
                    exact hmocc
                  · rw [hv2o _ hci hcj']
                    exact hocc2
          · -- invariant (B) holds trivially right after a move
            intro b hb hocc d hd hcell
            rw [cycDist_self _ j' hj'lt]
            have hbj' : b ≠ j' := hoccb2 b hocc
            have : cycDist (2 ^ kk) j' b ≠ 0 := by
              intro hh
              exact hbj' ((cycDist_eq_zero_iff _ j' b hj'lt hb).1 hh).symm
            omega
        · omega


theorem table_delete_spec (c : HmCache) (L : List Nat) (idx kk : Nat)
    (hkk : c.hash_table.length = 2 ^ kk)
    (hmask : c.mask_for_hash = c.hash_table.length - 1)
    (hht : htWF c.hash_table c.list_storage c.mask_for_hash L)
    (hLlen : L.length < c.hash_table.length)
    (hndL : L.Nodup)
    (hLNO : ∀ i ∈ L, i ≠ NO_INDEX)
    (hidx : idx ∈ L) :
    ∃ ht2, table_delete c ((cGet c.list_storage idx).ip) =
        some { c with hash_table := ht2 } ∧
      ht2.length = c.hash_table.length ∧
      htWF ht2 c.list_storage c.mask_for_hash (L.erase idx) := by
  obtain ⟨hhtmem, hhtsurj, hhtinj, hkeys, hclu⟩ := hht
  have hmask2 : c.mask_for_hash = 2 ^ kk - 1 := by rw [hmask, hkk]
  rw [hmask2, hkk] at hclu
  rw [hkk] at hhtmem hhtsurj hhtinj
  set s := c.list_storage with hsdef
  set ht := c.hash_table with hhtdef
  have hidxNO : idx ≠ NO_INDEX := hLNO idx hidx
  obtain ⟨cell, hcelllt, hcellv⟩ := hhtsurj idx hidx
  set h0 := homeOf s (2 ^ kk - 1) idx with hh0def
  have hh0lt : h0 < 2 ^ kk := homeOf_lt s kk idx
  have huniq : ∀ b, b < 2 ^ kk → ht.getD b NO_INDEX ≠ NO_INDEX →
      (cGet s (ht.getD b NO_INDEX)).ip = (cGet s idx).ip →
      ht.getD b NO_INDEX = idx := by
    intro b hb hocc hkey
    by_contra hne
    exact hkeys _ idx (hhtmem b hb hocc) hidx hne hkey
  have hcluc : ∀ d, d ≤ cycDist (2 ^ kk) h0 cell →
      ht.getD ((h0 + d) % 2 ^ kk) NO_INDEX ≠ NO_INDEX := by
    intro d hd
    have hocc : ht.getD cell NO_INDEX ≠ NO_INDEX := by
      rw [hcellv]; exact hidxNO
    have := hclu cell hcelllt hocc d (by rw [hcellv]; exact hd)
    rw [hcellv] at this
    exact this
  have hDlt : cycDist (2 ^ kk) h0 cell < 2 ^ kk + 1 := by
    have := cycDist_lt (2 ^ kk) h0 cell (pow2_pos kk)
    omega
  have hfind := delFindGo_spec ht s ((cGet s idx).ip) kk idx h0 cell hkk hh0lt
    hcelllt hcellv hidxNO rfl huniq hhtinj hcluc
    (cycDist (2 ^ kk) h0 cell) 0 (2 ^ kk + 1) (by omega) hDlt
  have hstart : hash32 ((cGet s idx).ip) &&& (2 ^ kk - 1) = (h0 + 0) % 2 ^ kk := by
    rw [Nat.add_zero, hh0def, homeOf, land_pow2_mask,
      Nat.mod_mod_of_dvd _ dvd_rfl]
  -- an originally empty cell
  obtain ⟨e0, he0lt, he0v⟩ := exists_empty_cell ht L
    (fun b hb => hhtmem b (by omega)) (fun b1 b2 h1 h2 => hhtinj b1 b2 (by omega) (by omega))
    hndL hLlen
  have he0lt2 : e0 < 2 ^ kk := by omega
  have hinit := RINV_init s kk L idx e0 cell ht hkk hcelllt hcellv hidxNO
    he0lt2 he0v hhtmem hhtsurj hhtinj hclu
  have hmeas : cycDist (2 ^ kk) cell e0 < 2 ^ kk + 1 := by
    have := cycDist_lt (2 ^ kk) cell e0 (pow2_pos kk)
    omega
  obtain ⟨ht2, hrep, hpost⟩ := repairGo_spec s kk L idx e0 (2 ^ kk + 1)
    (ht.set cell NO_INDEX) cell cell hinit hmeas
  obtain ⟨hlen2, hpmem, hpsurj, hpinj, hpclu⟩ := hpost
  refine ⟨ht2, ?_, by omega, ?_, ?_, ?_, ?_, ?_⟩
  · -- the delete call
    rw [table_delete, hmask2, hkk, hstart, hfind]
    simp only [Option.bind_eq_bind, Option.some_bind]
    rw [hrep]
    simp only [Option.some_bind]
  · -- membership
    intro b hb hocc
    rw [hlen2] at hb
    have := hpmem b hb hocc
    exact (List.Nodup.mem_erase_iff hndL).2 ⟨this.2, this.1⟩
  · -- surjectivity
    intro m hm
    have hm' := (List.Nodup.mem_erase_iff hndL).1 hm
    obtain ⟨b, hblt, hbv⟩ := hpsurj m hm'.2 hm'.1
    exact ⟨b, by omega, hbv⟩
  · -- injectivity
    intro b1 b2 h1 h2 he hocc
    rw [hlen2] at h1 h2
    exact hpinj b1 b2 h1 h2 he hocc
  · -- distinct keys
    intro i1 i2 hi1 hi2 hne
    exact hkeys i1 i2 (List.mem_of_mem_erase hi1) (List.mem_of_mem_erase hi2) hne
  · -- cluster
    intro b hb hocc d hd
    rw [hlen2] at hb hd ⊢
    rw [hmask2] at hd ⊢
    exact hpclu b hb hocc d hd


/- ---- phase 6: operation-level lemmas ---- -/

theorem chainSeg_congr_links (s s' : List CElem) (p n : Nat) (L : List Nat)
    (hag : ∀ j ∈ L, (cGet s' j).prev_index = (cGet s j).prev_index ∧
      (cGet s' j).next_index = (cGet s j).next_index) :
    chainSeg s p L n → chainSeg s' p L n := by
  induction L generalizing p with
  | nil => intro h; exact h
  | cons a rest ih =>
    intro h
    obtain ⟨h1, h2, h3⟩ := h
    have ha := hag a (List.mem_cons_self a rest)
    exact ⟨by rw [ha.1]; exact h1, by rw [ha.2]; exact h2,
      ih a (fun j hj => hag j (List.mem_cons_of_mem a hj)) h3⟩


theorem listWF_congr_links (s s' : List CElem) (l : HmList) (L : List Nat)
    (hag : ∀ j ∈ L, (cGet s' j).prev_index = (cGet s j).prev_index ∧
      (cGet s' j).next_index = (cGet s j).next_index)
    (h : listWF s l L) : listWF s' l L :=
  ⟨chainSeg_congr_links s s' NO_INDEX NO_INDEX L hag h.1, h.2.1, h.2.2⟩


theorem htWF_congr_ips (ht : List Nat) (s s' : List CElem) (mask : Nat)
    (L : List Nat)
    (hag : ∀ j ∈ L, (cGet s' j).ip = (cGet s j).ip)
    (h : htWF ht s mask L) : htWF ht s' mask L := by
  obtain ⟨hmem, hsurj, hinj, hkeys, hclu⟩ := h
  refine ⟨hmem, hsurj, hinj, ?_, ?_⟩
  · intro i1 i2 h1 h2 hne
    rw [hag i1 h1, hag i2 h2]
    exact hkeys i1 i2 h1 h2 hne
  · intro b hb hocc d hd
    have hent := hmem b hb hocc
    have hhome : homeOf s' mask (ht.getD b NO_INDEX) =
        homeOf s mask (ht.getD b NO_INDEX) := by
      rw [homeOf, homeOf, hag _ hent]
    rw [hhome] at hd ⊢
    exact hclu b hb hocc d hd


theorem htWF_mem_congr (ht : List Nat) (s : List CElem) (mask : Nat)
    (L1 L2 : List Nat)
    (hiff : ∀ m, m ∈ L1 ↔ m ∈ L2)
    (h : htWF ht s mask L1) : htWF ht s mask L2 := by
  obtain ⟨hmem, hsurj, hinj, hkeys, hclu⟩ := h
  exact ⟨fun b hb hocc => (hiff _).1 (hmem b hb hocc),
    fun m hm => hsurj m ((hiff m).2 hm), hinj,
    fun i1 i2 h1 h2 => hkeys i1 i2 ((hiff i1).2 h1) ((hiff i2).2 h2), hclu⟩


theorem and_pred_eq_zero_pow2 : ∀ n, 0 < n → n &&& (n - 1) = 0 → ∃ p, n = 2 ^ p := by
  intro n
  induction n using Nat.strong_induction_on with
  | _ n ih =>
    intro hpos hand
    have hbits : ∀ i, (n.testBit i && (n - 1).testBit i) = false := by
      intro i
      rw [← Nat.testBit_land, hand, Nat.zero_testBit]
    rcases Nat.even_or_odd n with ⟨m, hm⟩ | ⟨m, hm⟩
    · have hm2 : n = 2 * m := by omega
      have hmpos : 0 < m := by omega
      have hdiv : n / 2 = m := by omega
      have hdiv1 : (n - 1) / 2 = m - 1 := by omega
      have hmand : m &&& (m - 1) = 0 := by
        apply Nat.eq_of_testBit_eq
        intro i
        rw [Nat.testBit_land, Nat.zero_testBit, ← hdiv1, ← hdiv,
          Nat.testBit_div_two, Nat.testBit_div_two]
        exact hbits (i + 1)
      rcases Nat.eq_or_lt_of_le (Nat.one_le_iff_ne_zero.2 (by omega) : 1 ≤ m) with
        h1 | h1
      · exact ⟨1, by omega⟩
      · obtain ⟨p, hp⟩ := ih m (by omega) hmpos hmand
        exact ⟨p + 1, by rw [pow_succ]; omega⟩
    · -- odd: n = 2m + 1 forces m = 0
      have hdiv : n / 2 = m := by omega
      have hdiv1 : (n - 1) / 2 = m := by omega
      have hm0 : m = 0 := by
        have : m = 0 ∨ 0 < m := by omega
        rcases this with h | h
        · exact h
        · exfalso
          have hmz : m = 0 := by
            have : ∀ i, m.testBit i = false := by
              intro i
              have hb := hbits (i + 1)
              rw [← Nat.testBit_div_two, ← Nat.testBit_div_two, hdiv, hdiv1] at hb
              cases hbt : m.testBit i
              · rfl
              · rw [hbt] at hb
                simp at hb
            apply Nat.eq_of_testBit_eq
            intro i
            rw [this i, Nat.zero_testBit]
          omega
      exact ⟨0, by omega⟩


theorem getD_replicate_no (n b : Nat) :
    (List.replicate n NO_INDEX).getD b NO_INDEX = NO_INDEX := by
  rcases Nat.lt_or_ge b n with h | h
  · rw [List.getD_eq_getElem?_getD, List.getElem?_replicate]
    simp [h]
  · rw [List.getD_eq_getElem?_getD, List.getElem?_eq_none (by
      rw [List.length_replicate]; omega)]
    rfl


theorem hm_cache_init_spec (capacity speed : Nat) (c : HmCache)
    (h : hm_cache_init capacity speed = .ok c) :
    CacheWF c [] (List.range capacity) ∧ c.capacity = capacity ∧
      c.nodes = { head_index := NO_INDEX, tail_index := NO_INDEX } ∧
      2 ≤ capacity := by
  rw [hm_cache_init] at h
  split_ifs at h with h1 h2
  rw [hm_valid_capacity] at h2
  split_ifs at h2 with g1 g2 g3 g4
  have hcap2 : 2 ≤ capacity := by omega
  have hand : capacity &&& (capacity - 1) = 0 := by
    rcases Nat.eq_or_lt_of_le (Nat.zero_le (capacity &&& (capacity - 1))) with hh | hh
    · exact hh.symm
    · exact absurd (by omega) g2
  obtain ⟨p, hp⟩ := and_pred_eq_zero_pow2 capacity (by omega) hand
  have hppos : 1 ≤ p := by
    by_contra hcon
    have : p = 0 := by omega
    rw [this] at hp
    simp at hp
    omega
  have hNOval : NO_INDEX = 4294967295 := rfl
  have hcaple : capacity - 1 < NO_INDEX := by omega
  have hcapNO : capacity < NO_INDEX := by
    obtain ⟨p', hp'⟩ : ∃ p', p = p' + 1 := ⟨p - 1, by omega⟩
    obtain ⟨q, hq⟩ : ∃ q, capacity = 2 * q :=
      ⟨2 ^ p', by rw [hp, hp', pow_succ]; ring⟩
    rw [hNOval] at hcaple ⊢
    omega
  have hUval : U32MOD = 4294967296 := rfl
  have hhtc : get_hash_table_capacity capacity speed = capacity * 2 ^ speed := by
    rw [get_hash_table_capacity, Nat.shiftLeft_eq]
  have hsp1 : 1 ≤ speed := by omega
  have h2cap : 2 * capacity ≤ get_hash_table_capacity capacity speed := by
    rw [hhtc]
    have h2s : 2 ≤ 2 ^ speed := by
      calc (2 : Nat) = 2 ^ 1 := by norm_num
      _ ≤ 2 ^ speed := Nat.pow_le_pow_right (by norm_num) hsp1
    calc 2 * capacity = capacity * 2 := by ring
    _ ≤ capacity * 2 ^ speed := Nat.mul_le_mul_left capacity h2s
  rw [Except.ok.injEq] at h
  subst h
  set storage := (List.range capacity).map (fun i =>
    { ip := 0, prev_index := (i + (U32MOD - 1)) % U32MOD,
      next_index := i + 1, value := 0 : CElem }) with hstdef
  set storage1 := storage.set 0 { cGet storage 0 with prev_index := NO_INDEX }
    with hst1def
  set storage2 := storage1.set (capacity - 1)
    { cGet storage1 (capacity - 1) with next_index := NO_INDEX } with hst2def
  have hstlen : storage.length = capacity := by
    rw [hstdef, List.length_map, List.length_range]
  have hst1len : storage1.length = capacity := by
    rw [hst1def, List.length_set, hstlen]
  have hst2len : storage2.length = capacity := by
    rw [hst2def, List.length_set, hst1len]
  have hbase : ∀ j, j < capacity → cGet storage j =
      { ip := 0, prev_index := (j + (U32MOD - 1)) % U32MOD,
        next_index := j + 1, value := 0 } := by
    intro j hj
    rw [hstdef, cGet, List.getD_eq_getElem?_getD, List.getElem?_map,
      List.getElem?_range hj]
    rfl
  have hprevval : ∀ j, 1 ≤ j → j < capacity →
      (j + (U32MOD - 1)) % U32MOD = j - 1 := by
    intro j h1j hj
    have : j + (U32MOD - 1) = (j - 1) + U32MOD := by omega
    rw [this, Nat.add_mod_right, Nat.mod_eq_of_lt (by omega)]
  have hs20 : cGet storage2 0 =
      { ip := 0, prev_index := NO_INDEX, next_index := 1, value := 0 } := by
    rw [hst2def, cGet_set_ne _ _ _ _ (by omega : (0 : Nat) ≠ capacity - 1),
      hst1def, cGet_set_self _ _ _ (by omega), hbase 0 (by omega)]
  have hs2last : cGet storage2 (capacity - 1) =
      { ip := 0, prev_index := capacity - 1 - 1, next_index := NO_INDEX,
        value := 0 } := by
    rw [hst2def, cGet_set_self _ _ _ (by omega), hst1def,
      cGet_set_ne _ _ _ _ (by omega : capacity - 1 ≠ 0), hbase _ (by omega),
      hprevval _ (by omega) (by omega)]
  have hs2mid : ∀ j, 1 ≤ j → j < capacity - 1 → cGet storage2 j =
      { ip := 0, prev_index := j - 1, next_index := j + 1, value := 0 } := by
    intro j h1j hj
    rw [hst2def, cGet_set_ne _ _ _ _ (by omega : j ≠ capacity - 1), hst1def,
      cGet_set_ne _ _ _ _ (by omega : j ≠ 0), hbase j (by omega),
      hprevval j h1j (by omega)]
  have hchain : ∀ n a, 0 < a → a + n = capacity →
      chainSeg storage2 (a - 1) (List.range' a n) NO_INDEX := by
    intro n
    induction n with
    | zero => intro a _ _; exact trivial
    | succ n ihn =>
      intro a ha hacap
      rw [List.range'_succ, chainSeg_cons]
      have haval : (cGet storage2 a).prev_index = a - 1 ∧
          ((cGet storage2 a).next_index = if a = capacity - 1 then NO_INDEX
            else a + 1) := by
        by_cases hlast : a = capacity - 1
        · rw [hlast, hs2last, if_pos rfl]
          exact ⟨rfl, rfl⟩
        · rw [hs2mid a ha (by omega), if_neg hlast]
          exact ⟨rfl, rfl⟩
      refine ⟨haval.1, ?_, ?_⟩
      · cases n with
        | zero =>
          have : a = capacity - 1 := by omega
          rw [haval.2, if_pos this]
          rfl
        | succ n' =>
          rw [haval.2, if_neg (by omega), List.range'_succ]
          rfl
      · have := ihn (a + 1) (by omega) (by omega)
        rw [show a + 1 - 1 = a from by omega] at this
        exact this
  have hr : List.range capacity = 0 :: List.range' 1 (capacity - 1) := by
    rw [List.range_eq_range']
    conv_lhs => rw [show capacity = (capacity - 1) + 1 from by omega]
    rw [List.range'_succ]
  have hrlast : List.range capacity =
      List.range' 0 (capacity - 1) ++ [capacity - 1] := by
    rw [List.range_eq_range']
    conv_lhs => rw [show capacity = (capacity - 1) + 1 from by omega]
    rw [List.range'_concat]
    simp
  constructor
  · refine ⟨⟨trivial, rfl, rfl⟩, ⟨?_, ?_, ?_⟩, ?_, ?_, ?_, ?_, ?_, ?_,
      ⟨p + speed, ?_⟩, ?_, ?_, ?_, ?_, ?_, ?_, ?_⟩
    · -- free list chain
      rw [hr, chainSeg_cons]
      refine ⟨by rw [hs20], ?_, ?_⟩
      · rw [hs20]
        have : List.range' 1 (capacity - 1) =
            1 :: List.range' 2 (capacity - 2) := by
          rw [show capacity - 1 = (capacity - 2) + 1 from by omega,
            List.range'_succ]
        rw [this]
        rfl
      · have := hchain (capacity - 1) 1 (by omega) (by omega)
        simpa using this
    · -- free head
      rw [hr]
      rfl
    · -- free tail
      rw [hrlast, getLastD_concat_c]
    · -- nodup
      simp [List.nodup_range]
    · -- bounds
      intro j hj
      simp only [List.nil_append, List.mem_range] at hj
      exact hj
    · -- completeness
      intro j hj
      simp only [List.nil_append, List.mem_range]
      exact hj
    · exact hst2len
    · exact hcapNO
    · simp [List.length_range]
    · -- hash table length
      rw [List.length_replicate, hhtc, hp, ← pow_add]
    · -- mask
      rw [List.length_replicate]
    · -- half full
      rw [List.length_replicate]
      exact h2cap
    · -- htWF mem
      intro b hb hocc
      exact absurd (getD_replicate_no _ b) hocc
    · -- htWF surj
      intro m hm
      exact absurd hm (List.not_mem_nil m)
    · -- htWF inj
      intro b1 b2 _ _ _ hocc
      exact absurd (getD_replicate_no _ b1) hocc
    · -- distinct keys
      intro i1 i2 hi1 _ _
      exact absurd hi1 (List.not_mem_nil i1)
    · -- cluster
      intro b _ hocc
      exact absurd (getD_replicate_no _ b) hocc
  · exact ⟨rfl, rfl, hcap2⟩


theorem nodup_of_mid (A B : List Nat) (idx : Nat)
    (h : (A ++ idx :: B).Nodup) : (A ++ B).Nodup := by
  rw [List.nodup_append] at h ⊢
  obtain ⟨hA, hIB, hdisj⟩ := h
  exact ⟨hA, (List.nodup_cons.1 hIB).2,
    fun a haA hab => hdisj haA (List.mem_cons_of_mem idx hab)⟩


theorem perm_mid (A B : List Nat) (idx : Nat) :
    (A ++ idx :: B).Perm (idx :: (A ++ B)) := List.perm_middle


/- The existing-key branch of hm_cache_add: value overwrite, promotion to
   head, existed = true, no eviction, hash table and free list untouched,
   every other element ip/value unchanged. -/
theorem hm_cache_add_existing (c : HmCache) (A B F : List Nat) (idx v : Nat)
    (hWF : CacheWF c (A ++ idx :: B) F) :
    ∃ c', hm_cache_add c ((cGet c.list_storage idx).ip) v =
        some (c', true, false, none) ∧
      CacheWF c' (idx :: (A ++ B)) F ∧
      c'.hash_table = c.hash_table ∧ c'.free_nodes = c.free_nodes ∧
      c'.capacity = c.capacity ∧ c'.mask_for_hash = c.mask_for_hash ∧
      c'.list_storage.length = c.list_storage.length ∧
      c'.nodes.head_index = idx ∧
      (cGet c'.list_storage idx).ip = (cGet c.list_storage idx).ip ∧
      (cGet c'.list_storage idx).value = v ∧
      (∀ j, j ≠ idx → (cGet c'.list_storage j).ip = (cGet c.list_storage j).ip ∧
        (cGet c'.list_storage j).value = (cGet c.list_storage j).value) := by
  have hWF' := hWF
  obtain ⟨hL, hF, hnd, hbd, hcomp, hslen, hcap, hsum, hpow, hmask, h2cap, hht⟩ := hWF'
  set s := c.list_storage with hsdef
  have hidxL : idx ∈ A ++ idx :: B := by simp
  have hlook := table_lookup_found c (A ++ idx :: B) F idx hWF hidxL
  have hbdL : ∀ j ∈ A ++ idx :: B, j < s.length ∧ j ≠ NO_INDEX := by
    intro j hj
    have hjc := hbd j (List.mem_append_left F hj)
    exact ⟨by omega, Nat.ne_of_lt (lt_trans hjc hcap)⟩
  have hidxlt : idx < s.length := (hbdL idx hidxL).1
  have hidxNO : idx ≠ NO_INDEX := (hbdL idx hidxL).2
  have hndL : (A ++ idx :: B).Nodup := (List.nodup_append.1 hnd).1
  have hdisjLF : (A ++ idx :: B).Disjoint F := (List.nodup_append.1 hnd).2.2
  set s1 := s.set idx { cGet s idx with value := v } with hs1def
  have hs1len : s1.length = s.length := List.length_set s idx _
  have hs1links : ∀ j, (cGet s1 j).prev_index = (cGet s j).prev_index ∧
      (cGet s1 j).next_index = (cGet s j).next_index ∧
      (cGet s1 j).ip = (cGet s j).ip := by
    intro j
    by_cases hj : j = idx
    · rw [hj, hs1def, cGet_set_self s idx _ hidxlt]
      exact ⟨rfl, rfl, rfl⟩
    · rw [hs1def, cGet_set_ne s idx j _ hj]
      exact ⟨rfl, rfl, rfl⟩
  have hs1idxv : (cGet s1 idx).value = v := by
    rw [hs1def, cGet_set_self s idx _ hidxlt]
  have hL1 : listWF s1 c.nodes (A ++ idx :: B) :=
    listWF_congr_links s s1 c.nodes _
      (fun j _ => ⟨(hs1links j).1, (hs1links j).2.1⟩) hL
  have hbdL1 : ∀ j ∈ A ++ idx :: B, j < s1.length ∧ j ≠ NO_INDEX := by
    intro j hj
    exact ⟨by have := (hbdL j hj).1; omega, (hbdL j hj).2⟩
  obtain ⟨hcutWF, hcutPost, hcutPrev, hcutNext⟩ :=
    cut_spec s1 c.nodes A B idx hL1 hndL hbdL1
  have hnd2 : (A ++ B).Nodup := nodup_of_mid A B idx hndL
  have hmemAB : ∀ j ∈ A ++ B, j ∈ A ++ idx :: B := by
    intro j hj
    rcases List.mem_append.1 hj with h | h
    · exact List.mem_append_left _ h
    · exact List.mem_append_right _ (List.mem_cons_of_mem idx h)
  have hbd2 : ∀ j ∈ A ++ B, j < (cut s1 c.nodes idx).1.length ∧ j ≠ NO_INDEX := by
    intro j hj
    have := hbdL1 j (hmemAB j hj)
    have hl := hcutPost.1
    exact ⟨by omega, this.2⟩
  have hidxAB : idx ∉ A ++ B := by
    rw [List.nodup_append] at hndL
    intro hj
    rcases List.mem_append.1 hj with h | h
    · exact hndL.2.2 h (List.mem_cons_self idx B)
    · exact (List.nodup_cons.1 hndL.2.1).1 h
  obtain ⟨hshWF, hshPost⟩ := set_head_spec (cut s1 c.nodes idx).1
    (cut s1 c.nodes idx).2 (A ++ B) idx hcutWF hnd2 hbd2 hcutPrev hcutNext
    hidxAB (by have := hcutPost.1; omega)
  set s3 := (set_head (cut s1 c.nodes idx).1 (cut s1 c.nodes idx).2 idx).1
    with hs3def
  set l3 := (set_head (cut s1 c.nodes idx).1 (cut s1 c.nodes idx).2 idx).2
    with hl3def
  have hs3len : s3.length = s.length := by
    have h1 := hshPost.1
    have h2 := hcutPost.1
    omega
  have hs3ipval : ∀ j, (cGet s3 j).ip = (cGet s j).ip ∧
      (cGet s3 j).value = (cGet s1 j).value := by
    intro j
    have h1 := (hshPost.2.1 j)
    have h2 := (hcutPost.2.1 j)
    exact ⟨h1.1.trans (h2.1.trans (hs1links j).2.2), h1.2.trans h2.2⟩
  have hFrame : ∀ j ∈ F, cGet s3 j = cGet s j := by
    intro j hj
    have hjL : j ∉ A ++ idx :: B := fun hh => hdisjLF hh hj
    have hjidx : j ≠ idx := fun hh => hjL (hh ▸ hidxL)
    have h1 : cGet s1 j = cGet s j := by
      rw [hs1def]
      exact cGet_set_ne s idx j _ hjidx
    have h2 := hcutPost.2.2 j hjL
    have h3 := hshPost.2.2 j (by
      intro hh
      rcases List.mem_cons.1 hh with h | h
      · exact hjidx h
      · exact hjL (hmemAB j h))
    rw [h3, h2, h1]
  have hperm : ((A ++ idx :: B) ++ F).Perm ((idx :: (A ++ B)) ++ F) :=
    (perm_mid A B idx).append_right F
  refine ⟨{ c with list_storage := s3, nodes := l3 }, ?_, ?_, rfl, rfl, rfl,
    rfl, hs3len, ?_, ?_, ?_, ?_⟩
  · -- the call equation
    rw [hm_cache_add, hlook]
    simp only [Option.bind_eq_bind, Option.some_bind]
    rw [if_pos hidxNO]
  · -- CacheWF
    refine ⟨hshWF, ?_, ?_, ?_, ?_, hs3len.trans hslen, hcap, ?_, hpow, hmask,
      h2cap, ?_⟩
    · exact listWF_congr_links s s3 c.free_nodes F
        (fun j hj => by rw [hFrame j hj]; exact ⟨rfl, rfl⟩) hF
    · exact hperm.nodup_iff.1 hnd
    · intro j hj
      exact hbd j (hperm.mem_iff.2 hj)
    · intro j hj
      exact hperm.mem_iff.1 (hcomp j hj)
    · have hlen3 : (idx :: (A ++ B)).length = (A ++ idx :: B).length := by
        simp only [List.length_cons, List.length_append]
        omega
      show (idx :: (A ++ B)).length + F.length = c.capacity
      omega
    · refine htWF_mem_congr _ _ _ _ _ (fun m => (perm_mid A B idx).mem_iff) ?_
      exact htWF_congr_ips c.hash_table s s3 c.mask_for_hash _
        (fun j _ => (hs3ipval j).1) hht
  · -- head index
    exact hshWF.2.1
  · exact (hs3ipval idx).1
  · exact (hs3ipval idx).2.trans hs1idxv
  · intro j hj
    refine ⟨(hs3ipval j).1, (hs3ipval j).2.trans ?_⟩
    rw [hs1def]
    rw [cGet_set_ne s idx j _ hj]


/- The hit branch of hm_cache_has: promotion to head, returns the stored
   value, nothing else changes. -/
theorem hm_cache_has_hit (c : HmCache) (A B F : List Nat) (idx : Nat)
    (hWF : CacheWF c (A ++ idx :: B) F) :
    ∃ c', hm_cache_has c ((cGet c.list_storage idx).ip) =
        some (c', true, some ((cGet c'.list_storage idx).value)) ∧
      (cGet c'.list_storage idx).value = (cGet c.list_storage idx).value ∧
      (cGet c'.list_storage idx).ip = (cGet c.list_storage idx).ip ∧
      CacheWF c' (idx :: (A ++ B)) F ∧
      c'.hash_table = c.hash_table ∧ c'.free_nodes = c.free_nodes ∧
      c'.capacity = c.capacity ∧ c'.mask_for_hash = c.mask_for_hash ∧
      c'.list_storage.length = c.list_storage.length ∧
      c'.nodes.head_index = idx ∧
      (∀ j, (cGet c'.list_storage j).ip = (cGet c.list_storage j).ip ∧
        (cGet c'.list_storage j).value = (cGet c.list_storage j).value) := by
  have hWF' := hWF
  obtain ⟨hL, hF, hnd, hbd, hcomp, hslen, hcap, hsum, hpow, hmask, h2cap, hht⟩ := hWF'
  set s := c.list_storage with hsdef
  have hidxL : idx ∈ A ++ idx :: B := by simp
  have hlook := table_lookup_found c (A ++ idx :: B) F idx hWF hidxL
  have hbdL : ∀ j ∈ A ++ idx :: B, j < s.length ∧ j ≠ NO_INDEX := by
    intro j hj
    have hjc := hbd j (List.mem_append_left F hj)
    exact ⟨by omega, Nat.ne_of_lt (lt_trans hjc hcap)⟩
  have hidxlt : idx < s.length := (hbdL idx hidxL).1
  have hidxNO : idx ≠ NO_INDEX := (hbdL idx hidxL).2
  have hndL : (A ++ idx :: B).Nodup := (List.nodup_append.1 hnd).1
  have hdisjLF : (A ++ idx :: B).Disjoint F := (List.nodup_append.1 hnd).2.2
  obtain ⟨hcutWF, hcutPost, hcutPrev, hcutNext⟩ :=
    cut_spec s c.nodes A B idx hL hndL hbdL
  have hnd2 : (A ++ B).Nodup := nodup_of_mid A B idx hndL
  have hmemAB : ∀ j ∈ A ++ B, j ∈ A ++ idx :: B := by
    intro j hj
    rcases List.mem_append.1 hj with h | h
    · exact List.mem_append_left _ h
    · exact List.mem_append_right _ (List.mem_cons_of_mem idx h)
  have hbd2 : ∀ j ∈ A ++ B, j < (cut s c.nodes idx).1.length ∧ j ≠ NO_INDEX := by
    intro j hj
    have := hbdL j (hmemAB j hj)
    have hl := hcutPost.1
    exact ⟨by omega, this.2⟩
  have hidxAB : idx ∉ A ++ B := by
    rw [List.nodup_append] at hndL
    intro hj
    rcases List.mem_append.1 hj with h | h
    · exact hndL.2.2 h (List.mem_cons_self idx B)
    · exact (List.nodup_cons.1 hndL.2.1).1 h
  obtain ⟨hshWF, hshPost⟩ := set_head_spec (cut s c.nodes idx).1
    (cut s c.nodes idx).2 (A ++ B) idx hcutWF hnd2 hbd2 hcutPrev hcutNext
    hidxAB (by have := hcutPost.1; omega)
  set s3 := (set_head (cut s c.nodes idx).1 (cut s c.nodes idx).2 idx).1
    with hs3def
  set l3 := (set_head (cut s c.nodes idx).1 (cut s c.nodes idx).2 idx).2
    with hl3def
  have hs3len : s3.length = s.length := by
    have h1 := hshPost.1
    have h2 := hcutPost.1
    omega
  have hs3ipval : ∀ j, (cGet s3 j).ip = (cGet s j).ip ∧
      (cGet s3 j).value = (cGet s j).value := by
    intro j
    have h1 := (hshPost.2.1 j)
    have h2 := (hcutPost.2.1 j)
    exact ⟨h1.1.trans h2.1, h1.2.trans h2.2⟩
  have hFrame : ∀ j ∈ F, cGet s3 j = cGet s j := by
    intro j hj
    have hjL : j ∉ A ++ idx :: B := fun hh => hdisjLF hh hj
    have hjidx : j ≠ idx := fun hh => hjL (hh ▸ hidxL)
    have h2 := hcutPost.2.2 j hjL
    have h3 := hshPost.2.2 j (by
      intro hh
      rcases List.mem_cons.1 hh with h | h
      · exact hjidx h
      · exact hjL (hmemAB j h))
    rw [h3, h2]
  have hperm : ((A ++ idx :: B) ++ F).Perm ((idx :: (A ++ B)) ++ F) :=
    (perm_mid A B idx).append_right F
  refine ⟨{ c with list_storage := s3, nodes := l3 }, ?_, (hs3ipval idx).2,
    (hs3ipval idx).1, ?_, rfl, rfl, rfl, rfl, hs3len, ?_, ?_⟩
  · -- the call equation
    rw [hm_cache_has, hlook]
    simp only [Option.bind_eq_bind, Option.some_bind]
    rw [if_neg hidxNO]
  · -- CacheWF
    refine ⟨hshWF, ?_, ?_, ?_, ?_, hs3len.trans hslen, hcap, ?_, hpow, hmask,
      h2cap, ?_⟩
    · exact listWF_congr_links s s3 c.free_nodes F
        (fun j hj => by rw [hFrame j hj]; exact ⟨rfl, rfl⟩) hF
    · exact hperm.nodup_iff.1 hnd
    · intro j hj
      exact hbd j (hperm.mem_iff.2 hj)
    · intro j hj
      exact hperm.mem_iff.1 (hcomp j hj)
    · have hlen3 : (idx :: (A ++ B)).length = (A ++ idx :: B).length := by
        simp only [List.length_cons, List.length_append]
        omega
      show (idx :: (A ++ B)).length + F.length = c.capacity
      omega
    · refine htWF_mem_congr _ _ _ _ _ (fun m => (perm_mid A B idx).mem_iff) ?_
      exact htWF_congr_ips c.hash_table s s3 c.mask_for_hash _
        (fun j _ => (hs3ipval j).1) hht
  · exact hshWF.2.1
  · exact hs3ipval


theorem hm_cache_has_miss (c : HmCache) (L F : List Nat) (ip : Nat)
    (hWF : CacheWF c L F)
    (hfresh : ∀ i ∈ L, (cGet c.list_storage i).ip ≠ ip) :
    hm_cache_has c ip = some (c, false, none) := by
  have hlook := table_lookup_fresh c L F ip hWF hfresh
  rw [hm_cache_has, hlook]
  simp only [Option.bind_eq_bind, Option.some_bind]
  simp


theorem hm_cache_remove_miss (c : HmCache) (L F : List Nat) (ip : Nat)
    (hWF : CacheWF c L F)
    (hfresh : ∀ i ∈ L, (cGet c.list_storage i).ip ≠ ip) :
    hm_cache_remove c ip = some (c, false, none) := by
  have hlook := table_lookup_fresh c L F ip hWF hfresh
  rw [hm_cache_remove, hlook]
  simp only [Option.bind_eq_bind, Option.some_bind]
  simp


theorem erase_mid (A B : List Nat) (idx : Nat) (h : (A ++ idx :: B).Nodup) :
    (A ++ idx :: B).erase idx = A ++ B := by
  rw [List.nodup_append] at h
  have hA : idx ∉ A := fun hh => h.2.2 hh (List.mem_cons_self idx B)
  rw [List.erase_append_right (idx :: B) hA, List.erase_cons_head]


/- The present-key branch of hm_cache_remove: the element moves to the free
   list, its table entry is deleted (with repair), the stored value is
   returned. -/
theorem hm_cache_remove_present (c : HmCache) (A B F : List Nat) (idx : Nat)
    (hWF : CacheWF c (A ++ idx :: B) F) :
    ∃ c', hm_cache_remove c ((cGet c.list_storage idx).ip) =
        some (c', true, some ((cGet c.list_storage idx).value)) ∧
      CacheWF c' (A ++ B) (idx :: F) ∧
      c'.capacity = c.capacity ∧ c'.mask_for_hash = c.mask_for_hash ∧
      c'.list_storage.length = c.list_storage.length ∧
      (∀ j, (cGet c'.list_storage j).ip = (cGet c.list_storage j).ip ∧
        (cGet c'.list_storage j).value = (cGet c.list_storage j).value) := by
  have hWF' := hWF
  obtain ⟨hL, hF, hnd, hbd, hcomp, hslen, hcap, hsum, hpow, hmask, h2cap, hht⟩ := hWF'
  obtain ⟨kk, hkk⟩ := hpow
  have hidxL : idx ∈ A ++ idx :: B := by simp
  have hlook := table_lookup_found c (A ++ idx :: B) F idx hWF hidxL
  have hbdL : ∀ j ∈ A ++ idx :: B, j < c.list_storage.length ∧ j ≠ NO_INDEX := by
    intro j hj
    have hjc := hbd j (List.mem_append_left F hj)
    exact ⟨by omega, Nat.ne_of_lt (lt_trans hjc hcap)⟩
  have hbdF : ∀ j ∈ F, j < c.list_storage.length ∧ j ≠ NO_INDEX := by
    intro j hj
    have hjc := hbd j (List.mem_append_right _ hj)
    exact ⟨by omega, Nat.ne_of_lt (lt_trans hjc hcap)⟩
  have hidxlt : idx < c.list_storage.length := (hbdL idx hidxL).1
  have hidxNO : idx ≠ NO_INDEX := (hbdL idx hidxL).2
  have hndL : (A ++ idx :: B).Nodup := (List.nodup_append.1 hnd).1
  have hndF : F.Nodup := (List.nodup_append.1 hnd).2.1
  have hdisjLF : (A ++ idx :: B).Disjoint F := (List.nodup_append.1 hnd).2.2
  obtain ⟨hcutWF, hcutPost, hcutPrev, hcutNext⟩ :=
    cut_spec c.list_storage c.nodes A B idx hL hndL hbdL
  have hmemAB : ∀ j ∈ A ++ B, j ∈ A ++ idx :: B := by
    intro j hj
    rcases List.mem_append.1 hj with h | h
    · exact List.mem_append_left _ h
    · exact List.mem_append_right _ (List.mem_cons_of_mem idx h)
  have hidxAB : idx ∉ A ++ B := by
    rw [List.nodup_append] at hndL
    intro hj
    rcases List.mem_append.1 hj with h | h
    · exact hndL.2.2 h (List.mem_cons_self idx B)
    · exact (List.nodup_cons.1 hndL.2.1).1 h
  have hFcut : listWF (cut c.list_storage c.nodes idx).1 c.free_nodes F := by
    refine ⟨chainSeg_congr _ _ _ _ _ ?_ hF.1, hF.2.1, hF.2.2⟩
    intro j hj
    exact hcutPost.2.2 j (fun hh => hdisjLF hh hj)
  have hbdF2 : ∀ j ∈ F, j < (cut c.list_storage c.nodes idx).1.length ∧
      j ≠ NO_INDEX := by
    intro j hj
    have := hbdF j hj
    have hl := hcutPost.1
    exact ⟨by omega, this.2⟩
  have hidxF : idx ∉ F := fun hh => hdisjLF hidxL hh
  obtain ⟨hshWF, hshPost⟩ := set_head_spec (cut c.list_storage c.nodes idx).1
    c.free_nodes F idx hFcut hndF hbdF2 hcutPrev hcutNext hidxF
    (by have := hcutPost.1; omega)
  have hs3len :
      (set_head (cut c.list_storage c.nodes idx).1 c.free_nodes idx).1.length =
      c.list_storage.length := by
    have h1 := hshPost.1
    have h2 := hcutPost.1
    omega
  have hs3ipval : ∀ j,
      (cGet (set_head (cut c.list_storage c.nodes idx).1 c.free_nodes idx).1 j).ip =
        (cGet c.list_storage j).ip ∧
      (cGet (set_head (cut c.list_storage c.nodes idx).1 c.free_nodes idx).1 j).value =
        (cGet c.list_storage j).value := by
    intro j
    have h1 := (hshPost.2.1 j)
    have h2 := (hcutPost.2.1 j)
    exact ⟨h1.1.trans h2.1, h1.2.trans h2.2⟩
  have hnodes3 : listWF
      (set_head (cut c.list_storage c.nodes idx).1 c.free_nodes idx).1
      (cut c.list_storage c.nodes idx).2 (A ++ B) := by
    refine ⟨chainSeg_congr _ _ _ _ _ ?_ hcutWF.1, hcutWF.2.1, hcutWF.2.2⟩
    intro j hj
    refine hshPost.2.2 j ?_
    intro hh
    rcases List.mem_cons.1 hh with h | h
    · exact hidxAB (h ▸ hj)
    · exact hdisjLF (hmemAB j hj) h
  have hLlen : (A ++ idx :: B).length < c.hash_table.length := by
    have hpos : 0 < c.hash_table.length := by
      rw [hkk]; exact pow2_pos kk
    omega
  have hLNO : ∀ i ∈ A ++ idx :: B, i ≠ NO_INDEX := fun i hi => (hbdL i hi).2
  obtain ⟨ht2, hdeleq, hdellen, hdelht⟩ := table_delete_spec
    { c with
      list_storage := (set_head (cut c.list_storage c.nodes idx).1 c.free_nodes idx).1,
      nodes := (cut c.list_storage c.nodes idx).2,
      free_nodes := (set_head (cut c.list_storage c.nodes idx).1 c.free_nodes idx).2 }
    (A ++ idx :: B) idx kk hkk hmask
    (htWF_congr_ips c.hash_table c.list_storage _ c.mask_for_hash _
      (fun j _ => (hs3ipval j).1) hht)
    hLlen hndL hLNO hidxL
  have harg : (cGet ({ c with
      list_storage := (set_head (cut c.list_storage c.nodes idx).1 c.free_nodes idx).1,
      nodes := (cut c.list_storage c.nodes idx).2,
      free_nodes := (set_head (cut c.list_storage c.nodes idx).1 c.free_nodes idx).2 } :
        HmCache).list_storage idx).ip = (cGet c.list_storage idx).ip :=
    (hs3ipval idx).1
  rw [harg] at hdeleq
  rw [erase_mid A B idx hndL] at hdelht
  refine ⟨{ c with
      list_storage := (set_head (cut c.list_storage c.nodes idx).1 c.free_nodes idx).1,
      nodes := (cut c.list_storage c.nodes idx).2,
      free_nodes := (set_head (cut c.list_storage c.nodes idx).1 c.free_nodes idx).2,
      hash_table := ht2 }, ?_, ?_, rfl, rfl, hs3len, fun j => hs3ipval j⟩
  · -- the call equation
    rw [hm_cache_remove, hlook]
    simp only [Option.bind_eq_bind, Option.some_bind]
    rw [if_neg hidxNO, hdeleq]
    simp only [Option.some_bind]
  · -- CacheWF
    have hpermR : ((A ++ idx :: B) ++ F).Perm ((A ++ B) ++ idx :: F) :=
      ((perm_mid A B idx).append_right F).trans
        (@List.perm_middle ℕ idx (A ++ B) F).symm
    refine ⟨hnodes3, hshWF, ?_, ?_, ?_, hs3len.trans hslen, hcap, ?_,
      ⟨kk, hdellen.trans hkk⟩, ?_, ?_, hdelht⟩
    · exact hpermR.nodup_iff.1 hnd
    · intro j hj
      exact hbd j (hpermR.mem_iff.2 hj)
    · intro j hj
      exact hpermR.mem_iff.1 (hcomp j hj)
    · have hlen3 : (A ++ B).length + (idx :: F).length =
          (A ++ idx :: B).length + F.length := by
        simp only [List.length_cons, List.length_append]
        omega
      show (A ++ B).length + (idx :: F).length = c.capacity
      omega
    · show c.mask_for_hash = ht2.length - 1
      rw [hmask, hdellen]
    · show 2 * c.capacity ≤ ht2.length
      rw [hdellen]
      exact h2cap


/- The fresh-key, free-list-nonempty branch of hm_cache_add. -/
theorem hm_cache_add_fresh (c : HmCache) (L F' : List Nat) (f ip v : Nat)
    (hWF : CacheWF c L (f :: F'))
    (hfresh : ∀ i ∈ L, (cGet c.list_storage i).ip ≠ ip) :
    ∃ c', hm_cache_add c ip v = some (c', false, false, none) ∧
      CacheWF c' (f :: L) F' ∧
      c'.capacity = c.capacity ∧ c'.mask_for_hash = c.mask_for_hash ∧
      c'.list_storage.length = c.list_storage.length ∧
      (cGet c'.list_storage f).ip = ip ∧ (cGet c'.list_storage f).value = v ∧
      (∀ j, j ≠ f → (cGet c'.list_storage j).ip = (cGet c.list_storage j).ip ∧
        (cGet c'.list_storage j).value = (cGet c.list_storage j).value) ∧
      c'.nodes.head_index = f := by
  have hWF' := hWF
  obtain ⟨hL, hF, hnd, hbd, hcomp, hslen, hcap, hsum, hpow, hmask, h2cap, hht⟩ := hWF'
  obtain ⟨kk, hkk⟩ := hpow
  have hlook := table_lookup_fresh c L (f :: F') ip hWF hfresh
  have hfF : f ∈ f :: F' := List.mem_cons_self f F'
  have hbdF : ∀ j ∈ f :: F', j < c.list_storage.length ∧ j ≠ NO_INDEX := by
    intro j hj
    have hjc := hbd j (List.mem_append_right _ hj)
    exact ⟨by omega, Nat.ne_of_lt (lt_trans hjc hcap)⟩
  have hbdL : ∀ j ∈ L, j < c.list_storage.length ∧ j ≠ NO_INDEX := by
    intro j hj
    have hjc := hbd j (List.mem_append_left _ hj)
    exact ⟨by omega, Nat.ne_of_lt (lt_trans hjc hcap)⟩
  have hflt : f < c.list_storage.length := (hbdF f hfF).1
  have hfNO : f ≠ NO_INDEX := (hbdF f hfF).2
  have hndL : L.Nodup := (List.nodup_append.1 hnd).1
  have hndF : (f :: F').Nodup := (List.nodup_append.1 hnd).2.1
  have hdisjLF : L.Disjoint (f :: F') := (List.nodup_append.1 hnd).2.2
  have hfhead : c.free_nodes.head_index = f := hF.2.1
  have hfL : f ∉ L := fun hh => hdisjLF hh hfF
  obtain ⟨hcutWF, hcutPost, hcutPrev, hcutNext⟩ :=
    cut_spec c.list_storage c.free_nodes [] F' f hF hndF hbdF
  have hnodes2 : listWF (cut c.list_storage c.free_nodes f).1 c.nodes L := by
    refine ⟨chainSeg_congr _ _ _ _ _ ?_ hL.1, hL.2.1, hL.2.2⟩
    intro j hj
    exact hcutPost.2.2 j (fun hh => hdisjLF hj hh)
  have hbdL2 : ∀ j ∈ L, j < (cut c.list_storage c.free_nodes f).1.length ∧
      j ≠ NO_INDEX := by
    intro j hj
    have := hbdL j hj
    have hl := hcutPost.1
    exact ⟨by omega, this.2⟩
  obtain ⟨hshWF, hshPost⟩ := set_head_spec (cut c.list_storage c.free_nodes f).1
    c.nodes L f hnodes2 hndL hbdL2 hcutPrev hcutNext hfL
    (by have := hcutPost.1; omega)
  have hs3len :
      (set_head (cut c.list_storage c.free_nodes f).1 c.nodes f).1.length =
      c.list_storage.length := by
    have h1 := hshPost.1
    have h2 := hcutPost.1
    omega
  have hs3ipval : ∀ j,
      (cGet (set_head (cut c.list_storage c.free_nodes f).1 c.nodes f).1 j).ip =
        (cGet c.list_storage j).ip ∧
      (cGet (set_head (cut c.list_storage c.free_nodes f).1 c.nodes f).1 j).value =
        (cGet c.list_storage j).value := by
    intro j
    have h1 := (hshPost.2.1 j)
    have h2 := (hcutPost.2.1 j)
    exact ⟨h1.1.trans h2.1, h1.2.trans h2.2⟩
  set s3 := (set_head (cut c.list_storage c.free_nodes f).1 c.nodes f).1 with hs3def
  set s4 := s3.set f { cGet s3 f with ip := ip, value := v } with hs4def
  have hs4len : s4.length = c.list_storage.length := by
    rw [hs4def, List.length_set]
    exact hs3len
  have hs4f : cGet s4 f = { cGet s3 f with ip := ip, value := v } := by
    rw [hs4def]
    exact cGet_set_self s3 f _ (by omega)
  have hs4o : ∀ j, j ≠ f → cGet s4 j = cGet s3 j := by
    intro j hj
    rw [hs4def]
    exact cGet_set_ne s3 f j _ hj
  have hs4links : ∀ j, (cGet s4 j).prev_index = (cGet s3 j).prev_index ∧
      (cGet s4 j).next_index = (cGet s3 j).next_index := by
    intro j
    by_cases hj : j = f
    · rw [hj, hs4f]
      exact ⟨rfl, rfl⟩
    · rw [hs4o j hj]
      exact ⟨rfl, rfl⟩
  have hnodes4 : listWF s4
      (set_head (cut c.list_storage c.free_nodes f).1 c.nodes f).2 (f :: L) :=
    listWF_congr_links s3 s4 _ _ (fun j _ => hs4links j) hshWF
  have hfree4 : listWF s4 (cut c.list_storage c.free_nodes f).2 F' := by
    have hc : listWF (cut c.list_storage c.free_nodes f).1
        (cut c.list_storage c.free_nodes f).2 F' := by
      have := hcutWF
      simpa using this
    refine ⟨chainSeg_congr _ _ _ _ _ ?_ hc.1, hc.2.1, hc.2.2⟩
    intro j hj
    have hjf : j ≠ f := fun hh => (List.nodup_cons.1 hndF).1 (hh ▸ hj)
    have hjL : j ∉ L := fun hh => hdisjLF hh (List.mem_cons_of_mem f hj)
    rw [hs4o j hjf]
    rw [hs3def]
    exact hshPost.2.2 j (by
      intro hh
      rcases List.mem_cons.1 hh with h | h
      · exact hjf h
      · exact hjL h)
  -- table_add on the new element
  have hht4 : htWF c.hash_table s4 c.mask_for_hash L := by
    refine htWF_congr_ips c.hash_table c.list_storage s4 c.mask_for_hash L ?_ hht
    intro j hj
    have hjf : j ≠ f := fun hh => hfL (hh ▸ hj)
    rw [hs4o j hjf]
    exact (hs3ipval j).1
  have hLlt : L.length < c.hash_table.length := by
    have hpos : 0 < c.hash_table.length := by
      rw [hkk]; exact pow2_pos kk
    have : (f :: F').length = F'.length + 1 := by simp
    omega
  have hLNO : ∀ i ∈ L, i ≠ NO_INDEX := fun i hi => (hbdL i hi).2
  have hfresh4 : ∀ i ∈ L, (cGet s4 i).ip ≠ (cGet s4 f).ip := by
    intro i hi
    have hif : i ≠ f := fun hh => hfL (hh ▸ hi)
    rw [hs4o i hif, hs4f]
    have := (hs3ipval i).1
    rw [this]
    exact hfresh i hi
  obtain ⟨b', hb'lt, hb'emp, haddeq, haddht⟩ := table_add_spec
    { c with
      list_storage := s4,
      free_nodes := (cut c.list_storage c.free_nodes f).2,
      nodes := (set_head (cut c.list_storage c.free_nodes f).1 c.nodes f).2 }
    L f kk hkk hmask hht4 hLlt hndL hLNO hfNO hfresh4
  have harg : (cGet ({ c with
      list_storage := s4,
      free_nodes := (cut c.list_storage c.free_nodes f).2,
      nodes := (set_head (cut c.list_storage c.free_nodes f).1 c.nodes f).2 } :
        HmCache).list_storage f).ip = ip := by
    show (cGet s4 f).ip = ip
    rw [hs4f]
  rw [harg] at haddeq
  refine ⟨{ c with
      list_storage := s4,
      free_nodes := (cut c.list_storage c.free_nodes f).2,
      nodes := (set_head (cut c.list_storage c.free_nodes f).1 c.nodes f).2,
      hash_table := c.hash_table.set b' f }, ?_, ?_, rfl, rfl, hs4len, ?_, ?_,
      ?_, ?_⟩
  · -- the call equation
    rw [hm_cache_add, hlook]
    simp only [Option.bind_eq_bind, Option.some_bind]
    rw [if_neg (fun hh => hh rfl), hfhead, if_neg hfNO, haddeq]
    rfl
  · -- CacheWF
    have hperm : (L ++ f :: F').Perm ((f :: L) ++ F') :=
      @List.perm_middle ℕ f L F'
    refine ⟨hnodes4, hfree4, ?_, ?_, ?_, hs4len.trans hslen, hcap, ?_,
      ⟨kk, by rw [List.length_set]; exact hkk⟩, ?_, ?_, haddht⟩
    · exact hperm.nodup_iff.1 hnd
    · intro j hj
      exact hbd j (hperm.mem_iff.2 hj)
    · intro j hj
      exact hperm.mem_iff.1 (hcomp j hj)
    · have : (f :: F').length = F'.length + 1 := by simp
      show (f :: L).length + F'.length = c.capacity
      simp only [List.length_cons]
      omega
    · show c.mask_for_hash = (c.hash_table.set b' f).length - 1
      rw [List.length_set]
      exact hmask
    · show 2 * c.capacity ≤ (c.hash_table.set b' f).length
      rw [List.length_set]
      exact h2cap
  · show (cGet s4 f).ip = ip
    rw [hs4f]
  · show (cGet s4 f).value = v
    rw [hs4f]
  · intro j hj
    show (cGet s4 j).ip = (cGet c.list_storage j).ip ∧
      (cGet s4 j).value = (cGet c.list_storage j).value
    rw [hs4o j hj]
    exact hs3ipval j
  · exact hnodes4.2.1


/- The fresh-key, full-cache branch of hm_cache_add: the LRU tail t is
   evicted (hash-table delete with repair, unlink), the new key takes its
   element, and the old (ip, value) pair is reported. -/
theorem hm_cache_add_evict (c : HmCache) (A : List Nat) (t ip v : Nat)
    (hWF : CacheWF c (A ++ [t]) [])
    (hfresh : ∀ i ∈ A ++ [t], (cGet c.list_storage i).ip ≠ ip) :
    ∃ c', hm_cache_add c ip v = some (c', false, true,
        some ((cGet c.list_storage t).ip, (cGet c.list_storage t).value)) ∧
      CacheWF c' (t :: A) [] ∧
      c'.capacity = c.capacity ∧ c'.mask_for_hash = c.mask_for_hash ∧
      c'.list_storage.length = c.list_storage.length ∧
      (cGet c'.list_storage t).ip = ip ∧ (cGet c'.list_storage t).value = v ∧
      (∀ j, j ≠ t → (cGet c'.list_storage j).ip = (cGet c.list_storage j).ip ∧
        (cGet c'.list_storage j).value = (cGet c.list_storage j).value) ∧
      c'.nodes.head_index = t := by
  have hWF' := hWF
  obtain ⟨hL, hF, hnd, hbd, hcomp, hslen, hcap, hsum, hpow, hmask, h2cap, hht⟩ := hWF'
  obtain ⟨kk, hkk⟩ := hpow
  have hlook := table_lookup_fresh c (A ++ [t]) [] ip hWF hfresh
  have htmem : t ∈ A ++ [t] := by simp
  have hbdL : ∀ j ∈ A ++ [t], j < c.list_storage.length ∧ j ≠ NO_INDEX := by
    intro j hj
    have hjc := hbd j (List.mem_append_left _ hj)
    exact ⟨by omega, Nat.ne_of_lt (lt_trans hjc hcap)⟩
  have htlt : t < c.list_storage.length := (hbdL t htmem).1
  have htNO : t ≠ NO_INDEX := (hbdL t htmem).2
  have hndL : (A ++ [t]).Nodup := (List.nodup_append.1 hnd).1
  have hfreeNO : c.free_nodes.head_index = NO_INDEX := hF.2.1
  have htail : c.nodes.tail_index = t :=
    hL.2.2.trans (getLastD_concat_c A t NO_INDEX)
  have htA : t ∉ A := by
    rw [List.nodup_append] at hndL
    exact fun hh => hndL.2.2 hh (List.mem_cons_self t [])
  -- delete the tail's key from the hash table
  have hLlen : (A ++ [t]).length < c.hash_table.length := by
    have hpos : 0 < c.hash_table.length := by
      rw [hkk]; exact pow2_pos kk
    omega
  have hLNO : ∀ i ∈ A ++ [t], i ≠ NO_INDEX := fun i hi => (hbdL i hi).2
  obtain ⟨ht2, hdeleq, hdellen, hdelht⟩ := table_delete_spec c (A ++ [t]) t kk
    hkk hmask hht hLlen hndL hLNO htmem
  have herase : (A ++ [t]).erase t = A := by
    have := erase_mid A [] t hndL
    simpa using this
  rw [herase] at hdelht
  -- unlink t (the storage and nodes of the deleted cache are those of c)
  obtain ⟨hcutWF, hcutPost, hcutPrev, hcutNext⟩ :=
    cut_spec c.list_storage c.nodes A [] t hL hndL hbdL
  have hcutA : listWF (cut c.list_storage c.nodes t).1
      (cut c.list_storage c.nodes t).2 A := by
    have := hcutWF
    simpa using this
  have hbdA : ∀ j ∈ A, j < (cut c.list_storage c.nodes t).1.length ∧
      j ≠ NO_INDEX := by
    intro j hj
    have := hbdL j (List.mem_append_left _ hj)
    have hl := hcutPost.1
    exact ⟨by omega, this.2⟩
  have hndA : A.Nodup := (List.nodup_append.1 hndL).1
  obtain ⟨hshWF, hshPost⟩ := set_head_spec (cut c.list_storage c.nodes t).1
    (cut c.list_storage c.nodes t).2 A t hcutA hndA hbdA hcutPrev hcutNext htA
    (by have := hcutPost.1; omega)
  have hs3len :
      (set_head (cut c.list_storage c.nodes t).1 (cut c.list_storage c.nodes t).2 t).1.length =
      c.list_storage.length := by
    have h1 := hshPost.1
    have h2 := hcutPost.1
    omega
  have hs3ipval : ∀ j,
      (cGet (set_head (cut c.list_storage c.nodes t).1 (cut c.list_storage c.nodes t).2 t).1 j).ip =
        (cGet c.list_storage j).ip ∧
      (cGet (set_head (cut c.list_storage c.nodes t).1 (cut c.list_storage c.nodes t).2 t).1 j).value =
        (cGet c.list_storage j).value := by
    intro j
    have h1 := (hshPost.2.1 j)
    have h2 := (hcutPost.2.1 j)
    exact ⟨h1.1.trans h2.1, h1.2.trans h2.2⟩
  set s3 := (set_head (cut c.list_storage c.nodes t).1 (cut c.list_storage c.nodes t).2 t).1
    with hs3def
  set s4 := s3.set t { cGet s3 t with ip := ip, value := v } with hs4def
  have hs4len : s4.length = c.list_storage.length := by
    rw [hs4def, List.length_set]
    exact hs3len
  have hs4t : cGet s4 t = { cGet s3 t with ip := ip, value := v } := by
    rw [hs4def]
    exact cGet_set_self s3 t _ (by omega)
  have hs4o : ∀ j, j ≠ t → cGet s4 j = cGet s3 j := by
    intro j hj
    rw [hs4def]
    exact cGet_set_ne s3 t j _ hj
  have hs4links : ∀ j, (cGet s4 j).prev_index = (cGet s3 j).prev_index ∧
      (cGet s4 j).next_index = (cGet s3 j).next_index := by
    intro j
    by_cases hj : j = t
    · rw [hj, hs4t]
      exact ⟨rfl, rfl⟩
    · rw [hs4o j hj]
      exact ⟨rfl, rfl⟩
  have hnodes4 : listWF s4
      (set_head (cut c.list_storage c.nodes t).1 (cut c.list_storage c.nodes t).2 t).2
      (t :: A) :=
    listWF_congr_links s3 s4 _ _ (fun j _ => hs4links j) hshWF
  -- table_add of the new key on element t
  have hht4 : htWF ht2 s4 c.mask_for_hash A := by
    refine htWF_congr_ips ht2 c.list_storage s4 c.mask_for_hash A ?_ hdelht
    intro j hj
    have hjt : j ≠ t := fun hh => htA (hh ▸ hj)
    rw [hs4o j hjt]
    exact (hs3ipval j).1
  have hAlt : A.length < ht2.length := by
    have hpos : 0 < c.hash_table.length := by
      rw [hkk]; exact pow2_pos kk
    have hlA : (A ++ [t]).length = A.length + 1 := by simp
    omega
  have hANO : ∀ i ∈ A, i ≠ NO_INDEX := fun i hi =>
    (hbdL i (List.mem_append_left _ hi)).2
  have hfresh4 : ∀ i ∈ A, (cGet s4 i).ip ≠ (cGet s4 t).ip := by
    intro i hi
    have hit : i ≠ t := fun hh => htA (hh ▸ hi)
    rw [hs4o i hit, hs4t]
    have := (hs3ipval i).1
    rw [this]
    exact hfresh i (List.mem_append_left _ hi)
  have hkk2 : ({ c with hash_table := ht2 } : HmCache).hash_table.length = 2 ^ kk := by
    show ht2.length = 2 ^ kk
    rw [hdellen]
    exact hkk
  have hmask2 : ({ c with hash_table := ht2 } : HmCache).mask_for_hash =
      ({ c with hash_table := ht2 } : HmCache).hash_table.length - 1 := by
    show c.mask_for_hash = ht2.length - 1
    rw [hmask, hdellen]
  obtain ⟨b', hb'lt, hb'emp, haddeq, haddht⟩ := table_add_spec
    { c with
      hash_table := ht2,
      list_storage := s4,
      nodes := (set_head (cut c.list_storage c.nodes t).1 (cut c.list_storage c.nodes t).2 t).2 }
    A t kk hkk2 hmask2 hht4 hAlt hndA hANO htNO hfresh4
  have harg : (cGet ({ c with
      hash_table := ht2,
      list_storage := s4,
      nodes := (set_head (cut c.list_storage c.nodes t).1 (cut c.list_storage c.nodes t).2 t).2 } :
        HmCache).list_storage t).ip = ip := by
    show (cGet s4 t).ip = ip
    rw [hs4t]
  rw [harg] at haddeq
  refine ⟨{ c with
      hash_table := ht2.set b' t,
      list_storage := s4,
      nodes := (set_head (cut c.list_storage c.nodes t).1 (cut c.list_storage c.nodes t).2 t).2 },
      ?_, ?_, rfl, rfl, hs4len, ?_, ?_, ?_, ?_⟩
  · -- the call equation
    rw [hm_cache_add, hlook]
    simp only [Option.bind_eq_bind, Option.some_bind]
    rw [if_neg (fun hh => hh rfl), if_pos hfreeNO, htail, hdeleq]
    simp only [Option.some_bind]
    rw [show ({ c with hash_table := ht2 } : HmCache).list_storage =
      c.list_storage from rfl]
    rw [show ({ c with hash_table := ht2 } : HmCache).nodes = c.nodes from rfl]
    rw [haddeq]
    rfl
  · -- CacheWF
    have hperm : ((A ++ [t]) ++ ([] : List Nat)).Perm ((t :: A) ++ []) := by
      simp only [List.append_nil]
      have := perm_mid A [] t
      simpa using this
    refine ⟨hnodes4, ⟨trivial, hF.2.1, hF.2.2⟩, ?_, ?_, ?_,
      hs4len.trans hslen, hcap, ?_,
      ⟨kk, by rw [List.length_set, hdellen]; exact hkk⟩, ?_, ?_, haddht⟩
    · exact hperm.nodup_iff.1 hnd
    · intro j hj
      exact hbd j (hperm.mem_iff.2 hj)
    · intro j hj
      exact hperm.mem_iff.1 (hcomp j hj)
    · show (t :: A).length + ([] : List Nat).length = c.capacity
      have hsum2 := hsum
      simp only [List.length_append, List.length_cons, List.length_nil]
        at hsum2 ⊢
      omega
    · show c.mask_for_hash = (ht2.set b' t).length - 1
      rw [List.length_set, hdellen]
      exact hmask
    · show 2 * c.capacity ≤ (ht2.set b' t).length
      rw [List.length_set, hdellen]
      exact h2cap
  · show (cGet s4 t).ip = ip
    rw [hs4t]
  · show (cGet s4 t).value = v
    rw [hs4t]
  · intro j hj
    show (cGet s4 j).ip = (cGet c.list_storage j).ip ∧
      (cGet s4 j).value = (cGet c.list_storage j).value
    rw [hs4o j hj]
    exact hs3ipval j
  · exact hnodes4.2.1


/- ---- dump ---- -/

theorem dumpGo_spec (s : List CElem) :
    ∀ (L : List Nat) (p fuel : Nat),
      chainSeg s p L NO_INDEX → (∀ j ∈ L, j ≠ NO_INDEX) → L.length < fuel →
      dumpGo s (L.headD NO_INDEX) fuel = L.map (fun i => (cGet s i).ip) := by
  intro L
  induction L with
  | nil =>
    intro p fuel _ _ hf
    cases fuel with
    | zero => omega
    | succ f =>
      simp [dumpGo]
  | cons a rest ih =>
    intro p fuel hchain hNO hf
    cases fuel with
    | zero => simp at hf
    | succ f =>
      rw [chainSeg_cons] at hchain
      obtain ⟨_, hnext, hrest⟩ := hchain
      have haNO : a ≠ NO_INDEX := hNO a (List.mem_cons_self a rest)
      show dumpGo s a (f + 1) = _
      rw [dumpGo, if_neg haNO, hnext]
      rw [ih a f hrest (fun j hj => hNO j (List.mem_cons_of_mem a hj))
        (by simp at hf ⊢; omega)]
      rfl


theorem hm_cache_dump_spec (c : HmCache) (L F : List Nat) (hWF : CacheWF c L F) :
    hm_cache_dump c = L.map (fun i => (cGet c.list_storage i).ip) := by
  obtain ⟨hL, hF, hnd, hbd, hcomp, hslen, hcap, hsum, hpow, hmask, h2cap, hht⟩ := hWF
  rw [hm_cache_dump, hL.2.1]
  apply dumpGo_spec c.list_storage L NO_INDEX (c.capacity + 1) hL.1
  · intro j hj
    exact Nat.ne_of_lt (lt_trans (hbd j (List.mem_append_left F hj)) hcap)
  · omega


theorem cacheC0_init : hm_cache_init 2 1 = Except.ok cacheC0 := by rfl


theorem cacheC1_step : hm_cache_add cacheC0 5 7 = some (cacheC1, false, false, none) := by
  rfl


theorem cacheWF_ex : CacheWF cacheC1 [0] [1] := by
  have hinit := (hm_cache_init_spec 2 1 cacheC0 cacheC0_init).1
  have hfresh : ∀ i ∈ ([] : List Nat), (cGet cacheC0.list_storage i).ip ≠ 5 := by
    intro i hi
    exact absurd hi (List.not_mem_nil i)
  obtain ⟨c', heq, hWF', _⟩ := hm_cache_add_fresh cacheC0 [] [1] 0 5 7 hinit hfresh
  rw [cacheC1_step] at heq
  have hc' : cacheC1 = c' := by
    have h1 := Option.some.inj heq
    exact congrArg Prod.fst h1
  rw [hc']
  exact hWF'


/-- C5: hm_cache_init establishes, and hm_cache_add / hm_cache_remove /
hm_cache_has preserve, the combined invariant `CacheWF`: every element is in
exactly one of the LRU list and the free list, linkage is symmetric with
NO_INDEX exactly at heads/tails, the two list lengths sum to the capacity,
and every occupied hash-table cell satisfies the Robin-Hood cluster
invariant (no empty cell on the cyclic probe path from the natural bucket),
so table_lookup from the natural bucket reaches every stored key. -/
theorem c5_invariants_established_and_preserved (capacity speed : Nat)
    (c0 : HmCache) (h0 : hm_cache_init capacity speed = Except.ok c0) :
    CacheWF c0 [] (List.range capacity) ∧
    (∀ c L F ip v, CacheWF c L F → 0 < c.capacity →
      ∃ out L' F', hm_cache_add c ip v = some out ∧ CacheWF out.1 L' F') ∧
    (∀ c L F ip, CacheWF c L F →
      ∃ out L' F', hm_cache_remove c ip = some out ∧ CacheWF out.1 L' F') ∧
    (∀ c L F ip, CacheWF c L F →
      ∃ out L' F', hm_cache_has c ip = some out ∧ CacheWF out.1 L' F') ∧
    (∀ c L F, CacheWF c L F → ∀ i ∈ L,
      table_lookup c ((cGet c.list_storage i).ip) = some i) := by
  refine ⟨(hm_cache_init_spec capacity speed c0 h0).1, ?_, ?_, ?_, ?_⟩
  · intro c L F ip v hWF hpos
    by_cases hex : ∃ idx, idx ∈ L ∧ (cGet c.list_storage idx).ip = ip
    · obtain ⟨idx, hmem, hkey⟩ := hex
      obtain ⟨A, B, hLdec⟩ := List.append_of_mem hmem
      subst hLdec
      obtain ⟨c', heq, hWF', _⟩ := hm_cache_add_existing c A B F idx v hWF
      rw [hkey] at heq
      exact ⟨(c', true, false, none), idx :: (A ++ B), F, heq, hWF'⟩
    · push_neg at hex
      have hfresh : ∀ i ∈ L, (cGet c.list_storage i).ip ≠ ip := fun i hi =>
        hex i hi
      cases F with
      | cons f F' =>
        obtain ⟨c', heq, hWF', _⟩ :=
          hm_cache_add_fresh c L F' f ip v hWF hfresh
        exact ⟨(c', false, false, none), f :: L, F', heq, hWF'⟩
      | nil =>
        rcases List.eq_nil_or_concat L with hL0 | ⟨A, t, hAt⟩
        · exfalso
          obtain ⟨_, _, _, _, _, _, _, hsum, _⟩ := hWF
          rw [hL0] at hsum
          simp only [List.length_nil] at hsum
          omega
        · rw [List.concat_eq_append] at hAt
          subst hAt
          obtain ⟨c', heq, hWF', _⟩ :=
            hm_cache_add_evict c A t ip v hWF hfresh
          exact ⟨(c', false, true,
            some ((cGet c.list_storage t).ip, (cGet c.list_storage t).value)),
            t :: A, [], heq, hWF'⟩
  · intro c L F ip hWF
    by_cases hex : ∃ idx, idx ∈ L ∧ (cGet c.list_storage idx).ip = ip
    · obtain ⟨idx, hmem, hkey⟩ := hex
      obtain ⟨A, B, hLdec⟩ := List.append_of_mem hmem
      subst hLdec
      obtain ⟨c', heq, hWF', _⟩ := hm_cache_remove_present c A B F idx hWF
      rw [hkey] at heq
      exact ⟨(c', true, some ((cGet c.list_storage idx).value)), A ++ B,
        idx :: F, heq, hWF'⟩
    · push_neg at hex
      have heq := hm_cache_remove_miss c L F ip hWF (fun i hi => hex i hi)
      exact ⟨(c, false, none), L, F, heq, hWF⟩
  · intro c L F ip hWF
    by_cases hex : ∃ idx, idx ∈ L ∧ (cGet c.list_storage idx).ip = ip
    · obtain ⟨idx, hmem, hkey⟩ := hex
      obtain ⟨A, B, hLdec⟩ := List.append_of_mem hmem
      subst hLdec
      obtain ⟨c', heq, _, _, hWF', _⟩ := hm_cache_has_hit c A B F idx hWF
      rw [hkey] at heq
      exact ⟨(c', true, some ((cGet c'.list_storage idx).value)),
        idx :: (A ++ B), F, heq, hWF'⟩
    · push_neg at hex
      have heq := hm_cache_has_miss c L F ip hWF (fun i hi => hex i hi)
      exact ⟨(c, false, none), L, F, heq, hWF⟩
  · intro c L F hWF i hi
    exact table_lookup_found c L F i hWF hi


theorem c5_invariants_witness : CacheWF cacheC0 [] (List.range 2) :=
  (c5_invariants_established_and_preserved 2 1 cacheC0 rfl).1


/-- C10: adding a key that is already present overwrites the stored value,
promotes the element to the head of the LRU list, reports existed = true and
evicted = false with no eviction payload, leaves the hash table, the free
list, the capacity, the mask, every other element's key and value, and the
set of live elements unchanged, and a subsequent hm_cache_has of that key
returns true with the new value. -/
theorem c10_add_existing_overwrites_and_promotes (c : HmCache)
    (A B F : List Nat) (idx v : Nat) (hWF : CacheWF c (A ++ idx :: B) F) :
    ∃ c', hm_cache_add c ((cGet c.list_storage idx).ip) v =
        some (c', true, false, none) ∧
      c'.hash_table = c.hash_table ∧ c'.free_nodes = c.free_nodes ∧
      c'.capacity = c.capacity ∧ c'.mask_for_hash = c.mask_for_hash ∧
      (cGet c'.list_storage idx).value = v ∧
      (cGet c'.list_storage idx).ip = (cGet c.list_storage idx).ip ∧
      (∀ j, j ≠ idx → (cGet c'.list_storage j).ip = (cGet c.list_storage j).ip ∧
        (cGet c'.list_storage j).value = (cGet c.list_storage j).value) ∧
      c'.nodes.head_index = idx ∧
      CacheWF c' (idx :: (A ++ B)) F ∧
      (∀ j, j ∈ idx :: (A ++ B) ↔ j ∈ A ++ idx :: B) ∧
      (∃ c'', hm_cache_has c' ((cGet c.list_storage idx).ip) =
        some (c'', true, some v)) := by
  obtain ⟨c', heq, hWF', hht, hfree, hcap, hmask, hlen, hhead, hip, hval,
    hframe⟩ := hm_cache_add_existing c A B F idx v hWF
  refine ⟨c', heq, hht, hfree, hcap, hmask, hval, hip, hframe, hhead, hWF',
    fun j => ((perm_mid A B idx).mem_iff).symm, ?_⟩
  obtain ⟨c'', heq2, hval2, hip2, _⟩ :=
    hm_cache_has_hit c' [] (A ++ B) F idx hWF'
  rw [hip, hval2, hval] at heq2
  exact ⟨c'', heq2⟩


theorem c10_add_existing_witness :
    CacheWF cacheC1 ([] ++ 0 :: []) [1] ∧
    (∃ c', hm_cache_add cacheC1 ((cGet cacheC1.list_storage 0).ip) 9 =
      some (c', true, false, none)) :=
  ⟨cacheWF_ex,
    (c10_add_existing_overwrites_and_promotes cacheC1 [] [] [1] 0 9
      cacheWF_ex).imp (fun c' h => h.1)⟩


theorem find_map_skip (f : Nat → Nat × Nat) (A rest : List Nat) (ip : Nat)
    (hA : ∀ a ∈ A, (f a).1 ≠ ip) :
    ((A ++ rest).map f).find? (fun p => p.1 == ip) =
      (rest.map f).find? (fun p => p.1 == ip) := by
  induction A with
  | nil => rfl
  | cons a A ih =>
    simp only [List.cons_append, List.map_cons]
    rw [List.find?_cons_of_neg]
    · exact ih (fun x hx => hA x (List.mem_cons_of_mem a hx))
    · simp only [beq_iff_eq]
      exact hA a (List.mem_cons_self a A)


theorem find_map_head (f : Nat → Nat × Nat) (idx : Nat) (rest : List Nat)
    (ip : Nat) (h : (f idx).1 = ip) :
    ((idx :: rest).map f).find? (fun p => p.1 == ip) = some (f idx) := by
  simp only [List.map_cons]
  rw [List.find?_cons_of_pos]
  simp only [beq_iff_eq]
  exact h


theorem find_map_none (f : Nat → Nat × Nat) (L : List Nat) (ip : Nat)
    (h : ∀ a ∈ L, (f a).1 ≠ ip) :
    ((L.map f).find? (fun p => p.1 == ip)) = none := by
  rw [List.find?_eq_none]
  intro x hx
  obtain ⟨a, ha, rfl⟩ := List.mem_map.1 hx
  simp only [beq_iff_eq]
  exact h a ha


theorem eraseP_map_key (f : Nat → Nat × Nat) (A B : List Nat) (idx ip : Nat)
    (hA : ∀ a ∈ A, (f a).1 ≠ ip) (hidx : (f idx).1 = ip) :
    ((A ++ idx :: B).map f).eraseP (fun p => p.1 == ip) = (A ++ B).map f := by
  induction A with
  | nil =>
    simp only [List.nil_append, List.map_cons]
    rw [List.eraseP_cons_of_pos]
    simp only [beq_iff_eq]
    exact hidx
  | cons a A ih =>
    simp only [List.cons_append, List.map_cons]
    rw [List.eraseP_cons_of_neg]
    · rw [ih (fun x hx => hA x (List.mem_cons_of_mem a hx))]
    · simp only [beq_iff_eq]
      exact hA a (List.mem_cons_self a A)


theorem getLastD_concat_p (l : List (Nat × Nat)) (a : Nat × Nat) :
    ∀ d, (l ++ [a]).getLastD d = a := by
  induction l with
  | nil => intro d; rfl
  | cons x l ih =>
    intro d
    rw [List.cons_append, List.getLastD_cons]
    exact ih x


theorem applyOp_refines (cap : Nat) (c : HmCache) (L F : List Nat)
    (op : CacheOp) (hWF : CacheWF c L F) (hcap : c.capacity = cap)
    (hpos : 0 < cap) :
    ∃ c' L' F', applyOp c op = some (c', (absApply cap (modelOf c L) op).2) ∧
      CacheWF c' L' F' ∧ c'.capacity = cap ∧
      modelOf c' L' = (absApply cap (modelOf c L) op).1 := by
  have hWF2 := hWF
  obtain ⟨hLwf, hFwf, hnd, hbd, hcomp, hslen, hcapNO, hsum, hpow, hmask,
    h2cap, hht⟩ := hWF2
  have hkeys := hht.2.2.2.1
  have hndL : L.Nodup := (List.nodup_append.1 hnd).1
  have hdisj : L.Disjoint F := (List.nodup_append.1 hnd).2.2
  have hmlen : (modelOf c L).length = L.length := by
    rw [modelOf, List.length_map]
  cases op with
  | add ip v =>
    by_cases hex : ∃ idx, idx ∈ L ∧ (cGet c.list_storage idx).ip = ip
    · obtain ⟨idx, hmem, hkey⟩ := hex
      obtain ⟨A, B, hLdec⟩ := List.append_of_mem hmem
      subst hLdec
      have hndL' := hndL
      rw [List.nodup_append] at hndL'
      have hidxA : idx ∉ A := fun hh =>
        hndL'.2.2 hh (List.mem_cons_self idx B)
      have hidxB : idx ∉ B := (List.nodup_cons.1 hndL'.2.1).1
      have hidxAB : idx ∉ A ++ B := by
        intro hh
        rcases List.mem_append.1 hh with h | h
        · exact hidxA h
        · exact hidxB h
      have hA : ∀ a ∈ A, ((fun i => ((cGet c.list_storage i).ip,
          (cGet c.list_storage i).value)) a).1 ≠ ip := by
        intro a ha
        show (cGet c.list_storage a).ip ≠ ip
        have hane : a ≠ idx := fun hh => hidxA (hh ▸ ha)
        rw [← hkey]
        exact hkeys a idx (List.mem_append_left _ ha)
          (List.mem_append_right _ (List.mem_cons_self idx B)) hane
      have hlookm : absLookup (modelOf c (A ++ idx :: B)) ip =
          some ((cGet c.list_storage idx).value) := by
        rw [absLookup, modelOf]
        rw [find_map_skip _ A (idx :: B) ip hA]
        rw [find_map_head _ idx B ip hkey]
        rfl
      have habs : absApply cap (modelOf c (A ++ idx :: B)) (CacheOp.add ip v) =
          ((ip, v) :: (modelOf c (A ++ idx :: B)).eraseP (fun p => p.1 == ip),
            ⟨true, false, none, none⟩) := by
        simp only [absApply, hlookm]
      obtain ⟨c', heq, hWF', hht', hfree', hcap', hmask', hlen', hhead',
        hip', hval', hframe'⟩ := hm_cache_add_existing c A B F idx v hWF
      rw [hkey] at heq
      refine ⟨c', idx :: (A ++ B), F, ?_, hWF', hcap'.trans hcap, ?_⟩
      · simp only [applyOp, heq, habs]
      · rw [habs]
        show ((cGet c'.list_storage idx).ip, (cGet c'.list_storage idx).value)
            :: (A ++ B).map (fun i => ((cGet c'.list_storage i).ip,
              (cGet c'.list_storage i).value)) =
          (ip, v) :: (modelOf c (A ++ idx :: B)).eraseP (fun p => p.1 == ip)
        rw [hip', hval', hkey]
        congr 1
        rw [modelOf, eraseP_map_key _ A B idx ip hA hkey]
        apply List.map_congr_left
        intro j hj
        have hjne : j ≠ idx := fun hh => hidxAB (hh ▸ hj)
        show ((cGet c'.list_storage j).ip, (cGet c'.list_storage j).value) = _
        rw [(hframe' j hjne).1, (hframe' j hjne).2]
    · push_neg at hex
      have hfresh : ∀ i ∈ L, (cGet c.list_storage i).ip ≠ ip := fun i hi =>
        hex i hi
      have hlookm : absLookup (modelOf c L) ip = none := by
        rw [absLookup, modelOf, find_map_none]
        · rfl
        · intro a ha
          show (cGet c.list_storage a).ip ≠ ip
          exact hfresh a ha
      cases F with
      | cons f0 F' =>
        have hneq : ¬ (modelOf c L).length = cap := by
          rw [hmlen]
          rw [hcap] at hsum
          simp only [List.length_cons] at hsum
          omega
        have habs : absApply cap (modelOf c L) (CacheOp.add ip v) =
            ((ip, v) :: modelOf c L, ⟨false, false, none, none⟩) := by
          simp only [absApply, hlookm]
          rw [if_neg hneq]
        obtain ⟨c', heq, hWF', hcap', hmask', hlen', hipf, hvalf, hframe',
          hhead'⟩ := hm_cache_add_fresh c L F' f0 ip v hWF hfresh
        have hf0L : f0 ∉ L := fun hh =>
          hdisj hh (List.mem_cons_self f0 F')
        refine ⟨c', f0 :: L, F', ?_, hWF', hcap'.trans hcap, ?_⟩
        · simp only [applyOp, heq, habs]
        · rw [habs]
          show ((cGet c'.list_storage f0).ip, (cGet c'.list_storage f0).value)
              :: L.map (fun i => ((cGet c'.list_storage i).ip,
                (cGet c'.list_storage i).value)) =
            (ip, v) :: modelOf c L
          rw [hipf, hvalf]
          congr 1
          rw [modelOf]
          apply List.map_congr_left
          intro j hj
          have hjne : j ≠ f0 := fun hh => hf0L (hh ▸ hj)
          show ((cGet c'.list_storage j).ip, (cGet c'.list_storage j).value) = _
          rw [(hframe' j hjne).1, (hframe' j hjne).2]
      | nil =>
        have hLlen : (modelOf c L).length = cap := by
          rw [hmlen]
          rw [hcap] at hsum
          simp only [List.length_nil] at hsum
          omega
        rcases List.eq_nil_or_concat L with hL0 | ⟨A, t, hAt⟩
        · exfalso
          rw [hL0] at hLlen
          simp only [modelOf, List.map_nil, List.length_nil] at hLlen
          omega
        · rw [List.concat_eq_append] at hAt
          subst hAt
          have hndL' := hndL
          rw [List.nodup_append] at hndL'
          have htA : t ∉ A := fun hh =>
            hndL'.2.2 hh (List.mem_cons_self t [])
          have hmdecomp : modelOf c (A ++ [t]) =
              A.map (fun i => ((cGet c.list_storage i).ip,
                (cGet c.list_storage i).value)) ++
              [((cGet c.list_storage t).ip, (cGet c.list_storage t).value)] := by
            rw [modelOf, List.map_append]
            rfl
          have hlast : (modelOf c (A ++ [t])).getLastD (0, 0) =
              ((cGet c.list_storage t).ip, (cGet c.list_storage t).value) := by
            rw [hmdecomp, getLastD_concat_p]
          have hdrop : (modelOf c (A ++ [t])).dropLast =
              A.map (fun i => ((cGet c.list_storage i).ip,
                (cGet c.list_storage i).value)) := by
            rw [hmdecomp, List.dropLast_concat]
          have habs : absApply cap (modelOf c (A ++ [t])) (CacheOp.add ip v) =
              ((ip, v) :: A.map (fun i => ((cGet c.list_storage i).ip,
                  (cGet c.list_storage i).value)),
                ⟨false, true,
                 some ((cGet c.list_storage t).ip, (cGet c.list_storage t).value),
                 none⟩) := by
            simp only [absApply, hlookm]
            rw [if_pos hLlen, hlast, hdrop]
          obtain ⟨c', heq, hWF', hcap', hmask', hlen', hipt, hvalt, hframe',
            hhead'⟩ := hm_cache_add_evict c A t ip v hWF hfresh
          refine ⟨c', t :: A, [], ?_, hWF', hcap'.trans hcap, ?_⟩
          · simp only [applyOp, heq, habs]
          · rw [habs]
            show ((cGet c'.list_storage t).ip, (cGet c'.list_storage t).value)
                :: A.map (fun i => ((cGet c'.list_storage i).ip,
                  (cGet c'.list_storage i).value)) =
              (ip, v) :: A.map (fun i => ((cGet c.list_storage i).ip,
                (cGet c.list_storage i).value))
            rw [hipt, hvalt]
            congr 1
            apply List.map_congr_left
            intro j hj
            have hjne : j ≠ t := fun hh => htA (hh ▸ hj)
            show ((cGet c'.list_storage j).ip, (cGet c'.list_storage j).value) = _
            rw [(hframe' j hjne).1, (hframe' j hjne).2]
  | remove ip =>
    by_cases hex : ∃ idx, idx ∈ L ∧ (cGet c.list_storage idx).ip = ip
    · obtain ⟨idx, hmem, hkey⟩ := hex
      obtain ⟨A, B, hLdec⟩ := List.append_of_mem hmem
      subst hLdec
      have hndL' := hndL
      rw [List.nodup_append] at hndL'
      have hidxA : idx ∉ A := fun hh =>
        hndL'.2.2 hh (List.mem_cons_self idx B)
      have hA : ∀ a ∈ A, ((fun i => ((cGet c.list_storage i).ip,
          (cGet c.list_storage i).value)) a).1 ≠ ip := by
        intro a ha
        show (cGet c.list_storage a).ip ≠ ip
        have hane : a ≠ idx := fun hh => hidxA (hh ▸ ha)
        rw [← hkey]
        exact hkeys a idx (List.mem_append_left _ ha)
          (List.mem_append_right _ (List.mem_cons_self idx B)) hane
      have hlookm : absLookup (modelOf c (A ++ idx :: B)) ip =
          some ((cGet c.list_storage idx).value) := by
        rw [absLookup, modelOf]
        rw [find_map_skip _ A (idx :: B) ip hA]
        rw [find_map_head _ idx B ip hkey]
        rfl
      have habs : absApply cap (modelOf c (A ++ idx :: B))
            (CacheOp.remove ip) =
          ((modelOf c (A ++ idx :: B)).eraseP (fun p => p.1 == ip),
            ⟨true, false, none, some ((cGet c.list_storage idx).value)⟩) := by
        simp only [absApply, hlookm]
      obtain ⟨c', heq, hWF', hcap', hmask', hlen', hframe'⟩ :=
        hm_cache_remove_present c A B F idx hWF
      rw [hkey] at heq
      refine ⟨c', A ++ B, idx :: F, ?_, hWF', hcap'.trans hcap, ?_⟩
      · simp only [applyOp, heq, habs]
      · rw [habs]
        show (A ++ B).map (fun i => ((cGet c'.list_storage i).ip,
            (cGet c'.list_storage i).value)) =
          (modelOf c (A ++ idx :: B)).eraseP (fun p => p.1 == ip)
        rw [modelOf, eraseP_map_key _ A B idx ip hA hkey]
        apply List.map_congr_left
        intro j hj
        show ((cGet c'.list_storage j).ip, (cGet c'.list_storage j).value) = _
        rw [(hframe' j).1, (hframe' j).2]
    · push_neg at hex
      have hfresh : ∀ i ∈ L, (cGet c.list_storage i).ip ≠ ip := fun i hi =>
        hex i hi
      have hlookm : absLookup (modelOf c L) ip = none := by
        rw [absLookup, modelOf, find_map_none]
        · rfl
        · intro a ha
          show (cGet c.list_storage a).ip ≠ ip
          exact hfresh a ha
      have habs : absApply cap (modelOf c L) (CacheOp.remove ip) =
          (modelOf c L, ⟨false, false, none, none⟩) := by
        simp only [absApply, hlookm]
      have heq := hm_cache_remove_miss c L F ip hWF hfresh
      refine ⟨c, L, F, ?_, hWF, hcap, ?_⟩
      · simp only [applyOp, heq, habs]
      · rw [habs]
  | has ip =>
    by_cases hex : ∃ idx, idx ∈ L ∧ (cGet c.list_storage idx).ip = ip
    · obtain ⟨idx, hmem, hkey⟩ := hex
      obtain ⟨A, B, hLdec⟩ := List.append_of_mem hmem
      subst hLdec
      have hndL' := hndL
      rw [List.nodup_append] at hndL'
      have hidxA : idx ∉ A := fun hh =>
        hndL'.2.2 hh (List.mem_cons_self idx B)
      have hidxB : idx ∉ B := (List.nodup_cons.1 hndL'.2.1).1
      have hidxAB : idx ∉ A ++ B := by
        intro hh
        rcases List.mem_append.1 hh with h | h
        · exact hidxA h
        · exact hidxB h
      have hA : ∀ a ∈ A, ((fun i => ((cGet c.list_storage i).ip,
          (cGet c.list_storage i).value)) a).1 ≠ ip := by
        intro a ha
        show (cGet c.list_storage a).ip ≠ ip
        have hane : a ≠ idx := fun hh => hidxA (hh ▸ ha)
        rw [← hkey]
        exact hkeys a idx (List.mem_append_left _ ha)
          (List.mem_append_right _ (List.mem_cons_self idx B)) hane
      have hlookm : absLookup (modelOf c (A ++ idx :: B)) ip =
          some ((cGet c.list_storage idx).value) := by
        rw [absLookup, modelOf]
        rw [find_map_skip _ A (idx :: B) ip hA]
        rw [find_map_head _ idx B ip hkey]
        rfl
      have habs : absApply cap (modelOf c (A ++ idx :: B)) (CacheOp.has ip) =
          ((ip, (cGet c.list_storage idx).value) ::
              (modelOf c (A ++ idx :: B)).eraseP (fun p => p.1 == ip),
            ⟨true, false, none, some ((cGet c.list_storage idx).value)⟩) := by
        simp only [absApply, hlookm]
      obtain ⟨c', heq, hval2, hip2, hWF', hht', hfree', hcap', hmask', hlen',
        hhead', hframe'⟩ := hm_cache_has_hit c A B F idx hWF
      rw [hkey] at heq
      rw [hval2] at heq
      refine ⟨c', idx :: (A ++ B), F, ?_, hWF', hcap'.trans hcap, ?_⟩
      · simp only [applyOp, heq, habs]
      · rw [habs]
        show ((cGet c'.list_storage idx).ip, (cGet c'.list_storage idx).value)
            :: (A ++ B).map (fun i => ((cGet c'.list_storage i).ip,
              (cGet c'.list_storage i).value)) =
          (ip, (cGet c.list_storage idx).value) ::
            (modelOf c (A ++ idx :: B)).eraseP (fun p => p.1 == ip)
        rw [hip2, hkey, hval2]
        congr 1
        rw [modelOf, eraseP_map_key _ A B idx ip hA hkey]
        apply List.map_congr_left
        intro j hj
        show ((cGet c'.list_storage j).ip, (cGet c'.list_storage j).value) = _
        rw [(hframe' j).1, (hframe' j).2]
    · push_neg at hex
      have hfresh : ∀ i ∈ L, (cGet c.list_storage i).ip ≠ ip := fun i hi =>
        hex i hi
      have hlookm : absLookup (modelOf c L) ip = none := by
        rw [absLookup, modelOf, find_map_none]
        · rfl
        · intro a ha
          show (cGet c.list_storage a).ip ≠ ip
          exact hfresh a ha
      have habs : absApply cap (modelOf c L) (CacheOp.has ip) =
          (modelOf c L, ⟨false, false, none, none⟩) := by
        simp only [absApply, hlookm]
      have heq := hm_cache_has_miss c L F ip hWF hfresh
      refine ⟨c, L, F, ?_, hWF, hcap, ?_⟩
      · simp only [applyOp, heq, habs]
      · rw [habs]


theorem runCache_refines (cap : Nat) (ops : List CacheOp) :
    ∀ c L F, CacheWF c L F → c.capacity = cap → 0 < cap →
    ∃ cf Lf Ff, runCache c ops =
        some (cf, (runAbs cap (modelOf c L) ops).2) ∧
      CacheWF cf Lf Ff ∧ cf.capacity = cap ∧
      modelOf cf Lf = (runAbs cap (modelOf c L) ops).1 := by
  induction ops with
  | nil =>
    intro c L F hWF hcap hpos
    exact ⟨c, L, F, rfl, hWF, hcap, rfl⟩
  | cons op ops ih =>
    intro c L F hWF hcap hpos
    obtain ⟨c', L', F', happ, hWF', hcap', hmodel⟩ :=
      applyOp_refines cap c L F op hWF hcap hpos
    obtain ⟨cf, Lf, Ff, hrun, hWFf, hcapf, hmf⟩ :=
      ih c' L' F' hWF' hcap' hpos
    refine ⟨cf, Lf, Ff, ?_, hWFf, hcapf, ?_⟩
    · show Option.bind (applyOp c op) _ = _
      rw [happ]
      simp only [Option.some_bind]
      rw [hrun]
      simp only [Option.some_bind]
      rw [runAbs]
      rw [← hmodel]
    · rw [runAbs, ← hmodel]
      exact hmf


/-- C4: for every cache produced by hm_cache_init and every sequence of
add / remove / has operations, the implementation run succeeds and agrees
with the abstract LRU model: each operation's reported outputs (existed,
evicted, the evicted key/value pair, the returned value) equal the model's,
where adds and has-hits promote the touched key to newest, an eviction is
reported exactly when a fresh key is added while the free list is empty and
then the evicted pair is the LRU tail immediately before the call; and
hm_cache_dump on the final cache lists the live keys newest first exactly
as in the model. -/
theorem c4_lru_sequence_refinement (capacity speed : Nat) (c0 : HmCache)
    (ops : List CacheOp)
    (h0 : hm_cache_init capacity speed = Except.ok c0) :
    ∃ cf, runCache c0 ops = some (cf, (runAbs capacity [] ops).2) ∧
      hm_cache_dump cf = (runAbs capacity [] ops).1.map Prod.fst := by
  obtain ⟨hWF0, hcap0, _, hcap2⟩ := hm_cache_init_spec capacity speed c0 h0
  obtain ⟨cf, Lf, Ff, hrun, hWFf, _, hmf⟩ :=
    runCache_refines capacity ops c0 [] (List.range capacity) hWF0 hcap0
      (by omega)
  have hm0 : modelOf c0 [] = [] := rfl
  rw [hm0] at hrun hmf
  refine ⟨cf, hrun, ?_⟩
  rw [hm_cache_dump_spec cf Lf Ff hWFf, ← hmf, modelOf, List.map_map]
  rfl


theorem c4_lru_sequence_witness :
    ∃ cf, runCache cacheC0 [CacheOp.add 5 7] =
        some (cf, (runAbs 2 [] [CacheOp.add 5 7]).2) ∧
      hm_cache_dump cf = (runAbs 2 [] [CacheOp.add 5 7]).1.map Prod.fst :=
  c4_lru_sequence_refinement 2 1 cacheC0 [CacheOp.add 5 7] rfl
